import Mathlib

/-!
Verification of the extended stringifier of `stringify-and-view`
(`src/stringify-and-view/stringify-plus.js`, the variant taking an
`options` object with `maxCircularDepth` and `removeTemplate`).

The JavaScript value graph is modelled by a heap: a list of container
objects (`JsObj`, arrays or plain objects) addressed by position, and
values (`JsVal`) that are either primitives, special leaves (functions,
symbols, big integers, dates) or references into the heap.  Object
properties are fields: plain data, accessors that return a value, or
accessors that throw.  The model keeps the own enumerable string-keyed
properties of an object in `fields` (in insertion order, as
`Object.keys` enumerates them); every other kind of property
(inherited, non-enumerable, symbol-keyed) is collected in `hidden`,
which the serializer never consults.  Accessor-assignment corner cases
are out of scope: writing `needsCheck` replaces the field by a data
property holding `false`.

`stringifyPlusInner` is the serializer, translated branch for branch
from the source, with the recursion made total by an explicit fuel
argument (the JavaScript recursion has no fuel; a theorem below shows
a computable amount of fuel, `suffFuel`, always suffices, which is the
termination of the original).  Numbers are modelled as integers
(`Number.isFinite`-failing values get their own constructor), so
floating-point formatting is out of scope.
-/

namespace StringifyPlus

/-- A JavaScript value: primitives, special leaves, or a reference to a
container object in the heap. -/
inductive JsVal where
  | undef
  | jsNull
  | bool (b : Bool)
  | num (n : Int)
  | nonFiniteNum
  | str (s : String)
  | bigInt (n : Int)
  | symbol (description : Option String)
  | func (name : String)
  | date (iso : String)
  | ref (addr : Nat)
deriving DecidableEq

/-- One own enumerable property of an object: a data property, an
accessor returning a value, or an accessor that throws (errors are
identified by a number). -/
inductive JsField where
  | data (v : JsVal)
  | getter (v : JsVal)
  | getterThrows (e : Nat)
deriving DecidableEq

/-- A container object: an array of elements, or a plain object with
its own enumerable string-keyed fields in insertion order plus the
properties the serializer never sees (`hidden`). -/
inductive JsObj where
  | arr (elems : List JsVal)
  | obj (fields : List (String × JsField)) (hidden : List (String × JsField))
deriving DecidableEq

/-- The `options` argument of `stringifyPlus`. -/
structure Opts where
  maxCircularDepth : Nat := 1
  removeTemplate : Bool := false
deriving DecidableEq

/-- The per-call mutable state of `stringifyPlus`: the heap itself
(`value.needsCheck = false` mutates it), the `seen` WeakMap (first-seen
path per object identity) and the `circularDepths` WeakMap (both
association lists; a fresh entry is consed on, so the most recent
binding wins). -/
structure TravState where
  heap : List JsObj
  seen : List (Nat × String)
  circularDepths : List (Nat × Nat)
deriving DecidableEq

/-- Why a serialization stops with an error. -/
inductive ErrKind where
  | getterThrow (e : Nat)
  | danglingRef
deriving DecidableEq

/-- Outcome of a serializer call: a produced string with the state after
the call, a thrown error with the state at the throw, or fuel ran out
(the last never happens with `suffFuel`, as proved below). -/
inductive Res where
  | ok (out : String) (st : TravState)
  | err (e : ErrKind) (st : TravState)
  | fuelOut
deriving DecidableEq

/-- Outcome of serializing a list of children (array elements or object
key/value pairs): the rendered parts in order, or an error. -/
inductive ResList where
  | ok (parts : List String) (st : TravState)
  | err (e : ErrKind) (st : TravState)
  | fuelOut
deriving DecidableEq

/-- Reading a property: its value, or the error the accessor throws. -/
inductive ReadRes where
  | val (v : JsVal)
  | thrown (e : Nat)
deriving DecidableEq

/-- Evaluate a property read (`value[key]`). -/
def readField : JsField → ReadRes
  | .data v => .val v
  | .getter v => .val v
  | .getterThrows e => .thrown e

/-- The decimal digit character for `d < 10`. -/
def digitChar (d : Nat) : Char := Char.ofNat (48 + d)

/-- Decimal digits with explicit fuel (structural recursion, so the
kernel can evaluate it); `fuel > n` always suffices. -/
def natDigitsF : Nat → Nat → List Char
  | 0, _ => []
  | fuel + 1, n =>
    if n < 10 then [digitChar n]
    else natDigitsF fuel (n / 10) ++ [digitChar (n % 10)]

/-- Decimal digits of a natural number, most significant first. -/
def natDigits (n : Nat) : List Char := natDigitsF (n + 1) n

/-- Decimal text of a natural number, as JavaScript `toString` yields
for integral numbers. -/
def natToStr (n : Nat) : String := String.mk (natDigits n)

/-- Decimal text of an integer (model of `Number.prototype.toString`
and `BigInt.prototype.toString` on integral values). -/
def intToStr (n : Int) : String :=
  if n < 0 then "-" ++ natToStr n.natAbs else natToStr n.natAbs

/-- Lowercase hexadecimal digit character for `d < 16`. -/
def hexDigit (d : Nat) : Char :=
  if d < 10 then digitChar d else Char.ofNat (97 + (d - 10))

/-- How `JSON.stringify` escapes one character inside a string
literal. -/
def escChar (c : Char) : List Char :=
  if c = '"' then ['\\', '"']
  else if c = '\\' then ['\\', '\\']
  else if c.toNat = 8 then ['\\', 'b']
  else if c.toNat = 9 then ['\\', 't']
  else if c.toNat = 10 then ['\\', 'n']
  else if c.toNat = 12 then ['\\', 'f']
  else if c.toNat = 13 then ['\\', 'r']
  else if c.toNat < 32 then ['\\', 'u', '0', '0', hexDigit (c.toNat / 16), hexDigit (c.toNat % 16)]
  else [c]

/-- Escaped character list of a string body. -/
def escList (l : List Char) : List Char := (l.map escChar).flatten

/-- `JSON.stringify` applied to a string: quoted and escaped. -/
def jsonQuote (s : String) : String :=
  "\"" ++ String.mk (escList s.data) ++ "\""

/-- The text inside the descriptive string for a callable
(`value.name && value.name !== 'anonymousFunction' ? value.name :
'anonymous'` interpolated into the label). -/
def functionLabelCore (name : String) : String :=
  "[function " ++ (if name ≠ "" ∧ name ≠ "anonymousFunction" then name else "anonymous") ++ "]"

/-- The quoted label emitted for a callable value. -/
def functionLabel (name : String) : String :=
  "\"" ++ functionLabelCore name ++ "\""

/-- The text inside the descriptive string for a symbol
(`value.description || ''` interpolated into the label). -/
def symbolLabelCore (d : Option String) : String :=
  "[Symbol " ++ d.getD "" ++ "]"

/-- The quoted label emitted for a symbol value. -/
def symbolLabel (d : Option String) : String :=
  "\"" ++ symbolLabelCore d ++ "\""

/-- The quoted decimal text emitted for a big integer. -/
def bigIntLit (n : Int) : String := "\"" ++ intToStr n ++ "\""

/-- The marker emitted for `undefined`. -/
def undefinedLit : String := "\"[ undefined ]\""

/-- The replacement text of the `template` redaction rule. -/
def removedLit : String := "\"Removed for performance reasons\""

/-- The terminal circular-reference marker naming a path. -/
def circularMarker (p : String) : String :=
  "\"" ++ ("[Circular Ref: " ++ p ++ "]") ++ "\""

/-- Child path of a mapping: `path.key`. -/
def objChildPath (p k : String) : String := p ++ "." ++ k

/-- Child path of a sequence: `path[index]`. -/
def arrChildPath (p : String) (i : Nat) : String := p ++ "[" ++ natToStr i ++ "]"

/-- `seen.get(a)`. -/
def seenGet (st : TravState) (a : Nat) : Option String :=
  (st.seen.find? (fun q => q.1 == a)).map (fun q => q.2)

/-- `circularDepths.get(a) || 0`. -/
def circGet (st : TravState) (a : Nat) : Nat :=
  ((st.circularDepths.find? (fun q => q.1 == a)).map (fun q => q.2)).getD 0

/-- `circularDepths.set(a, c)`. -/
def circBump (st : TravState) (a c : Nat) : TravState :=
  { st with circularDepths := (a, c) :: st.circularDepths }

/-- `if (!seen.has(a)) seen.set(a, p)`. -/
def seenNote (st : TravState) (a : Nat) (p : String) : TravState :=
  if (seenGet st a).isSome then st else { st with seen := (a, p) :: st.seen }

/-- Settle the `needsCheck` flag of a field list (`value.needsCheck =
false`; the identity when no such key is present). -/
def settleFields (fs : List (String × JsField)) : List (String × JsField) :=
  fs.map (fun q => if q.1 = "needsCheck" then (q.1, JsField.data (.bool false)) else q)

/-- Settle the `needsCheck` flag of a container (arrays carry no extra
properties in the model, so only plain objects change). -/
def settleNeedsCheck : JsObj → JsObj
  | .arr es => .arr es
  | .obj fs hid => .obj (settleFields fs) hid

/-- Write a container back into the heap at address `a`. -/
def heapUpdate (st : TravState) (a : Nat) (o : JsObj) : TravState :=
  { st with heap := st.heap.set a o }

/-- The root special case of the redaction rule (source line 23): a
non-null object-typed value whose key list is exactly `['template']`.
Arrays have index keys and dates have no own enumerable keys, so only
plain single-`template` objects satisfy it. -/
def isSingleTemplateObj (st : TravState) : JsVal → Bool
  | .ref a =>
    match st.heap[a]? with
    | some (.obj fs _) => fs.map Prod.fst == ["template"]
    | _ => false
  | _ => false

/-- Prepend a rendered part onto a list outcome. -/
def consPart (p : String) (r : ResList) : ResList :=
  match r with
  | .ok parts st => .ok (p :: parts) st
  | .err e st => .err e st
  | .fuelOut => .fuelOut

/-- Wrap the outcome of a children traversal in array or object
delimiters. -/
def wrapRes (l r : String) (res : ResList) : Res :=
  match res with
  | .ok parts st => .ok (l ++ String.intercalate "," parts ++ r) st
  | .err e st => .err e st
  | .fuelOut => .fuelOut

/-- Plumbing of one array element: on success continue with the rest of
the elements from the updated state. -/
def recElem (r : Res) (cont : TravState → ResList) : ResList :=
  match r with
  | .ok s st1 => consPart s (cont st1)
  | .err e st1 => .err e st1
  | .fuelOut => .fuelOut

/-- Plumbing of one recursively rendered object member: on success emit
`"key":value` and continue with the remaining members. -/
def recPair (k : String) (r : Res) (cont : TravState → ResList) : ResList :=
  match r with
  | .ok s st1 => consPart (jsonQuote k ++ ":" ++ s) (cont st1)
  | .err e st1 => .err e st1
  | .fuelOut => .fuelOut

mutual

/-- `stringifyPlusInner(value, path, parentIsRoot, inArray, ancestors,
parentKey)` of the source.  The state threads the heap, the `seen` map
and the `circularDepths` map.  The fuel argument (absent from the
source, whose recursion is unbounded) decreases on every call so the
recursion is structural; `suffFuel` below always suffices, which is the
termination of the original recursion. -/
def stringifyPlusInner (opts : Opts) :
    Nat → JsVal → String → Bool → Bool → Finset Nat → Option String → TravState → Res
  | 0, _, _, _, _, _, _, _ => .fuelOut
  | fuel + 1, value, path, parentIsRoot, inArray, ancestors, parentKey, st =>
    if opts.removeTemplate ∧ parentKey = some "template" then
      .ok removedLit st
    else if opts.removeTemplate ∧ parentIsRoot ∧ isSingleTemplateObj st value then
      .ok ("\x7b\"template\":\"Removed for performance reasons\"\x7d") st
    else
      match value with
      | .undef => .ok undefinedLit st
      | .jsNull => .ok "null" st
      | .func name => .ok (functionLabel name) st
      | .symbol d => .ok (symbolLabel d) st
      | .bigInt n => .ok (bigIntLit n) st
      | .date iso => .ok (jsonQuote iso) st
      | .ref a =>
        match st.heap[a]? with
        | none => .err .danglingRef st
        | some ho =>
          if a ∈ ancestors then
            circularCase opts fuel a ho path ancestors st
          else
            visitCase opts fuel a ho path ancestors st
      | .num n => .ok (intToStr n) st
      | .nonFiniteNum => .ok "null" st
      | .str s => .ok (jsonQuote s) st
      | .bool b => .ok (if b then "true" else "false") st

/-- The true-circular-reference branch (source lines 46-87): below the
revisit budget the container is expanded once more and the counter
bumped; at the budget the terminal marker naming the first-seen path is
emitted. -/
def circularCase (opts : Opts) :
    Nat → Nat → JsObj → String → Finset Nat → TravState → Res
  | 0, _, _, _, _, _ => .fuelOut
  | fuel + 1, a, ho, path, ancestors, st =>
    if circGet st a < opts.maxCircularDepth then
      let st1 := circBump st a (circGet st a + 1)
      match ho with
      | .arr elems =>
        wrapRes "[" "]" (arrElems opts fuel elems path 0 (insert a ancestors) st1)
      | .obj fs _ =>
        wrapRes "\x7b" "\x7d" (objPairsCirc opts fuel fs path (insert a ancestors) st1)
    else
      .ok (circularMarker ((seenGet st a).getD path)) st

/-- The first-visit branch (source lines 88-126): note the first-seen
path, settle `needsCheck`, then render the container's children. -/
def visitCase (opts : Opts) :
    Nat → Nat → JsObj → String → Finset Nat → TravState → Res
  | 0, _, _, _, _, _ => .fuelOut
  | fuel + 1, a, ho, path, ancestors, st =>
    let st1 := seenNote st a path
    let st2 := heapUpdate st1 a (settleNeedsCheck ho)
    match settleNeedsCheck ho with
    | .arr elems =>
      wrapRes "[" "]" (arrElems opts fuel elems path 0 (insert a ancestors) st2)
    | .obj fs _ =>
      wrapRes "\x7b" "\x7d" (objPairs opts fuel fs path (insert a ancestors) st2)

/-- Render array elements in order (`value.map(...)` of the source),
extending the path with `[index]`. -/
def arrElems (opts : Opts) :
    Nat → List JsVal → String → Nat → Finset Nat → TravState → ResList
  | 0, _, _, _, _, _ => .fuelOut
  | _ + 1, [], _, _, _, st => .ok [] st
  | fuel + 1, v :: rest, basePath, i, anc, st =>
    recElem (stringifyPlusInner opts fuel v (arrChildPath basePath i) false true anc none st)
      (fun st1 => arrElems opts fuel rest basePath (i + 1) anc st1)

/-- Render object pairs in the first-visit branch (source lines
102-125): the redaction rule is checked before the value is read. -/
def objPairs (opts : Opts) :
    Nat → List (String × JsField) → String → Finset Nat → TravState → ResList
  | 0, _, _, _, _ => .fuelOut
  | _ + 1, [], _, _, st => .ok [] st
  | fuel + 1, (k, f) :: rest, basePath, anc, st =>
    if opts.removeTemplate ∧ k = "template" then
      consPart (jsonQuote k ++ ":" ++ removedLit) (objPairs opts fuel rest basePath anc st)
    else
      match readField f with
      | .thrown e => .err (.getterThrow e) st
      | .val val =>
        match val with
        | .undef =>
          consPart (jsonQuote k ++ ":" ++ undefinedLit) (objPairs opts fuel rest basePath anc st)
        | .jsNull =>
          consPart (jsonQuote k ++ ":" ++ "null") (objPairs opts fuel rest basePath anc st)
        | .func name =>
          consPart (jsonQuote k ++ ":" ++ functionLabel name)
            (objPairs opts fuel rest basePath anc st)
        | .symbol d =>
          consPart (jsonQuote k ++ ":" ++ symbolLabel d)
            (objPairs opts fuel rest basePath anc st)
        | .bigInt n =>
          consPart (jsonQuote k ++ ":" ++ bigIntLit n)
            (objPairs opts fuel rest basePath anc st)
        | v =>
          recPair k (stringifyPlusInner opts fuel v (objChildPath basePath k) false false anc (some k) st)
            (fun st1 => objPairs opts fuel rest basePath anc st1)

/-- Render object pairs inside a circular re-expansion (source lines
59-81, a near duplicate of the first-visit code whose one divergence is
kept: `value[key]` is read BEFORE the redaction rule is checked). -/
def objPairsCirc (opts : Opts) :
    Nat → List (String × JsField) → String → Finset Nat → TravState → ResList
  | 0, _, _, _, _ => .fuelOut
  | _ + 1, [], _, _, st => .ok [] st
  | fuel + 1, (k, f) :: rest, basePath, anc, st =>
    match readField f with
    | .thrown e => .err (.getterThrow e) st
    | .val val =>
      if opts.removeTemplate ∧ k = "template" then
        consPart (jsonQuote k ++ ":" ++ removedLit) (objPairsCirc opts fuel rest basePath anc st)
      else
        match val with
        | .undef =>
          consPart (jsonQuote k ++ ":" ++ undefinedLit)
            (objPairsCirc opts fuel rest basePath anc st)
        | .jsNull =>
          consPart (jsonQuote k ++ ":" ++ "null") (objPairsCirc opts fuel rest basePath anc st)
        | .func name =>
          consPart (jsonQuote k ++ ":" ++ functionLabel name)
            (objPairsCirc opts fuel rest basePath anc st)
        | .symbol d =>
          consPart (jsonQuote k ++ ":" ++ symbolLabel d)
            (objPairsCirc opts fuel rest basePath anc st)
        | .bigInt n =>
          consPart (jsonQuote k ++ ":" ++ bigIntLit n)
            (objPairsCirc opts fuel rest basePath anc st)
        | v =>
          recPair k (stringifyPlusInner opts fuel v (objChildPath basePath k) false false anc (some k) st)
            (fun st1 => objPairsCirc opts fuel rest basePath anc st1)

end

/-- The child count of a container. -/
def objSize : JsObj → Nat
  | .arr es => es.length
  | .obj fs _ => fs.length

/-- The largest child count over the heap. -/
def heapMaxSize (h : List JsObj) : Nat :=
  h.foldr (fun o acc => max (objSize o) acc) 0

/-- Fuel that always suffices for `stringifyPlusInner` (proved below):
the call depth is bounded by the number of container expansions — at
most one non-circular visit per ancestor-chain position plus the total
revisit budget — times the widest container's size. -/
def suffFuel (opts : Opts) (h : List JsObj) : Nat :=
  ((opts.maxCircularDepth * h.length * (h.length + 1) + h.length) *
    (heapMaxSize h + 8)) + 8

/-- `stringifyPlus(data, options)`: run the serializer from the root
with fresh `seen` and `circularDepths`. -/
def stringifyPlus (opts : Opts) (heap : List JsObj) (data : JsVal) : Res :=
  stringifyPlusInner opts (suffFuel opts heap) data "root" true false ∅ none
    ⟨heap, [], []⟩

/-- The produced text of an outcome, when serialization succeeded. -/
def resOut : Res → Option String
  | .ok s _ => some s
  | _ => none

/-- The final state of an outcome (also after a throw: the heap is
shared with the caller, so mutations before the throw persist). -/
def resState : Res → Option TravState
  | .ok _ st => some st
  | .err _ st => some st
  | .fuelOut => none

/-- The thrown error of an outcome, when serialization failed. -/
def resErr : Res → Option ErrKind
  | .err e _ => some e
  | _ => none

/-! ## JSON syntax

A JSON value, and its compact rendering.  A string is syntactically
valid JSON exactly when it is the rendering of some `Json` value. -/

/-- A JSON value (numbers restricted to integers, as in the model). -/
inductive Json where
  | null
  | bool (b : Bool)
  | num (n : Int)
  | str (s : String)
  | arr (xs : List Json)
  | obj (kvs : List (String × Json))

mutual

/-- Compact rendering of a JSON value (no whitespace), matching what
`JSON.stringify` with no indent produces. -/
def renderJson : Json → String
  | .null => "null"
  | .bool b => if b then "true" else "false"
  | .num n => intToStr n
  | .str s => jsonQuote s
  | .arr xs => "[" ++ String.intercalate "," (renderList xs) ++ "]"
  | .obj kvs => "\x7b" ++ String.intercalate "," (renderKVs kvs) ++ "\x7d"

/-- Renderings of array elements. -/
def renderList : List Json → List String
  | [] => []
  | x :: xs => renderJson x :: renderList xs

/-- Renderings of object members (`"key":value`). -/
def renderKVs : List (String × Json) → List String
  | [] => []
  | (k, v) :: xs => (jsonQuote k ++ ":" ++ renderJson v) :: renderKVs xs

end

/-- A string is syntactically valid JSON text: some JSON value renders
to it. -/
def ValidJson (s : String) : Prop := ∃ j : Json, renderJson j = s

/-! ## The evolution relation (frame property)

The only mutation `stringifyPlus` performs on the heap is settling
`needsCheck` flags; `seen` only gains entries and `circularDepths`
counters only grow. -/

/-- Each address holds either its old container or that container with
`needsCheck` settled, and the heap's size never changes. -/
def heapEvolve (h h' : List JsObj) : Prop :=
  h'.length = h.length ∧
    ∀ a : Nat, h'[a]? = h[a]? ∨ h'[a]? = (h[a]?).map settleNeedsCheck

/-- First-seen paths are never dropped or changed. -/
def seenExtends (st st' : TravState) : Prop :=
  ∀ a p, seenGet st a = some p → seenGet st' a = some p

/-- Revisit counters never decrease. -/
def circMono (st st' : TravState) : Prop :=
  ∀ a, circGet st a ≤ circGet st' a

/-- The full state-evolution relation of one serializer call. -/
def stEvolve (st st' : TravState) : Prop :=
  heapEvolve st.heap st'.heap ∧ seenExtends st st' ∧ circMono st st'

/-- Evolution claim about a call outcome (both on success and on a
throw; meaningless when fuel ran out). -/
def resEvolve (st : TravState) : Res → Prop
  | .ok _ st' => stEvolve st st'
  | .err _ st' => stEvolve st st'
  | .fuelOut => True

/-- Evolution claim about a children-list outcome. -/
def resListEvolve (st : TravState) : ResList → Prop
  | .ok _ st' => stEvolve st st'
  | .err _ st' => stEvolve st st'
  | .fuelOut => True

theorem settleFields_idem (fs : List (String × JsField)) :
    settleFields (settleFields fs) = settleFields fs := by
  simp only [settleFields, List.map_map]
  apply List.map_congr_left
  intro q _
  by_cases h : q.1 = "needsCheck" <;> simp [h]

theorem settleNeedsCheck_idem (o : JsObj) :
    settleNeedsCheck (settleNeedsCheck o) = settleNeedsCheck o := by
  cases o with
  | arr es => rfl
  | obj fs hid => simp [settleNeedsCheck, settleFields_idem]

theorem heapEvolve_refl (h : List JsObj) : heapEvolve h h :=
  ⟨rfl, fun _ => Or.inl rfl⟩

theorem heapEvolve_trans {h h' h'' : List JsObj}
    (e1 : heapEvolve h h') (e2 : heapEvolve h' h'') : heapEvolve h h'' := by
  refine ⟨e2.1.trans e1.1, fun a => ?_⟩
  rcases e2.2 a with hx | hx <;> rcases e1.2 a with hy | hy <;> rw [hx, hy]
  · exact Or.inl rfl
  · exact Or.inr rfl
  · exact Or.inr rfl
  · refine Or.inr ?_
    cases h[a]? with
    | none => rfl
    | some o => simp [settleNeedsCheck_idem]

theorem stEvolve_refl (st : TravState) : stEvolve st st :=
  ⟨heapEvolve_refl _, fun _ _ hp => hp, fun _ => le_rfl⟩

theorem stEvolve_trans {st st' st'' : TravState}
    (e1 : stEvolve st st') (e2 : stEvolve st' st'') : stEvolve st st'' :=
  ⟨heapEvolve_trans e1.1 e2.1, fun a p hp => e2.2.1 a p (e1.2.1 a p hp),
    fun a => (e1.2.2 a).trans (e2.2.2 a)⟩

theorem seenGet_cons (h : List JsObj) (s : List (Nat × String))
    (c : List (Nat × Nat)) (a x : Nat) (p : String) :
    seenGet ⟨h, (a, p) :: s, c⟩ x = if a = x then some p else seenGet ⟨h, s, c⟩ x := by
  by_cases hax : a = x <;> simp [seenGet, List.find?_cons, hax]

theorem circGet_cons (h : List JsObj) (s : List (Nat × String))
    (c : List (Nat × Nat)) (a x n : Nat) :
    circGet ⟨h, s, (a, n) :: c⟩ x = if a = x then n else circGet ⟨h, s, c⟩ x := by
  by_cases hax : a = x <;> simp [circGet, List.find?_cons, hax]

theorem stEvolve_seenNote (st : TravState) (a : Nat) (p : String) :
    stEvolve st (seenNote st a p) := by
  unfold seenNote
  split
  · exact stEvolve_refl st
  · rename_i hnone
    refine ⟨heapEvolve_refl _, fun x q hq => ?_, fun x => le_rfl⟩
    cases st with
    | mk h s c =>
      rw [seenGet_cons]
      split
      · rename_i hax
        rw [← hax] at hq
        rw [hq] at hnone
        simp at hnone
      · exact hq

theorem stEvolve_circBump (st : TravState) (a c : Nat) (hc : circGet st a ≤ c) :
    stEvolve st (circBump st a c) := by
  refine ⟨heapEvolve_refl _, fun x q hq => hq, fun x => ?_⟩
  cases st with
  | mk h s cd =>
    show circGet _ x ≤ circGet ⟨h, s, (a, c) :: cd⟩ x
    rw [circGet_cons]
    split
    · rename_i hax
      rw [← hax]
      exact hc
    · exact le_rfl

theorem stEvolve_heapUpdate (st : TravState) (a : Nat) (ho : JsObj)
    (hlk : st.heap[a]? = some ho) :
    stEvolve st (heapUpdate st a (settleNeedsCheck ho)) := by
  refine ⟨⟨by simp [heapUpdate], fun x => ?_⟩, fun x q hq => hq, fun x => le_rfl⟩
  show (st.heap.set a (settleNeedsCheck ho))[x]? = _ ∨
    (st.heap.set a (settleNeedsCheck ho))[x]? = _
  by_cases hax : a = x
  · subst hax
    have ha : a < st.heap.length := by
      by_contra hcon
      rw [List.getElem?_eq_none (by omega)] at hlk
      exact Option.noConfusion hlk
    rw [List.getElem?_set_eq_of_lt _ ha, hlk]
    exact Or.inr rfl
  · rw [List.getElem?_set_ne hax]
    exact Or.inl rfl

theorem resListEvolve_pre {st st1 : TravState} (h1 : stEvolve st st1) {r : ResList}
    (h2 : resListEvolve st1 r) : resListEvolve st r := by
  cases r with
  | ok parts st2 => exact stEvolve_trans h1 h2
  | err e st2 => exact stEvolve_trans h1 h2
  | fuelOut => trivial

theorem resListEvolve_consPart (p : String) {st : TravState} {r : ResList}
    (h2 : resListEvolve st r) : resListEvolve st (consPart p r) := by
  cases r with
  | ok parts st2 => exact h2
  | err e st2 => exact h2
  | fuelOut => trivial

theorem resEvolve_wrapRes (l r : String) {st : TravState} {res : ResList}
    (h : resListEvolve st res) : resEvolve st (wrapRes l r res) := by
  cases res with
  | ok parts st2 => exact h
  | err e st2 => exact h
  | fuelOut => trivial

theorem resListEvolve_recElem {st : TravState} {r : Res} (h1 : resEvolve st r)
    {cont : TravState → ResList} (hcont : ∀ st1, resListEvolve st1 (cont st1)) :
    resListEvolve st (recElem r cont) := by
  cases r with
  | ok s st1 => exact resListEvolve_consPart _ (resListEvolve_pre h1 (hcont st1))
  | err e st1 => exact h1
  | fuelOut => trivial

theorem resListEvolve_recPair (k : String) {st : TravState} {r : Res}
    (h1 : resEvolve st r)
    {cont : TravState → ResList} (hcont : ∀ st1, resListEvolve st1 (cont st1)) :
    resListEvolve st (recPair k r cont) := by
  cases r with
  | ok s st1 => exact resListEvolve_consPart _ (resListEvolve_pre h1 (hcont st1))
  | err e st1 => exact h1
  | fuelOut => trivial

/-! ## Well-formedness, absence of throwing reads, safe names

`heapWFb` asks every reference to point into the heap (object identity
in JavaScript cannot dangle).  `heapNoThrowb` asks that no reachable
property is a throwing accessor.  `safeStr` asks that a string contain
no character that `JSON.stringify` would escape; the serializer
interpolates function names, symbol descriptions and paths into its
output verbatim, so these must be safe for the output to be valid
JSON. -/

/-- No JSON escaping needed: not a quote, not a backslash, not a
control character. -/
def safeChar (c : Char) : Bool := c != '"' && c != '\\' && decide (32 ≤ c.toNat)

/-- All characters of the string are `safeChar`. -/
def safeStr (s : String) : Bool := s.data.all safeChar

/-- References point below the heap size `L`. -/
def valWFb (L : Nat) : JsVal → Bool
  | .ref a => decide (a < L)
  | _ => true

/-- Function names and symbol descriptions are escape-free. -/
def valSafeb : JsVal → Bool
  | .func n => safeStr n
  | .symbol d => safeStr (d.getD "")
  | _ => true

/-- Lift a value predicate to a field (trivially true on throwing
accessors, whose value is never obtained). -/
def fieldValb (P : JsVal → Bool) : JsField → Bool
  | .data v => P v
  | .getter v => P v
  | .getterThrows _ => true

/-- The field is not a throwing accessor. -/
def fieldNoThrowb : JsField → Bool
  | .getterThrows _ => false
  | _ => true

/-- All the container's reachable values satisfy `valWFb L`. -/
def objWFb (L : Nat) : JsObj → Bool
  | .arr es => es.all (valWFb L)
  | .obj fs _ => fs.all (fun q => fieldValb (valWFb L) q.2)

/-- All keys and all names/descriptions in the container are
escape-free. -/
def objSafeb : JsObj → Bool
  | .arr es => es.all valSafeb
  | .obj fs _ => fs.all (fun q => safeStr q.1 && fieldValb valSafeb q.2)

/-- No field of the container throws when read. -/
def objNoThrowb : JsObj → Bool
  | .arr _ => true
  | .obj fs _ => fs.all (fun q => fieldNoThrowb q.2)

/-- Every reference anywhere in the heap stays inside the heap. -/
def heapWFb (h : List JsObj) : Bool := h.all (objWFb h.length)

/-- Every key, function name and symbol description in the heap is
escape-free. -/
def heapSafeb (h : List JsObj) : Bool := h.all objSafeb

/-- No property read anywhere in the heap throws. -/
def heapNoThrowb (h : List JsObj) : Bool := h.all objNoThrowb

theorem settleFields_length (fs : List (String × JsField)) :
    (settleFields fs).length = fs.length := by
  simp [settleFields]

theorem objSize_settle (o : JsObj) : objSize (settleNeedsCheck o) = objSize o := by
  cases o <;> simp [objSize, settleNeedsCheck, settleFields_length]

theorem mem_settleFields {fs : List (String × JsField)} {q : String × JsField}
    (hq : q ∈ settleFields fs) :
    ∃ q' ∈ fs, q.1 = q'.1 ∧ (q.2 = q'.2 ∨ q.2 = JsField.data (.bool false)) := by
  simp only [settleFields, List.mem_map] at hq
  obtain ⟨q', hq', heq⟩ := hq
  refine ⟨q', hq', ?_⟩
  by_cases hk : q'.1 = "needsCheck"
  · simp only [hk, if_pos rfl] at heq
    subst heq
    exact ⟨hk.symm ▸ rfl, Or.inr rfl⟩
  · rw [if_neg hk] at heq
    subst heq
    exact ⟨rfl, Or.inl rfl⟩

theorem objWFb_settle {L : Nat} {o : JsObj} (h : objWFb L o = true) :
    objWFb L (settleNeedsCheck o) = true := by
  cases o with
  | arr es => exact h
  | obj fs hid =>
    simp only [settleNeedsCheck, objWFb, List.all_eq_true] at h ⊢
    intro q hq
    obtain ⟨q', hq', _, hv⟩ := mem_settleFields hq
    rcases hv with hv | hv
    · rw [hv]; exact h q' hq'
    · rw [hv]; rfl

theorem objSafeb_settle {o : JsObj} (h : objSafeb o = true) :
    objSafeb (settleNeedsCheck o) = true := by
  cases o with
  | arr es => exact h
  | obj fs hid =>
    simp only [settleNeedsCheck, objSafeb, List.all_eq_true] at h ⊢
    intro q hq
    obtain ⟨q', hq', hk, hv⟩ := mem_settleFields hq
    have h' := h q' hq'
    simp only [Bool.and_eq_true] at h' ⊢
    refine ⟨by rw [hk]; exact h'.1, ?_⟩
    rcases hv with hv | hv
    · rw [hv]; exact h'.2
    · rw [hv]; rfl

theorem objNoThrowb_settle {o : JsObj} (h : objNoThrowb o = true) :
    objNoThrowb (settleNeedsCheck o) = true := by
  cases o with
  | arr es => exact h
  | obj fs hid =>
    simp only [settleNeedsCheck, objNoThrowb, List.all_eq_true] at h ⊢
    intro q hq
    obtain ⟨q', hq', _, hv⟩ := mem_settleFields hq
    rcases hv with hv | hv
    · rw [hv]; exact h q' hq'
    · rw [hv]; rfl

/-- A container looked up in the heap satisfies any property that all
heap members satisfy. -/
theorem heap_lookup_all {P : JsObj → Bool} {h : List JsObj} {a : Nat} {ho : JsObj}
    (hall : h.all P = true) (hlk : h[a]? = some ho) : P ho = true := by
  rw [List.all_eq_true] at hall
  exact hall ho (List.getElem?_mem hlk)

theorem heapEvolve_all {P : JsObj → Bool} {h h' : List JsObj}
    (hP : ∀ o, P o = true → P (settleNeedsCheck o) = true)
    (he : heapEvolve h h') (hall : h.all P = true) : h'.all P = true := by
  rw [List.all_eq_true]
  intro o ho
  obtain ⟨a, ha, hga⟩ := List.getElem_of_mem ho
  have hga' : h'[a]? = some o := by
    rw [List.getElem?_eq_getElem ha, hga]
  rcases he.2 a with hx | hx
  · rw [hx] at hga'
    exact heap_lookup_all hall hga'
  · rw [hx] at hga'
    cases hlk : h[a]? with
    | none => rw [hlk] at hga'; exact Option.noConfusion hga'
    | some o' =>
      rw [hlk] at hga'
      simp only [Option.map_some'] at hga'
      cases hga'
      exact hP o' (heap_lookup_all hall hlk)

theorem heapWFb_evolve {h h' : List JsObj} (he : heapEvolve h h')
    (hwf : heapWFb h = true) : heapWFb h' = true := by
  unfold heapWFb at hwf ⊢
  rw [he.1]
  exact heapEvolve_all (fun o => objWFb_settle) he hwf

theorem heapSafeb_evolve {h h' : List JsObj} (he : heapEvolve h h')
    (hs : heapSafeb h = true) : heapSafeb h' = true :=
  heapEvolve_all (fun o => objSafeb_settle) he hs

theorem heapNoThrowb_evolve {h h' : List JsObj} (he : heapEvolve h h')
    (hs : heapNoThrowb h = true) : heapNoThrowb h' = true :=
  heapEvolve_all (fun o => objNoThrowb_settle) he hs

/-! ## Safe strings render verbatim -/

theorem escChar_safe {c : Char} (h : safeChar c = true) : escChar c = [c] := by
  simp only [safeChar, Bool.and_eq_true, bne_iff_ne, ne_eq, decide_eq_true_eq] at h
  obtain ⟨⟨h1, h2⟩, h3⟩ := h
  have hc8 : c.toNat ≠ 8 := by omega
  have hc9 : c.toNat ≠ 9 := by omega
  have hc10 : c.toNat ≠ 10 := by omega
  have hc12 : c.toNat ≠ 12 := by omega
  have hc13 : c.toNat ≠ 13 := by omega
  have hc32 : ¬ c.toNat < 32 := by omega
  simp [escChar, h1, h2, hc8, hc9, hc10, hc12, hc13, hc32]

theorem escList_cons (c : Char) (rest : List Char) :
    escList (c :: rest) = escChar c ++ escList rest := by
  simp [escList]

theorem escList_safe {l : List Char} (h : l.all safeChar = true) : escList l = l := by
  induction l with
  | nil => rfl
  | cons c rest ih =>
    rw [List.all_cons, Bool.and_eq_true] at h
    rw [escList_cons, escChar_safe h.1, ih h.2]
    rfl

theorem jsonQuote_safe {s : String} (h : safeStr s = true) :
    jsonQuote s = "\"" ++ s ++ "\"" := by
  unfold jsonQuote
  rw [escList_safe h]

theorem safeStr_append {s t : String} (hs : safeStr s = true) (ht : safeStr t = true) :
    safeStr (s ++ t) = true := by
  simp only [safeStr, String.data_append, List.all_append, Bool.and_eq_true]
  exact ⟨hs, ht⟩

theorem safeChar_digitChar {d : Nat} (h : d < 10) : safeChar (digitChar d) = true := by
  interval_cases d <;> decide

theorem natDigitsF_safe : ∀ fuel n, (natDigitsF fuel n).all safeChar = true := by
  intro fuel
  induction fuel with
  | zero => intro n; rfl
  | succ fuel ih =>
    intro n
    unfold natDigitsF
    split
    · rename_i h
      simp [safeChar_digitChar h]
    · rename_i h
      simp only [List.all_append, Bool.and_eq_true]
      exact ⟨ih _, by simp [safeChar_digitChar (Nat.mod_lt n (by omega))]⟩

theorem natToStr_safe (n : Nat) : safeStr (natToStr n) = true :=
  natDigitsF_safe (n + 1) n

theorem intToStr_safe (n : Int) : safeStr (intToStr n) = true := by
  unfold intToStr
  split
  · exact safeStr_append (by decide) (natToStr_safe _)
  · exact natToStr_safe _

theorem objChildPath_safe {p k : String} (hp : safeStr p = true) (hk : safeStr k = true) :
    safeStr (objChildPath p k) = true :=
  safeStr_append (safeStr_append hp (by decide)) hk

theorem arrChildPath_safe {p : String} (hp : safeStr p = true) (i : Nat) :
    safeStr (arrChildPath p i) = true :=
  safeStr_append (safeStr_append (safeStr_append hp (by decide)) (natToStr_safe i)) (by decide)

/-! ## The termination measure

Fuel consumption is bounded by the remaining revisit budget and the
size of the ancestor-set complement: a non-circular visit moves the
current container into the ancestor set, a circular expansion consumes
one unit of the per-identity budget, and nothing ever undoes either. -/

/-- Total remaining revisit budget across the heap. -/
def totalRem (opts : Opts) (st : TravState) : Nat :=
  ∑ a ∈ Finset.range st.heap.length,
    (opts.maxCircularDepth - min opts.maxCircularDepth (circGet st a))

/-- How many heap addresses the ancestor set already covers. -/
def ancCardL (L : Nat) (anc : Finset Nat) : Nat :=
  (anc.filter (fun x => x < L)).card

/-- The lexicographic-style measure: remaining budget weighted above
the free room in the ancestor set. -/
def travMeasure (opts : Opts) (st : TravState) (anc : Finset Nat) : Nat :=
  totalRem opts st * (st.heap.length + 1) +
    (st.heap.length - ancCardL st.heap.length anc)

theorem circGet_seenNote (st : TravState) (a : Nat) (p : String) (x : Nat) :
    circGet (seenNote st a p) x = circGet st x := by
  unfold seenNote
  split <;> rfl

theorem circGet_heapUpdate (st : TravState) (a : Nat) (o : JsObj) (x : Nat) :
    circGet (heapUpdate st a o) x = circGet st x := rfl

theorem seenGet_heapUpdate (st : TravState) (a : Nat) (o : JsObj) (x : Nat) :
    seenGet (heapUpdate st a o) x = seenGet st x := rfl

theorem seenGet_circBump (st : TravState) (a c : Nat) (x : Nat) :
    seenGet (circBump st a c) x = seenGet st x := rfl

theorem heap_seenNote (st : TravState) (a : Nat) (p : String) :
    (seenNote st a p).heap = st.heap := by
  unfold seenNote
  split <;> rfl

theorem heap_circBump (st : TravState) (a c : Nat) :
    (circBump st a c).heap = st.heap := rfl

theorem length_heapUpdate (st : TravState) (a : Nat) (o : JsObj) :
    (heapUpdate st a o).heap.length = st.heap.length := by
  simp [heapUpdate]

theorem totalRem_congr {opts : Opts} {st st' : TravState}
    (hlen : st'.heap.length = st.heap.length)
    (hc : ∀ x, circGet st' x = circGet st x) :
    totalRem opts st' = totalRem opts st := by
  unfold totalRem
  rw [hlen]
  exact Finset.sum_congr rfl (fun x _ => by rw [hc x])

theorem totalRem_mono {opts : Opts} {st st' : TravState} (he : stEvolve st st') :
    totalRem opts st' ≤ totalRem opts st := by
  unfold totalRem
  rw [he.1.1]
  refine Finset.sum_le_sum (fun x _ => ?_)
  exact Nat.sub_le_sub_left (min_le_min le_rfl (he.2.2 x)) _

theorem travMeasure_mono (opts : Opts) {st st' : TravState} (he : stEvolve st st')
    (anc : Finset Nat) : travMeasure opts st' anc ≤ travMeasure opts st anc := by
  unfold travMeasure
  rw [he.1.1]
  exact Nat.add_le_add_right (Nat.mul_le_mul_right _ (totalRem_mono he)) _

theorem ancCardL_le (L : Nat) (anc : Finset Nat) : ancCardL L anc ≤ L := by
  unfold ancCardL
  calc (anc.filter (fun x => x < L)).card
      ≤ (Finset.range L).card := by
        refine Finset.card_le_card (fun x hx => ?_)
        rw [Finset.mem_filter] at hx
        exact Finset.mem_range.mpr hx.2
    _ = L := Finset.card_range L

theorem ancCardL_lt {L a : Nat} {anc : Finset Nat} (ha : a < L) (hmem : a ∉ anc) :
    ancCardL L anc < L := by
  unfold ancCardL
  calc (anc.filter (fun x => x < L)).card
      < (Finset.range L).card := by
        refine Finset.card_lt_card ⟨fun x hx => ?_, fun hsub => ?_⟩
        · rw [Finset.mem_filter] at hx
          exact Finset.mem_range.mpr hx.2
        · have := hsub (Finset.mem_range.mpr ha)
          rw [Finset.mem_filter] at this
          exact hmem this.1
    _ = L := Finset.card_range L

theorem ancCardL_insert {L a : Nat} {anc : Finset Nat} (ha : a < L) (hmem : a ∉ anc) :
    ancCardL L (insert a anc) = ancCardL L anc + 1 := by
  unfold ancCardL
  rw [Finset.filter_insert, if_pos ha]
  exact Finset.card_insert_of_not_mem (fun hx => hmem (Finset.mem_filter.mp hx).1)

theorem ancCardL_le_insert (L a : Nat) (anc : Finset Nat) :
    ancCardL L anc ≤ ancCardL L (insert a anc) := by
  unfold ancCardL
  exact Finset.card_le_card (Finset.filter_subset_filter _ (Finset.subset_insert a anc))

theorem totalRem_pos {opts : Opts} {st : TravState} {a : Nat}
    (ha : a < st.heap.length) (hc : circGet st a < opts.maxCircularDepth) :
    1 ≤ totalRem opts st := by
  unfold totalRem
  have hmem : a ∈ Finset.range st.heap.length := Finset.mem_range.mpr ha
  have h1 : 1 ≤ opts.maxCircularDepth - min opts.maxCircularDepth (circGet st a) := by
    have : min opts.maxCircularDepth (circGet st a) = circGet st a :=
      min_eq_right (le_of_lt hc)
    omega
  calc 1 ≤ opts.maxCircularDepth - min opts.maxCircularDepth (circGet st a) := h1
    _ ≤ _ := Finset.single_le_sum (f := fun x =>
        opts.maxCircularDepth - min opts.maxCircularDepth (circGet st x))
        (fun x _ => Nat.zero_le _) hmem

theorem totalRem_circBump {opts : Opts} {st : TravState} {a : Nat}
    (ha : a < st.heap.length) (hc : circGet st a < opts.maxCircularDepth) :
    totalRem opts (circBump st a (circGet st a + 1)) + 1 = totalRem opts st := by
  unfold totalRem
  have hlen : (circBump st a (circGet st a + 1)).heap.length = st.heap.length := rfl
  rw [hlen]
  have hmem : a ∈ Finset.range st.heap.length := Finset.mem_range.mpr ha
  rw [← Finset.add_sum_erase _ _ hmem, ← Finset.add_sum_erase _
    (fun x => opts.maxCircularDepth - min opts.maxCircularDepth (circGet st x)) hmem]
  have hrest : ∑ x ∈ (Finset.range st.heap.length).erase a,
      (opts.maxCircularDepth - min opts.maxCircularDepth
        (circGet (circBump st a (circGet st a + 1)) x)) =
      ∑ x ∈ (Finset.range st.heap.length).erase a,
      (opts.maxCircularDepth - min opts.maxCircularDepth (circGet st x)) := by
    refine Finset.sum_congr rfl (fun x hx => ?_)
    have hxa : a ≠ x := fun h => (Finset.mem_erase.mp hx).1 h.symm
    cases st with
    | mk hh ss cc =>
      rw [show circBump ⟨hh, ss, cc⟩ a (circGet ⟨hh, ss, cc⟩ a + 1) =
        ⟨hh, ss, (a, circGet ⟨hh, ss, cc⟩ a + 1) :: cc⟩ from rfl, circGet_cons,
        if_neg hxa]
  have hat : circGet (circBump st a (circGet st a + 1)) a = circGet st a + 1 := by
    cases st with
    | mk hh ss cc =>
      rw [show circBump ⟨hh, ss, cc⟩ a (circGet ⟨hh, ss, cc⟩ a + 1) =
        ⟨hh, ss, (a, circGet ⟨hh, ss, cc⟩ a + 1) :: cc⟩ from rfl, circGet_cons, if_pos rfl]
  rw [hrest, hat]
  have hmin1 : min opts.maxCircularDepth (circGet st a + 1) = circGet st a + 1 :=
    min_eq_right (by omega)
  have hmin2 : min opts.maxCircularDepth (circGet st a) = circGet st a :=
    min_eq_right (le_of_lt hc)
  omega

/-! ## Leaf outputs are renderings of JSON values -/

theorem renderJson_str (s : String) : renderJson (.str s) = jsonQuote s := rfl

theorem functionLabelCore_safe {name : String} (h : safeStr name = true) :
    safeStr (functionLabelCore name) = true := by
  unfold functionLabelCore
  split
  · exact safeStr_append (safeStr_append (by decide) h) (by decide)
  · decide

theorem functionLabel_render {name : String} (h : safeStr name = true) :
    functionLabel name = renderJson (.str (functionLabelCore name)) := by
  rw [renderJson_str, jsonQuote_safe (functionLabelCore_safe h)]
  rfl

theorem symbolLabelCore_safe {d : Option String} (h : safeStr (d.getD "") = true) :
    safeStr (symbolLabelCore d) = true :=
  safeStr_append (safeStr_append (by decide) h) (by decide)

theorem symbolLabel_render {d : Option String} (h : safeStr (d.getD "") = true) :
    symbolLabel d = renderJson (.str (symbolLabelCore d)) := by
  rw [renderJson_str, jsonQuote_safe (symbolLabelCore_safe h)]
  rfl

theorem bigIntLit_render (n : Int) : bigIntLit n = renderJson (.str (intToStr n)) := by
  rw [renderJson_str, jsonQuote_safe (intToStr_safe n)]
  rfl

theorem circularMarker_render {p : String} (hp : safeStr p = true) :
    circularMarker p = renderJson (.str ("[Circular Ref: " ++ p ++ "]")) := by
  rw [renderJson_str, jsonQuote_safe
    (safeStr_append (safeStr_append (by decide) hp) (by decide))]
  rfl

theorem undefinedLit_render : undefinedLit = renderJson (.str "[ undefined ]") := by decide

theorem removedLit_render :
    removedLit = renderJson (.str "Removed for performance reasons") := by decide

theorem rootTemplateLit_render :
    "\x7b\"template\":\"Removed for performance reasons\"\x7d" =
      renderJson (.obj [("template", .str "Removed for performance reasons")]) := by decide

/-! ## The invariant carried through the traversal -/

/-- Everything the big induction needs of a state: the heap is
well-formed, escape-free and throw-free, all recorded first-seen paths
are escape-free, and every container fits in the width bound `Kb`. -/
def StInv (Kb : Nat) (st : TravState) : Prop :=
  heapWFb st.heap = true ∧ heapSafeb st.heap = true ∧ heapNoThrowb st.heap = true ∧
    (∀ x p, seenGet st x = some p → safeStr p = true) ∧
    (∀ (a : Nat) (ho : JsObj), st.heap[a]? = some ho → objSize ho + 2 ≤ Kb)

theorem hK_evolve {Kb : Nat} {h h' : List JsObj} (he : heapEvolve h h')
    (hk : ∀ (a : Nat) (ho : JsObj), h[a]? = some ho → objSize ho + 2 ≤ Kb) :
    ∀ (a : Nat) (ho : JsObj), h'[a]? = some ho → objSize ho + 2 ≤ Kb := by
  intro a ho hlk
  rcases he.2 a with hx | hx
  · rw [hx] at hlk
    exact hk a ho hlk
  · rw [hx] at hlk
    cases hl : h[a]? with
    | none => rw [hl] at hlk; exact Option.noConfusion hlk
    | some o' =>
      rw [hl] at hlk
      simp only [Option.map_some'] at hlk
      cases hlk
      rw [objSize_settle]
      exact hk a o' hl

theorem StInv_circBump {Kb : Nat} {st : TravState} (hsi : StInv Kb st) (a c : Nat) :
    StInv Kb (circBump st a c) := by
  cases st
  exact hsi

theorem seenSafe_cons {hh : List JsObj} {ss : List (Nat × String)}
    {cc : List (Nat × Nat)} {a : Nat} {p : String}
    (h4 : ∀ x q, seenGet ⟨hh, ss, cc⟩ x = some q → safeStr q = true)
    (hp : safeStr p = true) :
    ∀ x q, seenGet ⟨hh, (a, p) :: ss, cc⟩ x = some q → safeStr q = true := by
  intro x q hq
  rw [seenGet_cons] at hq
  split at hq
  · cases hq
    exact hp
  · exact h4 x q hq

theorem StInv_seenNote {Kb : Nat} {st : TravState} (hsi : StInv Kb st)
    (a : Nat) {p : String} (hp : safeStr p = true) : StInv Kb (seenNote st a p) := by
  obtain ⟨h1, h2, h3, h4, h5⟩ := hsi
  unfold seenNote
  split
  · exact ⟨h1, h2, h3, h4, h5⟩
  · cases st with
    | mk hh ss cc => exact ⟨h1, h2, h3, seenSafe_cons h4 hp, h5⟩

theorem StInv_heapUpdate {Kb : Nat} {st : TravState} {a : Nat} {ho : JsObj}
    (hsi : StInv Kb st) (hlk : st.heap[a]? = some ho) :
    StInv Kb (heapUpdate st a (settleNeedsCheck ho)) := by
  have he := stEvolve_heapUpdate st a ho hlk
  obtain ⟨h1, h2, h3, h4, h5⟩ := hsi
  exact ⟨heapWFb_evolve he.1 h1, heapSafeb_evolve he.1 h2, heapNoThrowb_evolve he.1 h3,
    fun x q hq => h4 x q hq, hK_evolve he.1 h5⟩

theorem lookup_lt {h : List JsObj} {a : Nat} {ho : JsObj} (hlk : h[a]? = some ho) :
    a < h.length := by
  by_contra hcon
  rw [List.getElem?_eq_none (by omega)] at hlk
  exact Option.noConfusion hlk

theorem fuel_step {m1 m len Kb fuel : Nat} (h1 : m1 + 1 ≤ m) (h2 : len + 2 ≤ Kb)
    (h3 : m * Kb ≤ fuel) : m1 * Kb + len + 2 ≤ fuel := by
  have h4 : (m1 + 1) * Kb ≤ m * Kb := Nat.mul_le_mul_right _ h1
  rw [Nat.succ_mul] at h4
  omega

/-- A circular expansion strictly shrinks the measure: one unit of the
revisit budget is consumed. -/
theorem measure_bump_lt {opts : Opts} {st : TravState} {a : Nat} (anc : Finset Nat)
    (ha : a < st.heap.length) (hc : circGet st a < opts.maxCircularDepth) :
    travMeasure opts (circBump st a (circGet st a + 1)) (insert a anc) + 1 ≤
      travMeasure opts st anc := by
  have htr := totalRem_circBump ha hc
  unfold travMeasure
  have hlen : (circBump st a (circGet st a + 1)).heap.length = st.heap.length := rfl
  rw [hlen]
  have hc1 : st.heap.length - ancCardL st.heap.length (insert a anc) ≤ st.heap.length :=
    Nat.sub_le _ _
  have hmul : (totalRem opts (circBump st a (circGet st a + 1)) + 1) * (st.heap.length + 1) =
      totalRem opts (circBump st a (circGet st a + 1)) * (st.heap.length + 1) +
        (st.heap.length + 1) := by ring
  rw [← htr, hmul]
  omega

/-- A first visit strictly shrinks the measure: the container joins the
ancestor set. -/
theorem measure_visit_lt (opts : Opts) {st st2 : TravState} {a : Nat} (anc : Finset Nat)
    (ha : a < st.heap.length) (hmem : a ∉ anc)
    (hlen : st2.heap.length = st.heap.length)
    (hcg : ∀ x, circGet st2 x = circGet st x) :
    travMeasure opts st2 (insert a anc) + 1 ≤ travMeasure opts st anc := by
  have htr : totalRem opts st2 = totalRem opts st := totalRem_congr hlen hcg
  unfold travMeasure
  rw [hlen, htr, ancCardL_insert ha hmem]
  have hcl : ancCardL st.heap.length anc < st.heap.length := ancCardL_lt ha hmem
  omega

/-- The frame induction: every call of the serializer only evolves the
state (the heap only by settling `needsCheck` flags, `seen` only by new
entries, revisit counters only upward). -/
theorem frame_all (opts : Opts) : ∀ fuel : Nat,
    (∀ v path pir ia anc pk st,
      resEvolve st (stringifyPlusInner opts fuel v path pir ia anc pk st)) ∧
    (∀ a ho path anc st, resEvolve st (circularCase opts fuel a ho path anc st)) ∧
    (∀ a ho path anc st, st.heap[a]? = some ho →
      resEvolve st (visitCase opts fuel a ho path anc st)) ∧
    (∀ l path i anc st, resListEvolve st (arrElems opts fuel l path i anc st)) ∧
    (∀ l path anc st, resListEvolve st (objPairs opts fuel l path anc st)) ∧
    (∀ l path anc st, resListEvolve st (objPairsCirc opts fuel l path anc st)) := by
  intro fuel
  induction fuel with
  | zero =>
    exact ⟨fun _ _ _ _ _ _ _ => trivial, fun _ _ _ _ _ => trivial,
      fun _ _ _ _ _ _ => trivial, fun _ _ _ _ _ => trivial,
      fun _ _ _ _ => trivial, fun _ _ _ _ => trivial⟩
  | succ fuel ih =>
    obtain ⟨ihInner, ihCirc, ihVisit, ihArr, ihPairs, ihPairsC⟩ := ih
    refine ⟨?_, ?_, ?_, ?_, ?_, ?_⟩
    · -- stringifyPlusInner
      intro v path pir ia anc pk st
      simp only [stringifyPlusInner]
      split
      · exact stEvolve_refl st
      split
      · exact stEvolve_refl st
      split <;> try exact stEvolve_refl st
      -- the `.ref` branch: look the container up
      split
      · exact stEvolve_refl st
      · rename_i a ho hlk
        split
        · exact ihCirc _ _ _ _ _
        · exact ihVisit _ _ _ _ _ hlk
    · -- circularCase
      intro a ho path anc st
      simp only [circularCase]
      split
      · have hbump := stEvolve_circBump st a (circGet st a + 1) (by omega)
        cases ho with
        | arr elems =>
          exact resEvolve_wrapRes _ _ (resListEvolve_pre hbump (ihArr _ _ _ _ _))
        | obj fs hid =>
          exact resEvolve_wrapRes _ _ (resListEvolve_pre hbump (ihPairsC _ _ _ _))
      · exact stEvolve_refl st
    · -- visitCase
      intro a ho path anc st hlk
      simp only [visitCase]
      have hnote := stEvolve_seenNote st a path
      have hlk1 : (seenNote st a path).heap[a]? = some ho := by
        unfold seenNote
        split <;> exact hlk
      have hupd := stEvolve_heapUpdate (seenNote st a path) a ho hlk1
      have hpre := stEvolve_trans hnote hupd
      cases ho with
      | arr elems =>
        exact resEvolve_wrapRes _ _ (resListEvolve_pre hpre (ihArr _ _ _ _ _))
      | obj fs hid =>
        exact resEvolve_wrapRes _ _ (resListEvolve_pre hpre (ihPairs _ _ _ _))
    · -- arrElems
      intro l path i anc st
      cases l with
      | nil => exact stEvolve_refl st
      | cons v rest =>
        simp only [arrElems]
        exact resListEvolve_recElem (ihInner _ _ _ _ _ _ _) (fun st1 => ihArr _ _ _ _ _)
    · -- objPairs
      intro l path anc st
      cases l with
      | nil => exact stEvolve_refl st
      | cons kf rest =>
        obtain ⟨k, f⟩ := kf
        simp only [objPairs]
        split
        · exact resListEvolve_consPart _ (ihPairs _ _ _ _)
        cases readField f with
        | thrown e => exact stEvolve_refl st
        | val val =>
          cases val <;>
            first
            | exact resListEvolve_consPart _ (ihPairs _ _ _ _)
            | exact resListEvolve_recPair _ (ihInner _ _ _ _ _ _ _)
                (fun st1 => ihPairs _ _ _ _)
    · -- objPairsCirc
      intro l path anc st
      cases l with
      | nil => exact stEvolve_refl st
      | cons kf rest =>
        obtain ⟨k, f⟩ := kf
        simp only [objPairsCirc]
        split
        · exact stEvolve_refl st
        · rename_i val hread
          split
          · exact resListEvolve_consPart _ (ihPairsC _ _ _ _)
          cases val <;>
            first
            | exact resListEvolve_consPart _ (ihPairsC _ _ _ _)
            | exact resListEvolve_recPair _ (ihInner _ _ _ _ _ _ _)
                (fun st1 => ihPairsC _ _ _ _)

/-- Glue: a leaf member followed by a successful remainder yields a
successful member list. -/
theorem leafPairDone {Kb : Nat} {st : TravState} (k lit : String) (jv : Json)
    (hlit : lit = renderJson jv) {r : ResList}
    (hres : ∃ st' kvs, r = .ok (renderKVs kvs) st' ∧ StInv Kb st' ∧ stEvolve st st') :
    ∃ st' kvs, consPart (jsonQuote k ++ ":" ++ lit) r =
      .ok (renderKVs kvs) st' ∧ StInv Kb st' ∧ stEvolve st st' := by
  obtain ⟨st3, kvs, hrun, hsi3, hev3⟩ := hres
  refine ⟨st3, (k, jv) :: kvs, ?_, hsi3, hev3⟩
  rw [hrun, hlit]
  rfl

/-- Glue: a recursively rendered member followed by a successful
remainder yields a successful member list. -/
theorem recPairDone {Kb : Nat} {st : TravState} (k : String) {rin : Res}
    {cont : TravState → ResList}
    (hin : ∃ st2 j, rin = .ok (renderJson j) st2 ∧ StInv Kb st2 ∧ stEvolve st st2)
    (hcont : ∀ st2, StInv Kb st2 → stEvolve st st2 →
      ∃ st3 kvs, cont st2 = .ok (renderKVs kvs) st3 ∧ StInv Kb st3 ∧ stEvolve st2 st3) :
    ∃ st' kvs, recPair k rin cont =
      .ok (renderKVs kvs) st' ∧ StInv Kb st' ∧ stEvolve st st' := by
  obtain ⟨st2, j, hr, hsi2, hev2⟩ := hin
  obtain ⟨st3, kvs, hr3, hsi3, hev3⟩ := hcont st2 hsi2 hev2
  refine ⟨st3, (k, j) :: kvs, ?_, hsi3, stEvolve_trans hev2 hev3⟩
  rw [hr]
  simp only [recPair]
  rw [hr3]
  rfl

/-- The totality-and-validity induction: with enough fuel (in terms of
the measure), on a well-formed, throw-free, escape-free heap every call
succeeds and its output is the rendering of a JSON value.  This packs
the termination of the original unbounded recursion and the syntactic
validity of its output into one statement. -/
theorem total_ok_all (opts : Opts) (Kb : Nat) : ∀ fuel : Nat,
    (∀ v path pir ia anc pk st, StInv Kb st → safeStr path = true →
      valWFb st.heap.length v = true → valSafeb v = true →
      travMeasure opts st anc * Kb + 2 ≤ fuel →
      ∃ st' j, stringifyPlusInner opts fuel v path pir ia anc pk st =
        .ok (renderJson j) st' ∧ StInv Kb st' ∧ stEvolve st st') ∧
    (∀ a ho path anc st, StInv Kb st → safeStr path = true →
      st.heap[a]? = some ho →
      travMeasure opts st anc * Kb + 1 ≤ fuel →
      ∃ st' j, circularCase opts fuel a ho path anc st =
        .ok (renderJson j) st' ∧ StInv Kb st' ∧ stEvolve st st') ∧
    (∀ a ho path anc st, StInv Kb st → safeStr path = true →
      st.heap[a]? = some ho → a ∉ anc →
      travMeasure opts st anc * Kb + 1 ≤ fuel →
      ∃ st' j, visitCase opts fuel a ho path anc st =
        .ok (renderJson j) st' ∧ StInv Kb st' ∧ stEvolve st st') ∧
    (∀ l path i anc st, StInv Kb st → safeStr path = true →
      l.all (valWFb st.heap.length) = true → l.all valSafeb = true →
      travMeasure opts st anc * Kb + l.length + 2 ≤ fuel →
      ∃ st' js, arrElems opts fuel l path i anc st =
        .ok (renderList js) st' ∧ StInv Kb st' ∧ stEvolve st st') ∧
    (∀ l path anc st, StInv Kb st → safeStr path = true →
      l.all (fun q => fieldValb (valWFb st.heap.length) q.2) = true →
      l.all (fun q => safeStr q.1 && fieldValb valSafeb q.2) = true →
      l.all (fun q => fieldNoThrowb q.2) = true →
      travMeasure opts st anc * Kb + l.length + 2 ≤ fuel →
      ∃ st' kvs, objPairs opts fuel l path anc st =
        .ok (renderKVs kvs) st' ∧ StInv Kb st' ∧ stEvolve st st') ∧
    (∀ l path anc st, StInv Kb st → safeStr path = true →
      l.all (fun q => fieldValb (valWFb st.heap.length) q.2) = true →
      l.all (fun q => safeStr q.1 && fieldValb valSafeb q.2) = true →
      l.all (fun q => fieldNoThrowb q.2) = true →
      travMeasure opts st anc * Kb + l.length + 2 ≤ fuel →
      ∃ st' kvs, objPairsCirc opts fuel l path anc st =
        .ok (renderKVs kvs) st' ∧ StInv Kb st' ∧ stEvolve st st') := by
  intro fuel
  induction fuel with
  | zero =>
    refine ⟨?_, ?_, ?_, ?_, ?_, ?_⟩ <;> intros <;> omega
  | succ fuel ih =>
    obtain ⟨ihInner, ihCirc, ihVisit, ihArr, ihPairs, ihPairsC⟩ := ih
    refine ⟨?_, ?_, ?_, ?_, ?_, ?_⟩
    · -- stringifyPlusInner
      intro v path pir ia anc pk st hsi hpath hwf hvs hfuel
      simp only [stringifyPlusInner]
      split
      · exact ⟨st, .str "Removed for performance reasons",
          by rw [← removedLit_render], hsi, stEvolve_refl st⟩
      split
      · exact ⟨st, .obj [("template", .str "Removed for performance reasons")],
          by rw [← rootTemplateLit_render], hsi, stEvolve_refl st⟩
      split
      · -- undef
        exact ⟨st, .str "[ undefined ]", by rw [← undefinedLit_render], hsi, stEvolve_refl st⟩
      · -- jsNull
        exact ⟨st, .null, rfl, hsi, stEvolve_refl st⟩
      · -- func
        rename_i name hneg
        exact ⟨st, .str (functionLabelCore name),
          by rw [← functionLabel_render hvs], hsi, stEvolve_refl st⟩
      · -- symbol
        rename_i d hneg
        exact ⟨st, .str (symbolLabelCore d),
          by rw [← symbolLabel_render hvs], hsi, stEvolve_refl st⟩
      · -- bigInt
        rename_i n hneg
        exact ⟨st, .str (intToStr n), by rw [← bigIntLit_render], hsi, stEvolve_refl st⟩
      · -- date
        rename_i iso hneg
        exact ⟨st, .str iso, rfl, hsi, stEvolve_refl st⟩
      · -- ref
        rename_i a hneg
        have ha : a < st.heap.length := by
          simpa [valWFb] using hwf
        split
        · rename_i hnone
          rw [List.getElem?_eq_getElem ha] at hnone
          exact Option.noConfusion hnone
        · rename_i ho hlk
          by_cases hmem : a ∈ anc
          · rw [if_pos hmem]
            exact ihCirc a ho path anc st hsi hpath hlk (by omega)
          · rw [if_neg hmem]
            exact ihVisit a ho path anc st hsi hpath hlk hmem (by omega)
      · -- num
        rename_i n hneg
        exact ⟨st, .num n, rfl, hsi, stEvolve_refl st⟩
      · -- nonFiniteNum
        exact ⟨st, .null, rfl, hsi, stEvolve_refl st⟩
      · -- str
        rename_i s hneg
        exact ⟨st, .str s, rfl, hsi, stEvolve_refl st⟩
      · -- bool
        rename_i b hneg
        exact ⟨st, .bool b, rfl, hsi, stEvolve_refl st⟩
    · -- circularCase
      intro a ho path anc st hsi hpath hlk hfuel
      have ha : a < st.heap.length := lookup_lt hlk
      have hmarker : ∀ hres : ¬ circGet st a < opts.maxCircularDepth,
          ∃ st' j, Res.ok (circularMarker ((seenGet st a).getD path)) st =
            Res.ok (renderJson j) st' ∧ StInv Kb st' ∧ stEvolve st st' := by
        intro hres
        have hp' : safeStr ((seenGet st a).getD path) = true := by
          cases hsg : seenGet st a with
          | none => exact hpath
          | some q => exact hsi.2.2.2.1 a q hsg
        exact ⟨st, .str ("[Circular Ref: " ++ (seenGet st a).getD path ++ "]"),
          by rw [← circularMarker_render hp'], hsi, stEvolve_refl st⟩
      cases ho with
      | arr elems =>
        simp only [circularCase]
        split
        · rename_i hc
          have hbump := stEvolve_circBump st a (circGet st a + 1) (by omega)
          have hm1 := measure_bump_lt anc ha hc
          have hK := hsi.2.2.2.2 a (.arr elems) hlk
          have hsi1 := StInv_circBump hsi a (circGet st a + 1)
          have hfl : travMeasure opts (circBump st a (circGet st a + 1)) (insert a anc) * Kb
              + elems.length + 2 ≤ fuel :=
            fuel_step hm1 (by simpa [objSize] using hK) (by omega)
          have hWFo : objWFb st.heap.length (.arr elems) = true :=
            heap_lookup_all hsi.1 hlk
          have hSo : objSafeb (JsObj.arr elems) = true :=
            heap_lookup_all hsi.2.1 hlk
          obtain ⟨st2, js, hrun, hsi2, hev2⟩ :=
            ihArr elems path 0 (insert a anc) (circBump st a (circGet st a + 1))
              hsi1 hpath (by exact hWFo) (by exact hSo) hfl
          refine ⟨st2, .arr js, ?_, hsi2, stEvolve_trans hbump hev2⟩
          rw [hrun]
          rfl
        · rename_i hres
          exact hmarker hres
      | obj fs hid =>
        simp only [circularCase]
        split
        · rename_i hc
          have hbump := stEvolve_circBump st a (circGet st a + 1) (by omega)
          have hm1 := measure_bump_lt anc ha hc
          have hK := hsi.2.2.2.2 a (.obj fs hid) hlk
          have hsi1 := StInv_circBump hsi a (circGet st a + 1)
          have hfl : travMeasure opts (circBump st a (circGet st a + 1)) (insert a anc) * Kb
              + fs.length + 2 ≤ fuel :=
            fuel_step hm1 (by simpa [objSize] using hK) (by omega)
          have hWFo : objWFb st.heap.length (.obj fs hid) = true :=
            heap_lookup_all hsi.1 hlk
          have hSo : objSafeb (JsObj.obj fs hid) = true :=
            heap_lookup_all hsi.2.1 hlk
          have hNTo : objNoThrowb (JsObj.obj fs hid) = true :=
            heap_lookup_all hsi.2.2.1 hlk
          obtain ⟨st2, kvs, hrun, hsi2, hev2⟩ :=
            ihPairsC fs path (insert a anc) (circBump st a (circGet st a + 1))
              hsi1 hpath (by exact hWFo) (by exact hSo) (by exact hNTo) hfl
          refine ⟨st2, .obj kvs, ?_, hsi2, stEvolve_trans hbump hev2⟩
          rw [hrun]
          rfl
        · rename_i hres
          exact hmarker hres
    · -- visitCase
      intro a ho path anc st hsi hpath hlk hmem hfuel
      have ha : a < st.heap.length := lookup_lt hlk
      have hlk1 : (seenNote st a path).heap[a]? = some ho := by
        rw [heap_seenNote]
        exact hlk
      have hnote := stEvolve_seenNote st a path
      have hupd := stEvolve_heapUpdate (seenNote st a path) a ho hlk1
      have hpre := stEvolve_trans hnote hupd
      have hsi2 : StInv Kb (heapUpdate (seenNote st a path) a (settleNeedsCheck ho)) :=
        StInv_heapUpdate (StInv_seenNote hsi a hpath) hlk1
      have hlen2 : (heapUpdate (seenNote st a path) a (settleNeedsCheck ho)).heap.length =
          st.heap.length := by
        rw [length_heapUpdate, heap_seenNote]
      have hcg2 : ∀ x, circGet (heapUpdate (seenNote st a path) a (settleNeedsCheck ho)) x =
          circGet st x := by
        intro x
        rw [circGet_heapUpdate, circGet_seenNote]
      have hm2 := measure_visit_lt opts anc ha hmem hlen2 hcg2
      have hK := hsi.2.2.2.2 a ho hlk
      have hWFo : objWFb st.heap.length ho = true := heap_lookup_all hsi.1 hlk
      have hSo : objSafeb ho = true := heap_lookup_all hsi.2.1 hlk
      have hNTo : objNoThrowb ho = true := heap_lookup_all hsi.2.2.1 hlk
      cases ho with
      | arr elems =>
        have hfl : travMeasure opts (heapUpdate (seenNote st a path) a
              (settleNeedsCheck (.arr elems))) (insert a anc) * Kb
              + elems.length + 2 ≤ fuel :=
          fuel_step hm2 (by simpa [objSize] using hK) (by omega)
        obtain ⟨st2, js, hrun, hsi2', hev2⟩ :=
          ihArr elems path 0 (insert a anc)
            (heapUpdate (seenNote st a path) a (settleNeedsCheck (.arr elems)))
            hsi2 hpath (by rw [hlen2]; exact hWFo) (by exact hSo) hfl
        refine ⟨st2, .arr js, ?_, hsi2', stEvolve_trans hpre hev2⟩
        simp only [visitCase, settleNeedsCheck]
        simp only [settleNeedsCheck] at hrun
        rw [hrun]
        rfl
      | obj fs hid =>
        have hfl : travMeasure opts (heapUpdate (seenNote st a path) a
              (settleNeedsCheck (.obj fs hid))) (insert a anc) * Kb
              + (settleFields fs).length + 2 ≤ fuel := by
          refine fuel_step hm2 ?_ (by omega)
          rw [settleFields_length]
          simpa [objSize] using hK
        have hWFs : (settleFields fs).all
            (fun q => fieldValb (valWFb st.heap.length) q.2) = true := by
          have := objWFb_settle (L := st.heap.length) hWFo
          simpa [settleNeedsCheck, objWFb] using this
        have hSs : (settleFields fs).all
            (fun q => safeStr q.1 && fieldValb valSafeb q.2) = true := by
          have := objSafeb_settle hSo
          simpa [settleNeedsCheck, objSafeb] using this
        have hNTs : (settleFields fs).all (fun q => fieldNoThrowb q.2) = true := by
          have := objNoThrowb_settle hNTo
          simpa [settleNeedsCheck, objNoThrowb] using this
        obtain ⟨st2, kvs, hrun, hsi2', hev2⟩ :=
          ihPairs (settleFields fs) path (insert a anc)
            (heapUpdate (seenNote st a path) a (settleNeedsCheck (.obj fs hid)))
            hsi2 hpath (by rw [hlen2]; exact hWFs) (by exact hSs) (by exact hNTs) hfl
        refine ⟨st2, .obj kvs, ?_, hsi2', stEvolve_trans hpre hev2⟩
        simp only [visitCase, settleNeedsCheck]
        simp only [settleNeedsCheck] at hrun
        rw [hrun]
        rfl
    · -- arrElems
      intro l path i anc st hsi hpath hWF hS hfuel
      cases l with
      | nil => exact ⟨st, [], rfl, hsi, stEvolve_refl st⟩
      | cons v rest =>
        rw [List.all_cons, Bool.and_eq_true] at hWF hS
        simp only [List.length_cons] at hfuel
        simp only [arrElems]
        obtain ⟨st2, j, hrun, hsi2, hev2⟩ :=
          ihInner v (arrChildPath path i) false true anc none st hsi
            (arrChildPath_safe hpath i) hWF.1 hS.1 (by omega)
        rw [hrun]
        have hlen2 : st2.heap.length = st.heap.length := hev2.1.1
        have hm2 : travMeasure opts st2 anc ≤ travMeasure opts st anc :=
          travMeasure_mono opts hev2 anc
        have hfl2 : travMeasure opts st2 anc * Kb + rest.length + 2 ≤ fuel := by
          have := Nat.mul_le_mul_right Kb hm2
          omega
        obtain ⟨st3, js, hrun3, hsi3, hev3⟩ :=
          ihArr rest path (i + 1) anc st2 hsi2 hpath
            (by rw [hlen2]; exact hWF.2) hS.2 hfl2
        refine ⟨st3, j :: js, ?_, hsi3, stEvolve_trans hev2 hev3⟩
        show recElem (Res.ok (renderJson j) st2) _ = _
        simp only [recElem]
        rw [hrun3]
        rfl
    · -- objPairs
      intro l path anc st hsi hpath hWF hS hNT hfuel
      cases l with
      | nil => exact ⟨st, [], rfl, hsi, stEvolve_refl st⟩
      | cons kf rest =>
        obtain ⟨k, f⟩ := kf
        rw [List.all_cons, Bool.and_eq_true] at hWF hS hNT
        simp only [Bool.and_eq_true] at hS
        have hrest : travMeasure opts st anc * Kb + rest.length + 2 ≤ fuel := by
          simp only [List.length_cons] at hfuel
          omega
        have hRest := ihPairs rest path anc st hsi hpath hWF.2 hS.2 hNT.2 hrest
        have hRestAt : ∀ st2, StInv Kb st2 → stEvolve st st2 →
            ∃ st3 kvs, objPairs opts fuel rest path anc st2 =
              .ok (renderKVs kvs) st3 ∧ StInv Kb st3 ∧ stEvolve st2 st3 := by
          intro st2 hsi2 hev2
          refine ihPairs rest path anc st2 hsi2 hpath ?_ hS.2 hNT.2 ?_
          · rw [hev2.1.1]
            exact hWF.2
          · have := Nat.mul_le_mul_right Kb (travMeasure_mono opts hev2 anc)
            omega
        simp only [objPairs]
        split
        · exact leafPairDone k removedLit (.str "Removed for performance reasons")
            removedLit_render hRest
        · cases f with
          | getterThrows e => simp [fieldNoThrowb] at hNT
          | data v =>
            simp only [readField]
            cases v with
            | undef => exact leafPairDone k undefinedLit _ undefinedLit_render hRest
            | jsNull => exact leafPairDone k "null" .null rfl hRest
            | func name =>
              exact leafPairDone k (functionLabel name) _ (functionLabel_render hS.1.2) hRest
            | symbol d =>
              exact leafPairDone k (symbolLabel d) _ (symbolLabel_render hS.1.2) hRest
            | bigInt n => exact leafPairDone k (bigIntLit n) _ (bigIntLit_render n) hRest
            | num n =>
              exact recPairDone k (ihInner _ _ false false anc (some k) st hsi
                (objChildPath_safe hpath hS.1.1) hWF.1 hS.1.2 (by omega)) hRestAt
            | nonFiniteNum =>
              exact recPairDone k (ihInner _ _ false false anc (some k) st hsi
                (objChildPath_safe hpath hS.1.1) hWF.1 hS.1.2 (by omega)) hRestAt
            | str s =>
              exact recPairDone k (ihInner _ _ false false anc (some k) st hsi
                (objChildPath_safe hpath hS.1.1) hWF.1 hS.1.2 (by omega)) hRestAt
            | date iso =>
              exact recPairDone k (ihInner _ _ false false anc (some k) st hsi
                (objChildPath_safe hpath hS.1.1) hWF.1 hS.1.2 (by omega)) hRestAt
            | bool b =>
              exact recPairDone k (ihInner _ _ false false anc (some k) st hsi
                (objChildPath_safe hpath hS.1.1) hWF.1 hS.1.2 (by omega)) hRestAt
            | ref a =>
              exact recPairDone k (ihInner _ _ false false anc (some k) st hsi
                (objChildPath_safe hpath hS.1.1) hWF.1 hS.1.2 (by omega)) hRestAt
          | getter v =>
            simp only [readField]
            cases v with
            | undef => exact leafPairDone k undefinedLit _ undefinedLit_render hRest
            | jsNull => exact leafPairDone k "null" .null rfl hRest
            | func name =>
              exact leafPairDone k (functionLabel name) _ (functionLabel_render hS.1.2) hRest
            | symbol d =>
              exact leafPairDone k (symbolLabel d) _ (symbolLabel_render hS.1.2) hRest
            | bigInt n => exact leafPairDone k (bigIntLit n) _ (bigIntLit_render n) hRest
            | num n =>
              exact recPairDone k (ihInner _ _ false false anc (some k) st hsi
                (objChildPath_safe hpath hS.1.1) hWF.1 hS.1.2 (by omega)) hRestAt
            | nonFiniteNum =>
              exact recPairDone k (ihInner _ _ false false anc (some k) st hsi
                (objChildPath_safe hpath hS.1.1) hWF.1 hS.1.2 (by omega)) hRestAt
            | str s =>
              exact recPairDone k (ihInner _ _ false false anc (some k) st hsi
                (objChildPath_safe hpath hS.1.1) hWF.1 hS.1.2 (by omega)) hRestAt
            | date iso =>
              exact recPairDone k (ihInner _ _ false false anc (some k) st hsi
                (objChildPath_safe hpath hS.1.1) hWF.1 hS.1.2 (by omega)) hRestAt
            | bool b =>
              exact recPairDone k (ihInner _ _ false false anc (some k) st hsi
                (objChildPath_safe hpath hS.1.1) hWF.1 hS.1.2 (by omega)) hRestAt
            | ref a =>
              exact recPairDone k (ihInner _ _ false false anc (some k) st hsi
                (objChildPath_safe hpath hS.1.1) hWF.1 hS.1.2 (by omega)) hRestAt
    · -- objPairsCirc
      intro l path anc st hsi hpath hWF hS hNT hfuel
      cases l with
      | nil => exact ⟨st, [], rfl, hsi, stEvolve_refl st⟩
      | cons kf rest =>
        obtain ⟨k, f⟩ := kf
        rw [List.all_cons, Bool.and_eq_true] at hWF hS hNT
        simp only [Bool.and_eq_true] at hS
        have hrest : travMeasure opts st anc * Kb + rest.length + 2 ≤ fuel := by
          simp only [List.length_cons] at hfuel
          omega
        have hRest := ihPairsC rest path anc st hsi hpath hWF.2 hS.2 hNT.2 hrest
        have hRestAt : ∀ st2, StInv Kb st2 → stEvolve st st2 →
            ∃ st3 kvs, objPairsCirc opts fuel rest path anc st2 =
              .ok (renderKVs kvs) st3 ∧ StInv Kb st3 ∧ stEvolve st2 st3 := by
          intro st2 hsi2 hev2
          refine ihPairsC rest path anc st2 hsi2 hpath ?_ hS.2 hNT.2 ?_
          · rw [hev2.1.1]
            exact hWF.2
          · have := Nat.mul_le_mul_right Kb (travMeasure_mono opts hev2 anc)
            omega
        simp only [objPairsCirc]
        cases f with
        | getterThrows e => simp [fieldNoThrowb] at hNT
        | data v =>
          simp only [readField]
          split
          · exact leafPairDone k removedLit (.str "Removed for performance reasons")
              removedLit_render hRest
          cases v with
          | undef => exact leafPairDone k undefinedLit _ undefinedLit_render hRest
          | jsNull => exact leafPairDone k "null" .null rfl hRest
          | func name =>
            exact leafPairDone k (functionLabel name) _ (functionLabel_render hS.1.2) hRest
          | symbol d =>
            exact leafPairDone k (symbolLabel d) _ (symbolLabel_render hS.1.2) hRest
          | bigInt n => exact leafPairDone k (bigIntLit n) _ (bigIntLit_render n) hRest
          | num n =>
            exact recPairDone k (ihInner _ _ false false anc (some k) st hsi
              (objChildPath_safe hpath hS.1.1) hWF.1 hS.1.2 (by omega)) hRestAt
          | nonFiniteNum =>
            exact recPairDone k (ihInner _ _ false false anc (some k) st hsi
              (objChildPath_safe hpath hS.1.1) hWF.1 hS.1.2 (by omega)) hRestAt
          | str s =>
            exact recPairDone k (ihInner _ _ false false anc (some k) st hsi
              (objChildPath_safe hpath hS.1.1) hWF.1 hS.1.2 (by omega)) hRestAt
          | date iso =>
            exact recPairDone k (ihInner _ _ false false anc (some k) st hsi
              (objChildPath_safe hpath hS.1.1) hWF.1 hS.1.2 (by omega)) hRestAt
          | bool b =>
            exact recPairDone k (ihInner _ _ false false anc (some k) st hsi
              (objChildPath_safe hpath hS.1.1) hWF.1 hS.1.2 (by omega)) hRestAt
          | ref a =>
            exact recPairDone k (ihInner _ _ false false anc (some k) st hsi
              (objChildPath_safe hpath hS.1.1) hWF.1 hS.1.2 (by omega)) hRestAt
        | getter v =>
          simp only [readField]
          split
          · exact leafPairDone k removedLit (.str "Removed for performance reasons")
              removedLit_render hRest
          cases v with
          | undef => exact leafPairDone k undefinedLit _ undefinedLit_render hRest
          | jsNull => exact leafPairDone k "null" .null rfl hRest
          | func name =>
            exact leafPairDone k (functionLabel name) _ (functionLabel_render hS.1.2) hRest
          | symbol d =>
            exact leafPairDone k (symbolLabel d) _ (symbolLabel_render hS.1.2) hRest
          | bigInt n => exact leafPairDone k (bigIntLit n) _ (bigIntLit_render n) hRest
          | num n =>
            exact recPairDone k (ihInner _ _ false false anc (some k) st hsi
              (objChildPath_safe hpath hS.1.1) hWF.1 hS.1.2 (by omega)) hRestAt
          | nonFiniteNum =>
            exact recPairDone k (ihInner _ _ false false anc (some k) st hsi
              (objChildPath_safe hpath hS.1.1) hWF.1 hS.1.2 (by omega)) hRestAt
          | str s =>
            exact recPairDone k (ihInner _ _ false false anc (some k) st hsi
              (objChildPath_safe hpath hS.1.1) hWF.1 hS.1.2 (by omega)) hRestAt
          | date iso =>
            exact recPairDone k (ihInner _ _ false false anc (some k) st hsi
              (objChildPath_safe hpath hS.1.1) hWF.1 hS.1.2 (by omega)) hRestAt
          | bool b =>
            exact recPairDone k (ihInner _ _ false false anc (some k) st hsi
              (objChildPath_safe hpath hS.1.1) hWF.1 hS.1.2 (by omega)) hRestAt
          | ref a =>
            exact recPairDone k (ihInner _ _ false false anc (some k) st hsi
              (objChildPath_safe hpath hS.1.1) hWF.1 hS.1.2 (by omega)) hRestAt

/-! ## Top-level success: `suffFuel` suffices -/

theorem objSize_le_heapMaxSize {h : List JsObj} {o : JsObj} (hm : o ∈ h) :
    objSize o ≤ heapMaxSize h := by
  induction h with
  | nil => cases hm
  | cons o' t ih =>
    rcases List.mem_cons.mp hm with rfl | hm'
    · exact le_max_left _ _
    · exact le_trans (ih hm') (le_max_right _ _)

theorem circGet_init (h : List JsObj) (x : Nat) : circGet ⟨h, [], []⟩ x = 0 := rfl

theorem totalRem_init (opts : Opts) (h : List JsObj) :
    totalRem opts ⟨h, [], []⟩ = h.length * opts.maxCircularDepth := by
  unfold totalRem
  have : ∀ x ∈ Finset.range h.length,
      opts.maxCircularDepth - min opts.maxCircularDepth (circGet ⟨h, [], []⟩ x) =
        opts.maxCircularDepth := by
    intro x _
    rw [circGet_init]
    simp
  rw [Finset.sum_congr rfl this, Finset.sum_const, Finset.card_range, smul_eq_mul]

theorem ancCardL_empty (L : Nat) : ancCardL L ∅ = 0 := by
  simp [ancCardL]

/-- For any well-formed, throw-free, escape-free input, `stringifyPlus`
succeeds with `suffFuel` fuel (this is the termination of the original
unbounded recursion) and its output is the rendering of a JSON value
(this is syntactic validity of the output). -/
theorem stringifyPlus_ok (opts : Opts) (h : List JsObj) (v : JsVal)
    (hwf : heapWFb h = true) (hnt : heapNoThrowb h = true) (hsafe : heapSafeb h = true)
    (hv : valWFb h.length v = true) (hvs : valSafeb v = true) :
    ∃ st' j, stringifyPlus opts h v = .ok (renderJson j) st' ∧
      StInv (heapMaxSize h + 2) st' ∧ stEvolve ⟨h, [], []⟩ st' := by
  have hsi0 : StInv (heapMaxSize h + 2) ⟨h, [], []⟩ := by
    refine ⟨hwf, hsafe, hnt, fun x p hp => ?_, fun a ho hlk => ?_⟩
    · exact Option.noConfusion hp
    · have := objSize_le_heapMaxSize (h := h) (List.getElem?_mem hlk)
      omega
  have hm0 : travMeasure opts ⟨h, [], []⟩ ∅ =
      h.length * opts.maxCircularDepth * (h.length + 1) + h.length := by
    unfold travMeasure
    rw [totalRem_init, ancCardL_empty]
    simp
  have hfuel : travMeasure opts ⟨h, [], []⟩ ∅ * (heapMaxSize h + 2) + 2 ≤
      suffFuel opts h := by
    rw [hm0]
    unfold suffFuel
    have h1 : h.length * opts.maxCircularDepth * (h.length + 1) + h.length =
        opts.maxCircularDepth * h.length * (h.length + 1) + h.length := by ring
    rw [h1]
    have h2 : (opts.maxCircularDepth * h.length * (h.length + 1) + h.length) *
        (heapMaxSize h + 2) ≤ (opts.maxCircularDepth * h.length * (h.length + 1) +
          h.length) * (heapMaxSize h + 8) :=
      Nat.mul_le_mul_left _ (by omega)
    omega
  obtain ⟨st', j, hrun, hsi', hev⟩ :=
    (total_ok_all opts (heapMaxSize h + 2) (suffFuel opts h)).1 v "root" true false ∅ none
      ⟨h, [], []⟩ hsi0 (by decide) hv hvs hfuel
  exact ⟨st', j, hrun, hsi', hev⟩

/-! ## Invalid output on escape-needing symbol descriptions

The serializer interpolates the symbol description verbatim into a
quoted string, so a description containing a quote yields output no
JSON value renders to. -/

mutual

/-- Scan a string body for a quote that is not escaped. -/
def bareQuoteFree : List Char → Bool
  | [] => true
  | c :: rest =>
    if c = '\\' then bareQuoteFreeTail rest
    else if c = '"' then false
    else bareQuoteFree rest

/-- Skip the character following a backslash. -/
def bareQuoteFreeTail : List Char → Bool
  | [] => true
  | _ :: rest2 => bareQuoteFree rest2

end

theorem hexDigit_ne {d : Nat} (hd : d < 16) : hexDigit d ≠ '"' ∧ hexDigit d ≠ '\\' := by
  interval_cases d <;> exact ⟨by decide, by decide⟩

theorem bareQuoteFree_esc_pair (x : Char) (rest : List Char) :
    bareQuoteFree ('\\' :: x :: rest) = bareQuoteFree rest := by
  simp [bareQuoteFree, bareQuoteFreeTail]

theorem bareQuoteFree_cons_plain {c : Char} (h1 : c ≠ '\\') (h2 : c ≠ '"')
    (t : List Char) : bareQuoteFree (c :: t) = bareQuoteFree t := by
  simp [bareQuoteFree, h1, h2]

theorem bareQuoteFree_escChar (c : Char) (t : List Char) :
    bareQuoteFree (escChar c ++ t) = bareQuoteFree t := by
  unfold escChar
  by_cases h1 : c = '"'
  · rw [if_pos h1]
    exact bareQuoteFree_esc_pair _ _
  rw [if_neg h1]
  by_cases h2 : c = '\\'
  · rw [if_pos h2]
    exact bareQuoteFree_esc_pair _ _
  rw [if_neg h2]
  by_cases h3 : c.toNat = 8
  · rw [if_pos h3]
    exact bareQuoteFree_esc_pair _ _
  rw [if_neg h3]
  by_cases h4 : c.toNat = 9
  · rw [if_pos h4]
    exact bareQuoteFree_esc_pair _ _
  rw [if_neg h4]
  by_cases h5 : c.toNat = 10
  · rw [if_pos h5]
    exact bareQuoteFree_esc_pair _ _
  rw [if_neg h5]
  by_cases h6 : c.toNat = 12
  · rw [if_pos h6]
    exact bareQuoteFree_esc_pair _ _
  rw [if_neg h6]
  by_cases h7 : c.toNat = 13
  · rw [if_pos h7]
    exact bareQuoteFree_esc_pair _ _
  rw [if_neg h7]
  by_cases h8 : c.toNat < 32
  · rw [if_pos h8]
    have hq1 := hexDigit_ne (d := c.toNat / 16) (by omega)
    have hq2 := hexDigit_ne (d := c.toNat % 16) (by omega)
    show bareQuoteFree ('\\' :: 'u' :: '0' :: '0' :: hexDigit (c.toNat / 16) ::
      hexDigit (c.toNat % 16) :: t) = bareQuoteFree t
    rw [bareQuoteFree_esc_pair, bareQuoteFree_cons_plain (by decide) (by decide),
      bareQuoteFree_cons_plain (by decide) (by decide),
      bareQuoteFree_cons_plain hq1.2 hq1.1, bareQuoteFree_cons_plain hq2.2 hq2.1]
  · rw [if_neg h8]
    show bareQuoteFree (c :: t) = bareQuoteFree t
    exact bareQuoteFree_cons_plain h2 h1 t

theorem bareQuoteFree_escList (l t : List Char) :
    bareQuoteFree (escList l ++ t) = bareQuoteFree t := by
  induction l with
  | nil => rfl
  | cons c rest ih =>
    rw [escList_cons, List.append_assoc, bareQuoteFree_escChar]
    exact ih

theorem natDigitsF_code : ∀ fuel n,
    (natDigitsF fuel n).all (fun c => decide (48 ≤ c.toNat ∧ c.toNat ≤ 57)) = true := by
  intro fuel
  induction fuel with
  | zero => intro n; rfl
  | succ fuel ih =>
    intro n
    unfold natDigitsF
    have hdig : ∀ d : Nat, d < 10 → 48 ≤ (digitChar d).toNat ∧ (digitChar d).toNat ≤ 57 := by
      intro d hd
      interval_cases d <;> exact ⟨by decide, by decide⟩
    split
    · rename_i hlt
      simp [hdig _ hlt]
    · rename_i hge
      simp only [List.all_append, Bool.and_eq_true]
      refine ⟨ih _, ?_⟩
      simp [hdig _ (Nat.mod_lt n (by omega))]

theorem natDigits_ne_nil (n : Nat) : natDigits n ≠ [] := by
  unfold natDigits natDigitsF
  split
  · exact List.cons_ne_nil _ _
  · exact fun hcon => List.append_ne_nil_of_right_ne_nil _ (List.cons_ne_nil _ _) hcon

/-- The rendering of a JSON value never starts with a bare quote that
is not the opening of a (properly escaped) string literal, and inside a
string literal every quote is escaped.  On the concrete bad output the
second fact fails. -/
theorem not_validJson_badSymbol :
    ¬ ValidJson "\"[Symbol a\"b]\"" := by
  rintro ⟨j, hj⟩
  have hdata := congrArg String.data hj
  cases j with
  | null => exact absurd hj (by decide)
  | bool b => cases b <;> exact absurd hj (by decide)
  | num n =>
    unfold renderJson intToStr at hdata
    split at hdata
    · rw [String.data_append] at hdata
      have : '-' = '"' := by
        have := List.head?_eq_head (l := ("-" ++ natToStr n.natAbs).data)
        rw [show ("-".data = ['-']) from rfl] at hdata
        exact List.head_eq_of_cons_eq hdata
      exact absurd this (by decide)
    · unfold natToStr at hdata
      cases hnd : natDigits n.natAbs with
      | nil => exact natDigits_ne_nil _ hnd
      | cons c rest =>
        rw [show (String.mk (natDigits n.natAbs)).data = natDigits n.natAbs from rfl,
          hnd] at hdata
        have hc : c = '"' := List.head_eq_of_cons_eq hdata
        have hcode := natDigitsF_code (n.natAbs + 1) n.natAbs
        unfold natDigits at hnd
        rw [hnd, List.all_cons, Bool.and_eq_true] at hcode
        have := of_decide_eq_true hcode.1
        have hcn : c.toNat = 34 := by rw [hc]; rfl
        omega
  | str s =>
    unfold renderJson jsonQuote at hdata
    rw [String.data_append, String.data_append] at hdata
    have htail : escList s.data ++ ['"'] =
        ['[', 'S', 'y', 'm', 'b', 'o', 'l', ' ', 'a', '"', 'b', ']', '"'] := by
      have := List.tail_eq_of_cons_eq hdata
      simpa using this
    have hrev := congrArg List.reverse htail
    rw [List.reverse_append] at hrev
    simp only [List.reverse_cons, List.reverse_nil, List.nil_append] at hrev
    have hmid : escList s.data = ['[', 'S', 'y', 'm', 'b', 'o', 'l', ' ', 'a', '"', 'b', ']'] := by
      have h2 := List.tail_eq_of_cons_eq hrev
      have := congrArg List.reverse h2
      simpa using this
    have hbq : bareQuoteFree (escList s.data) = true := by
      have := bareQuoteFree_escList s.data []
      simpa using this
    rw [hmid] at hbq
    exact absurd hbq (by decide)
  | arr xs =>
    unfold renderJson at hdata
    rw [String.data_append, String.data_append] at hdata
    have : '[' = '"' := List.head_eq_of_cons_eq hdata
    exact absurd this (by decide)
  | obj kvs =>
    unfold renderJson at hdata
    rw [String.data_append, String.data_append] at hdata
    have : '\x7b' = '"' := List.head_eq_of_cons_eq hdata
    exact absurd this (by decide)

/-! ## Concrete heaps used by the claims -/

/-- The self-referential scenario input: `root = {a: 1, self: root}`. -/
def selfHeap : List JsObj :=
  [.obj [("a", .data (.num 1)), ("self", .data (.ref 0))] []]

/-- `shared = {x:1}; root = {a: shared, b: shared}`. -/
def sharedHeap : List JsObj :=
  [.obj [("a", .data (.ref 1)), ("b", .data (.ref 1))] [],
   .obj [("x", .data (.num 1))] []]

/-- A shared container that is itself cyclic:
`c = {self: c}; root = {a: c, b: c}`. -/
def sharedCycleHeap : List JsObj :=
  [.obj [("a", .data (.ref 1)), ("b", .data (.ref 1))] [],
   .obj [("self", .data (.ref 1))] []]

/-- `root = {template: <throwing getter>, self: root}`. -/
def templThrowHeap : List JsObj :=
  [.obj [("template", .getterThrows 7), ("self", .data (.ref 0))] []]

/-- `root = {template: c, x: 1}` where `c = {loop: c}` is cyclic. -/
def templCycleHeap : List JsObj :=
  [.obj [("template", .data (.ref 1)), ("x", .data (.num 1))] [],
   .obj [("loop", .data (.ref 1))] []]

/-- `{a: [ {b: 1} ] }`. -/
def pathHeap : List JsObj :=
  [.obj [("a", .data (.ref 1))] [],
   .arr [.ref 2],
   .obj [("b", .data (.num 1))] []]

/-- `{a: [ {b: d} ] }` where `d = {self: d}`, placing a cycle at path
`root.a[0].b` so the marker shows the path. -/
def pathCycleHeap : List JsObj :=
  [.obj [("a", .data (.ref 1))] [],
   .arr [.ref 2],
   .obj [("b", .data (.ref 3))] [],
   .obj [("self", .data (.ref 3))] []]

/-- Count the (possibly overlapping) occurrences of a pattern. -/
def countSub (pat : List Char) : List Char → Nat
  | [] => 0
  | c :: rest => (if pat.isPrefixOf (c :: rest) then 1 else 0) + countSub pat rest

/-- Occurrences of `pat` inside `s`. -/
def countSubstr (pat s : String) : Nat := countSub pat.data s.data

/-! ## C4 -/

/-- C4 (amended): for every input on which no property read throws and
whose mapping keys, symbol descriptions and function names contain no
character that JSON escaping would rewrite, `stringifyPlus` terminates
(it returns a result with the computed fuel `suffFuel`, which bounds
the depth of the original unbounded recursion) and returns
syntactically valid JSON text — including inputs containing symbols,
callables, big integers, dates, undefined, non-finite numbers, and
cycles. -/
theorem C4_terminates_with_valid_json (opts : Opts) (h : List JsObj) (v : JsVal)
    (hwf : heapWFb h = true) (hnt : heapNoThrowb h = true)
    (hsafe : heapSafeb h = true) (hv : valWFb h.length v = true)
    (hvs : valSafeb v = true) :
    ∃ s st', stringifyPlus opts h v = .ok s st' ∧ ValidJson s := by
  obtain ⟨st', j, hrun, _, _⟩ := stringifyPlus_ok opts h v hwf hnt hsafe hv hvs
  exact ⟨renderJson j, st', hrun, j, rfl⟩

/-- C4 witness: a concrete cyclic input containing a date, a big
integer, a symbol, a function, `undefined` and a non-finite number
serializes successfully to valid JSON. -/
theorem C4_terminates_with_valid_json_witness :
    ∃ s st', stringifyPlus ⟨1, false⟩
      [.obj [("a", .data (.num 1)), ("d", .data (.date "2024-01-01T00:00:00.000Z")),
             ("big", .data (.bigInt 9007199254740991)), ("sym", .data (.symbol (some "test"))),
             ("f", .data (.func "testFunc")), ("u", .data .undef),
             ("nan", .data .nonFiniteNum), ("self", .data (.ref 0))] []]
      (.ref 0) = .ok s st' ∧ ValidJson s :=
  C4_terminates_with_valid_json ⟨1, false⟩ _ _ (by decide) (by decide) (by decide)
    (by decide) (by decide)

/-- C4 counterexample: a symbol whose description contains a quote
character is interpolated verbatim, and the resulting text is not the
rendering of any JSON value — the claim's parenthetical "valid for
every symbol description ... whatever characters they contain" fails. -/
theorem C4_counterexample :
    resOut (stringifyPlus ⟨1, false⟩ [] (.symbol (some "a\"b"))) =
      some "\"[Symbol a\"b]\"" ∧ ¬ ValidJson "\"[Symbol a\"b]\"" :=
  ⟨by decide, not_validJson_badSymbol⟩

/-! ## C2 -/

/-- C2: non-ancestor reuse is not treated as a cycle.  First conjunct:
the claim's own scenario, `shared = {x:1}; root = {a: shared, b:
shared}`, fully renders `shared` under both keys with no circular
marker.  Second conjunct: in general, a reference that is not a member
of the active ancestor set is always processed by the first-visit
branch (`visitCase`); the cycle machinery (`circularCase`) is entered
only on identity membership in the ancestor chain. -/
theorem C2_shared_not_circular :
    (resOut (stringifyPlus ⟨1, false⟩ sharedHeap (.ref 0)) =
      some "\x7b\"a\":\x7b\"x\":1\x7d,\"b\":\x7b\"x\":1\x7d\x7d") ∧
    (∀ b fuel a ho path pir ia anc pk st, a ∉ anc → st.heap[a]? = some ho →
      stringifyPlusInner ⟨b, false⟩ (fuel + 1) (.ref a) path pir ia anc pk st =
        visitCase ⟨b, false⟩ fuel a ho path anc st) ∧
    (∀ b fuel a ho path pir ia anc pk st, a ∈ anc → st.heap[a]? = some ho →
      stringifyPlusInner ⟨b, false⟩ (fuel + 1) (.ref a) path pir ia anc pk st =
        circularCase ⟨b, false⟩ fuel a ho path anc st) := by
  refine ⟨by decide, ?_, ?_⟩
  · intro b fuel a ho path pir ia anc pk st hmem hlk
    simp only [stringifyPlusInner]
    rw [if_neg (by simp), if_neg (by simp), hlk]
    exact if_neg hmem
  · intro b fuel a ho path pir ia anc pk st hmem hlk
    simp only [stringifyPlusInner]
    rw [if_neg (by simp), if_neg (by simp), hlk]
    exact if_pos hmem

/-- C2 witness: the non-ancestor branch lemma applied at a concrete
input. -/
theorem C2_shared_not_circular_witness :
    stringifyPlusInner ⟨1, false⟩ 3 (.ref 1) "root.a" false false (insert 0 ∅) (some "a")
      ⟨sharedHeap, [(0, "root")], []⟩ =
      visitCase ⟨1, false⟩ 2 1 (.obj [("x", .data (.num 1))] []) "root.a" (insert 0 ∅)
        ⟨sharedHeap, [(0, "root")], []⟩ :=
  C2_shared_not_circular.2.1 1 2 1 _ "root.a" false false (insert 0 ∅) (some "a")
    ⟨sharedHeap, [(0, "root")], []⟩ (by decide) (by decide)

/-! ## C3 -/

/-- C3 (amended): in the first-visit branch the redaction rule is
checked before the value is read, so the key's value — an arbitrary
field, including a throwing getter — is never read, classified or
descended into (first conjunct), and the claim's success scenario
holds: a `template` key whose value is a cyclic object serializes
without touching it (second conjunct).  Inside a bounded circular
re-expansion, however, the value is read before the redaction check;
the read result is still discarded and the replacement emitted when the
read does not throw (third conjunct), but a throwing read fails there
(fourth conjunct), so "never reads" does not hold at every node where
the key occurs. -/
theorem C3_redaction_short_circuits :
    (∀ b fuel f rest basePath anc st,
      objPairs ⟨b, true⟩ (fuel + 1) (("template", f) :: rest) basePath anc st =
        consPart (jsonQuote "template" ++ ":" ++ removedLit)
          (objPairs ⟨b, true⟩ fuel rest basePath anc st)) ∧
    (resOut (stringifyPlus ⟨0, true⟩ templCycleHeap (.ref 0)) =
      some "\x7b\"template\":\"Removed for performance reasons\",\"x\":1\x7d") ∧
    (∀ b fuel v rest basePath anc st,
      objPairsCirc ⟨b, true⟩ (fuel + 1) (("template", .data v) :: rest) basePath anc st =
        consPart (jsonQuote "template" ++ ":" ++ removedLit)
          (objPairsCirc ⟨b, true⟩ fuel rest basePath anc st)) ∧
    (∀ b fuel e rest basePath anc st,
      objPairsCirc ⟨b, true⟩ (fuel + 1) (("template", .getterThrows e) :: rest) basePath anc st =
        .err (.getterThrow e) st) := by
  refine ⟨?_, by decide, ?_, ?_⟩
  · intro b fuel f rest basePath anc st
    simp only [objPairs]
    rw [if_pos ⟨trivial, trivial⟩]
  · intro b fuel v rest basePath anc st
    simp only [objPairsCirc, readField]
    rw [if_pos ⟨trivial, trivial⟩]
  · intro b fuel e rest basePath anc st
    simp only [objPairsCirc, readField]

/-- C3 counterexample: the same input `{template: <throwing getter>,
self: <self-reference>}` under `removeTemplate` serializes fine when
the cycle budget is 0 (no re-expansion, second conjunct), but with
budget 1 the circular re-expansion reads the redacted key's getter and
the whole serialization fails with its error (first conjunct) — the
claim's "never reads ... including inside a bounded circular
re-expansion" is false. -/
theorem C3_counterexample :
    resErr (stringifyPlus ⟨1, true⟩ templThrowHeap (.ref 0)) = some (.getterThrow 7) ∧
    resOut (stringifyPlus ⟨0, true⟩ templThrowHeap (.ref 0)) =
      some "\x7b\"template\":\"Removed for performance reasons\",\"self\":\"[Circular Ref: root]\"\x7d" := by
  exact ⟨by decide, by decide⟩

/-! ## C7 -/

/-- C7: path construction is deterministic — a mapping child appends
`.key` and a sequence element appends `[index]` to the parent path
(first two conjuncts, the definitional recurrences).  For the input
`{a: [ {b: 1} ] }` the serializer's final `seen` map records exactly
the paths `root`, `root.a`, `root.a[0]` for the three containers, so
the value `1` under key `b` of the container at `root.a[0]` is reached
at `root.a[0].b` (third conjunct); placing a cyclic object at that spot
makes the marker name exactly `root.a[0].b` (fourth conjunct). -/
theorem C7_path_naming :
    (∀ p k, objChildPath p k = p ++ "." ++ k) ∧
    (∀ p i, arrChildPath p i = p ++ "[" ++ natToStr i ++ "]") ∧
    ((resState (stringifyPlus ⟨1, false⟩ pathHeap (.ref 0))).map TravState.seen =
      some [(2, "root.a[0]"), (1, "root.a"), (0, "root")] ∧
     resOut (stringifyPlus ⟨1, false⟩ pathHeap (.ref 0)) = some "\x7b\"a\":[\x7b\"b\":1\x7d]\x7d") ∧
    resOut (stringifyPlus ⟨0, false⟩ pathCycleHeap (.ref 0)) =
      some "\x7b\"a\":[\x7b\"b\":\x7b\"self\":\"[Circular Ref: root.a[0].b]\"\x7d\x7d]\x7d" := by
  exact ⟨fun p k => rfl, fun p i => rfl, ⟨by decide, by decide⟩, by decide⟩

/-! ## C9 -/

/-- C9: a callable named exactly `anonymousFunction` gets the generic
label `"[function anonymous]"` (first conjunct); any other non-empty
name is embedded verbatim as `"[function <name>]"` (second conjunct); a
callable leaf always serializes to its label (third conjunct,
unconditional on options since a function value is never the
single-template object); and both behaviours inside an object (fourth
conjunct). -/
theorem C9_anonymous_function_label :
    (functionLabel "anonymousFunction" = "\"[function anonymous]\"") ∧
    (∀ name, name ≠ "" → name ≠ "anonymousFunction" →
      functionLabel name = "\"" ++ ("[function " ++ name ++ "]") ++ "\"") ∧
    (∀ opts fuel name path ia anc st,
      stringifyPlusInner opts (fuel + 1) (.func name) path false ia anc none st =
        .ok (functionLabel name) st) ∧
    (resOut (stringifyPlus ⟨1, false⟩
        [.obj [("f", .data (.func "anonymousFunction")), ("g", .data (.func "testFunc"))] []]
        (.ref 0)) =
      some "\x7b\"f\":\"[function anonymous]\",\"g\":\"[function testFunc]\"\x7d") := by
  refine ⟨by decide, ?_, ?_, by decide⟩
  · intro name h1 h2
    unfold functionLabel functionLabelCore
    rw [if_pos ⟨h1, h2⟩]
  · intro opts fuel name path ia anc st
    simp only [stringifyPlusInner]
    rw [if_neg (by simp), if_neg (by simp)]

/-! ## C5 -/

/-- A value that the pair renderers emit inline, with no recursive call
and no state change. -/
def inlineLeafVal : JsVal → Bool
  | .undef => true
  | .jsNull => true
  | .func _ => true
  | .symbol _ => true
  | .bigInt _ => true
  | _ => false

/-- A field whose read succeeds and yields an inline-leaf value. -/
def inlineLeafField : JsField → Bool
  | .data v => inlineLeafVal v
  | .getter v => inlineLeafVal v
  | .getterThrows _ => false

theorem settleFields_eq_self (fs : List (String × JsField))
    (h : ∀ q ∈ fs, q.1 ≠ "needsCheck") : settleFields fs = fs := by
  induction fs with
  | nil => rfl
  | cons q rest ih =>
    simp only [settleFields, List.map_cons]
    rw [if_neg (h q (List.mem_cons_self q rest))]
    have hr := ih (fun r hr => h r (List.mem_cons_of_mem q hr))
    simp only [settleFields] at hr
    rw [hr]

/-- When an inline-leaf prefix precedes a throwing getter, the pair
renderer of the first-visit branch propagates the throw unchanged. -/
theorem objPairs_prefix_throw (b : Nat) (k : String) (e : Nat)
    (rest : List (String × JsField)) (basePath : String) (anc : Finset Nat) :
    ∀ (pre : List (String × JsField)) (fuel : Nat) (st : TravState),
      (∀ q ∈ pre, inlineLeafField q.2 = true) →
      pre.length + 1 ≤ fuel →
      objPairs ⟨b, false⟩ fuel (pre ++ (k, .getterThrows e) :: rest) basePath anc st =
        .err (.getterThrow e) st := by
  intro pre
  induction pre with
  | nil =>
    intro fuel st _ hfuel
    obtain ⟨f, rfl⟩ : ∃ f, fuel = f + 1 := ⟨fuel - 1, by omega⟩
    simp only [List.nil_append, objPairs, readField]
    rw [if_neg (by simp)]
  | cons q pre ih =>
    intro fuel st hpre hfuel
    obtain ⟨f, rfl⟩ : ∃ f, fuel = f + 1 := ⟨fuel - 1, by omega⟩
    obtain ⟨kq, fq⟩ := q
    have hq : inlineLeafField fq = true := hpre (kq, fq) (List.mem_cons_self _ _)
    have hlen : pre.length + 1 ≤ f := by
      simp only [List.length_cons] at hfuel
      omega
    have hih := ih f st (fun r hr => hpre r (List.mem_cons_of_mem _ hr)) hlen
    simp only [List.cons_append, objPairs]
    rw [if_neg (by simp)]
    cases fq with
    | data v =>
      simp only [readField]
      cases v <;>
        first
          | exact Bool.noConfusion hq
          | (simp only [List.append_eq, hih]; rfl)
    | getter v =>
      simp only [readField]
      cases v <;>
        first
          | exact Bool.noConfusion hq
          | (simp only [List.append_eq, hih]; rfl)
    | getterThrows e2 => exact Bool.noConfusion hq

/-- Dispatch of a reference with redaction disabled. -/
theorem inner_ref_noRT (b fuel a : Nat) (ho : JsObj) (path : String) (pir ia : Bool)
    (anc : Finset Nat) (pk : Option String) (st : TravState)
    (hlk : st.heap[a]? = some ho) (hmem : a ∉ anc) :
    stringifyPlusInner ⟨b, false⟩ (fuel + 1) (.ref a) path pir ia anc pk st =
      visitCase ⟨b, false⟩ fuel a ho path anc st := by
  simp only [stringifyPlusInner]
  rw [if_neg (by simp), if_neg (by simp), hlk]
  exact if_neg hmem

/-- The first-visit branch on a plain object, unfolded. -/
theorem visitCase_obj (opts : Opts) (fuel a : Nat) (fs hid : List (String × JsField))
    (path : String) (anc : Finset Nat) (st : TravState) :
    visitCase opts (fuel + 1) a (.obj fs hid) path anc st =
      wrapRes "\x7b" "\x7d" (objPairs opts fuel (settleFields fs) path (insert a anc)
        (heapUpdate (seenNote st a path) a (.obj (settleFields fs) hid))) := by
  simp only [visitCase, settleNeedsCheck]

/-- The first-visit branch on an array, unfolded. -/
theorem visitCase_arr (opts : Opts) (fuel a : Nat) (es : List JsVal)
    (path : String) (anc : Finset Nat) (st : TravState) :
    visitCase opts (fuel + 1) a (.arr es) path anc st =
      wrapRes "[" "]" (arrElems opts fuel es path 0 (insert a anc)
        (heapUpdate (seenNote st a path) a (.arr es))) := by
  simp only [visitCase, settleNeedsCheck]

/-- C5: when reading a property at a non-redacted node throws, the
serializer returns exactly that error to its caller — no output text is
produced at all (the outcome is `.err`, which carries no rendered
string), so nothing is caught, no placeholder is substituted and no
partial result is returned.  Stated for an arbitrary object whose
throwing member is preceded by any run of inline-leaf members and
followed by anything. -/
theorem C5_getter_error_propagates (b e : Nat) (k : String)
    (pre rest hid : List (String × JsField))
    (hpre : ∀ q ∈ pre, inlineLeafField q.2 = true ∧ q.1 ≠ "needsCheck")
    (hk : k ≠ "needsCheck") :
    resErr (stringifyPlus ⟨b, false⟩
      [.obj (pre ++ (k, .getterThrows e) :: rest) hid] (.ref 0)) =
      some (.getterThrow e) := by
  have hlen : (pre ++ (k, JsField.getterThrows e) :: rest).length =
      pre.length + rest.length + 1 := by
    simp only [List.length_append, List.length_cons]
    omega
  have hkey : ∀ (o : JsObj), objSize o + 9 ≤ suffFuel ⟨b, false⟩ [o] := by
    intro o
    have h1 : heapMaxSize [o] = objSize o := by simp [heapMaxSize]
    unfold suffFuel
    rw [h1]
    have h3 : objSize o + 8 ≤
        ((⟨b, false⟩ : Opts).maxCircularDepth * [o].length * ([o].length + 1) +
          [o].length) * (objSize o + 8) :=
      Nat.le_mul_of_pos_left _ (by simp)
    omega
  have hfuel : pre.length + 4 ≤
      suffFuel ⟨b, false⟩ [.obj (pre ++ (k, .getterThrows e) :: rest) hid] := by
    have h4 := hkey (.obj (pre ++ (k, .getterThrows e) :: rest) hid)
    have h5 : objSize (JsObj.obj (pre ++ (k, JsField.getterThrows e) :: rest) hid) =
        (pre ++ (k, JsField.getterThrows e) :: rest).length := rfl
    omega
  obtain ⟨f, hf⟩ : ∃ f,
      suffFuel ⟨b, false⟩ [.obj (pre ++ (k, .getterThrows e) :: rest) hid] = f + 2 :=
    ⟨suffFuel ⟨b, false⟩ [.obj (pre ++ (k, .getterThrows e) :: rest) hid] - 2, by omega⟩
  unfold stringifyPlus
  rw [hf]
  rw [inner_ref_noRT b (f + 1) 0 (.obj (pre ++ (k, .getterThrows e) :: rest) hid)
    "root" true false ∅ none
    ⟨[.obj (pre ++ (k, .getterThrows e) :: rest) hid], [], []⟩ rfl (by simp)]
  rw [visitCase_obj]
  have hsf : settleFields (pre ++ (k, JsField.getterThrows e) :: rest) =
      pre ++ (k, JsField.getterThrows e) :: settleFields rest := by
    have hp := settleFields_eq_self pre (fun q hq => (hpre q hq).2)
    simp only [settleFields, List.map_append, List.map_cons] at hp ⊢
    rw [if_neg hk, hp]
  rw [hsf]
  rw [objPairs_prefix_throw b k e (settleFields rest) "root" (insert 0 ∅) pre f _
    (fun q hq => (hpre q hq).1) (by omega)]
  rfl

/-- C5 witness: a concrete object whose third member's getter throws
error 5 behind two inline-leaf members fails with exactly that error. -/
theorem C5_getter_error_propagates_witness :
    resErr (stringifyPlus ⟨1, false⟩
      [.obj ([("u", .data .undef), ("f", .data (.func "g"))] ++
        ("bad", .getterThrows 5) :: [("y", .data (.num 2))]) []] (.ref 0)) =
      some (.getterThrow 5) :=
  C5_getter_error_propagates 1 5 "bad" [("u", .data .undef), ("f", .data (.func "g"))]
    [("y", .data (.num 2))] [] (by decide) (by decide)

/-! ## C6 -/

/-- A successful first visit of the container at address `a` leaves the
settled container at `a` in the final heap. -/
theorem visitCase_settles (opts : Opts) (fuel a : Nat) (ho : JsObj) (path : String)
    (anc : Finset Nat) (st : TravState) (s : String) (st' : TravState)
    (hlk : st.heap[a]? = some ho)
    (hrun : visitCase opts fuel a ho path anc st = .ok s st') :
    st'.heap[a]? = some (settleNeedsCheck ho) := by
  cases fuel with
  | zero => simp [visitCase] at hrun
  | succ fuel =>
    have ha : a < st.heap.length := lookup_lt hlk
    have ha2 : a < (seenNote st a path).heap.length := by
      rw [heap_seenNote]
      exact ha
    cases ho with
    | arr es =>
      rw [visitCase_arr] at hrun
      have hst2 : (heapUpdate (seenNote st a path) a (.arr es)).heap[a]? =
          some (JsObj.arr es) := by
        show ((seenNote st a path).heap.set a _)[a]? = _
        rw [List.getElem?_set_eq_of_lt _ ha2]
      cases harr : arrElems opts fuel es path 0 (insert a anc)
          (heapUpdate (seenNote st a path) a (.arr es)) with
      | ok parts stx =>
        rw [harr] at hrun
        simp only [wrapRes] at hrun
        injection hrun with h1 h2
        subst h2
        have hev := (frame_all opts fuel).2.2.2.1 es path 0 (insert a anc)
          (heapUpdate (seenNote st a path) a (.arr es))
        rw [harr] at hev
        rcases hev.1.2 a with hcase | hcase
        · rw [hcase, hst2]
          rfl
        · rw [hcase, hst2]
          rfl
      | err e2 stx =>
        rw [harr] at hrun
        simp [wrapRes] at hrun
      | fuelOut =>
        rw [harr] at hrun
        simp [wrapRes] at hrun
    | obj fs hid =>
      rw [visitCase_obj] at hrun
      have hst2 : (heapUpdate (seenNote st a path) a
          (.obj (settleFields fs) hid)).heap[a]? =
          some (JsObj.obj (settleFields fs) hid) := by
        show ((seenNote st a path).heap.set a _)[a]? = _
        rw [List.getElem?_set_eq_of_lt _ ha2]
      cases hpairs : objPairs opts fuel (settleFields fs) path (insert a anc)
          (heapUpdate (seenNote st a path) a (.obj (settleFields fs) hid)) with
      | ok parts stx =>
        rw [hpairs] at hrun
        simp only [wrapRes] at hrun
        injection hrun with h1 h2
        subst h2
        have hev := (frame_all opts fuel).2.2.2.2.1 (settleFields fs) path (insert a anc)
          (heapUpdate (seenNote st a path) a (.obj (settleFields fs) hid))
        rw [hpairs] at hev
        rcases hev.1.2 a with hcase | hcase
        · rw [hcase, hst2]
          rfl
        · rw [hcase, hst2]
          show Option.map settleNeedsCheck (some (settleNeedsCheck (JsObj.obj fs hid))) =
            some (settleNeedsCheck (JsObj.obj fs hid))
          rw [Option.map_some', settleNeedsCheck_idem]
      | err e2 stx =>
        rw [hpairs] at hrun
        simp [wrapRes] at hrun
      | fuelOut =>
        rw [hpairs] at hrun
        simp [wrapRes] at hrun

/-- C6: the only mutation is the settling of `needsCheck`.  First
conjunct: for every options, input heap and value, the final heap —
after success and after a propagated throw alike — has unchanged length
and holds at every address either the original container or that
container with `needsCheck` settled (`heapEvolve`).  Second conjunct:
settling replaces exactly the value under an own `needsCheck` key by
`false`, keeps every other field (data or accessor) and the
non-enumerable and inherited properties unchanged, and leaves
sequences untouched.  Third conjunct: each container the traversal
actually first-visits successfully is settled in the final heap.
Fourth conjunct: the concrete scenario `{needsCheck: true, x: 1}`,
whose final heap stores `needsCheck: false` with `x` intact. -/
theorem C6_needs_check_only_mutation :
    (∀ opts h v st', resState (stringifyPlus opts h v) = some st' →
      heapEvolve h st'.heap) ∧
    ((∀ fs hid, settleNeedsCheck (.obj fs hid) =
        .obj (fs.map fun q => if q.1 = "needsCheck" then (q.1, .data (.bool false)) else q)
          hid) ∧
     ∀ es, settleNeedsCheck (.arr es) = .arr es) ∧
    (∀ opts fuel a ho path anc st s st', st.heap[a]? = some ho →
      visitCase opts fuel a ho path anc st = .ok s st' →
      st'.heap[a]? = some (settleNeedsCheck ho)) ∧
    (stringifyPlus ⟨1, false⟩
        [.obj [("needsCheck", .data (.bool true)), ("x", .data (.num 1))] []] (.ref 0) =
      .ok "\x7b\"needsCheck\":false,\"x\":1\x7d"
        ⟨[.obj [("needsCheck", .data (.bool false)), ("x", .data (.num 1))] []],
          [(0, "root")], []⟩) := by
  refine ⟨?_, ⟨fun fs hid => rfl, fun es => rfl⟩,
    fun opts fuel a ho path anc st s st' hlk hrun =>
      visitCase_settles opts fuel a ho path anc st s st' hlk hrun, by decide⟩
  intro opts h v st' hst
  have hev := (frame_all opts (suffFuel opts h)).1 v "root" true false ∅ none ⟨h, [], []⟩
  unfold stringifyPlus at hst
  cases hres : stringifyPlusInner opts (suffFuel opts h) v "root" true false ∅ none
      ⟨h, [], []⟩ with
  | ok s stx =>
    rw [hres] at hev hst
    simp only [resState] at hst
    injection hst with h1
    subst h1
    exact hev.1
  | err e stx =>
    rw [hres] at hev hst
    simp only [resState] at hst
    injection hst with h1
    subst h1
    exact hev.1
  | fuelOut =>
    rw [hres] at hst
    simp [resState] at hst

/-! ## C1 -/

/-- The output shape of the self-referential scenario after `n`
expansions: `n` nested copies of the container's contents around the
terminal marker naming the first-seen path `root`. -/
def selfExpansion : Nat → String
  | 0 => circularMarker "root"
  | n + 1 =>
    "\x7b" ++ String.intercalate ","
      [jsonQuote "a" ++ ":" ++ intToStr 1,
       jsonQuote "self" ++ ":" ++ selfExpansion n] ++ "\x7d"

/-- Dispatch of an ancestor reference with redaction disabled. -/
theorem inner_ref_circ (b fuel a : Nat) (ho : JsObj) (path : String) (pir ia : Bool)
    (anc : Finset Nat) (pk : Option String) (st : TravState)
    (hlk : st.heap[a]? = some ho) (hmem : a ∈ anc) :
    stringifyPlusInner ⟨b, false⟩ (fuel + 1) (.ref a) path pir ia anc pk st =
      circularCase ⟨b, false⟩ fuel a ho path anc st := by
  simp only [stringifyPlusInner]
  rw [if_neg (by simp), if_neg (by simp), hlk]
  exact if_pos hmem

/-- A number leaf with redaction disabled. -/
theorem inner_num (b fuel : Nat) (n : Int) (path : String) (pir ia : Bool)
    (anc : Finset Nat) (pk : Option String) (st : TravState) :
    stringifyPlusInner ⟨b, false⟩ (fuel + 1) (.num n) path pir ia anc pk st =
      .ok (intToStr n) st := by
  simp only [stringifyPlusInner]
  rw [if_neg (by simp), if_neg (by simp)]

/-- The circular chain of the self-referential scenario: with `d`
budget remaining out of `b`, an ancestor reference to the root expands
into exactly `d` more copies of the contents around the marker. -/
theorem selfLoop (b : Nat) : ∀ (d cnt fuel : Nat) (path : String) (pk : Option String)
    (st : TravState), st.heap = selfHeap → seenGet st 0 = some "root" →
    circGet st 0 = cnt → cnt + d = b → 4 * d + 2 ≤ fuel →
    ∃ st', stringifyPlusInner ⟨b, false⟩ fuel (.ref 0) path false false
        (insert 0 ∅) pk st = .ok (selfExpansion d) st' := by
  intro d
  induction d with
  | zero =>
    intro cnt fuel path pk st hheap hseen hcirc hcnt hfuel
    obtain ⟨f, rfl⟩ : ∃ f, fuel = f + 2 := ⟨fuel - 2, by omega⟩
    rw [inner_ref_circ b (f + 1) 0
      (.obj [("a", .data (.num 1)), ("self", .data (.ref 0))] []) path false false
      (insert 0 ∅) pk st (by rw [hheap]; rfl) (Finset.mem_insert_self 0 ∅)]
    simp only [circularCase]
    rw [hcirc, if_neg (by omega), hseen]
    exact ⟨st, rfl⟩
  | succ d ih =>
    intro cnt fuel path pk st hheap hseen hcirc hcnt hfuel
    obtain ⟨m, rfl⟩ : ∃ m, fuel = m + 2 := ⟨fuel - 2, by omega⟩
    rw [inner_ref_circ b (m + 1) 0
      (.obj [("a", .data (.num 1)), ("self", .data (.ref 0))] []) path false false
      (insert 0 ∅) pk st (by rw [hheap]; rfl) (Finset.mem_insert_self 0 ∅)]
    simp only [circularCase]
    rw [hcirc, if_pos (show cnt < (⟨b, false⟩ : Opts).maxCircularDepth by
      show cnt < b
      omega)]
    rw [Finset.insert_idem]
    obtain ⟨m1, rfl⟩ : ∃ m1, m = m1 + 1 := ⟨m - 1, by omega⟩
    simp only [objPairsCirc, readField]
    rw [if_neg (by simp)]
    obtain ⟨m2, rfl⟩ : ∃ m2, m1 = m2 + 1 := ⟨m1 - 1, by omega⟩
    rw [inner_num b m2 1 (objChildPath path "a") false false (insert 0 ∅) (some "a")
      (circBump st 0 (cnt + 1))]
    simp only [recPair]
    simp only [objPairsCirc, readField]
    rw [if_neg (by simp)]
    have hc1 : circGet (circBump st 0 (cnt + 1)) 0 = cnt + 1 := by
      cases st with
      | mk h s c =>
        show circGet ⟨h, s, (0, cnt + 1) :: c⟩ 0 = cnt + 1
        rw [circGet_cons]
        simp
    obtain ⟨st', hst'⟩ := ih (cnt + 1) m2 (objChildPath path "self") (some "self")
      (circBump st 0 (cnt + 1)) (by rw [heap_circBump]; exact hheap) hseen hc1
      (by omega) (by omega)
    rw [hst']
    simp only [recPair]
    obtain ⟨m3, rfl⟩ : ∃ m3, m2 = m3 + 1 := ⟨m2 - 1, by omega⟩
    simp only [objPairsCirc, consPart, wrapRes]
    exact ⟨st', rfl⟩

/-- Occurrences of a character in a string. -/
def countChar (c : Char) (s : String) : Nat := s.data.count c

theorem intercalate_pair (s t : String) : String.intercalate "," [s, t] = s ++ "," ++ t :=
  rfl

/-- Each expansion layer of the scenario output holds exactly one copy
of the container's contents (witnessed by its one digit `1`; the
marker has none). -/
theorem countChar_selfExpansion : ∀ n, countChar '1' (selfExpansion n) = n := by
  intro n
  induction n with
  | zero => decide
  | succ n ih =>
    simp only [selfExpansion, intercalate_pair, countChar, String.data_append,
      List.count_append]
    simp only [countChar] at ih
    have e1 : ("\x7b" : String).data.count '1' = 0 := by decide
    have e2 : (jsonQuote "a").data.count '1' = 0 := by decide
    have e3 : ((":" : String)).data.count '1' = 0 := by decide
    have e4 : (intToStr 1).data.count '1' = 1 := by decide
    have e5 : (("," : String)).data.count '1' = 0 := by decide
    have e6 : (jsonQuote "self").data.count '1' = 0 := by decide
    have e7 : ("\x7d" : String).data.count '1' = 0 := by decide
    simp only [e1, e2, e3, e4, e5, e6, e7, ih]
    omega

/-- C1 (amended, single-occurrence cycle): the scenario — budget 1 on
`{a: 1, self: <self-reference>}` — produces exactly the claimed text
(first conjunct); in general, for every budget `b` that input produces
`selfExpansion (b + 1)`: the container's contents repeated exactly
`b + 1` times around a terminal marker naming the first-seen path
`root` (second conjunct, with the marker shape third); each layer holds
exactly one copy of the contents (fourth conjunct), so the repetition
count is exactly `revisitBudget + 1` — for a cycle whose container is
reached from one branch only. -/
theorem C1_cycle_budget :
    (resOut (stringifyPlus ⟨1, false⟩ selfHeap (.ref 0)) =
      some "\x7b\"a\":1,\"self\":\x7b\"a\":1,\"self\":\"[Circular Ref: root]\"\x7d\x7d") ∧
    (∀ b, ∃ st', stringifyPlus ⟨b, false⟩ selfHeap (.ref 0) =
      .ok (selfExpansion (b + 1)) st') ∧
    (selfExpansion 0 = circularMarker "root" ∧
      circularMarker "root" = "\"[Circular Ref: root]\"") ∧
    (∀ n, countChar '1' (selfExpansion n) = n) := by
  refine ⟨by decide, ?_, ⟨rfl, by decide⟩, countChar_selfExpansion⟩
  intro b
  have hsf : suffFuel ⟨b, false⟩ selfHeap = 20 * b + 18 := by
    simp [suffFuel, heapMaxSize, selfHeap, objSize]
    omega
  unfold stringifyPlus
  rw [hsf]
  rw [show (20 : Nat) * b + 18 = (20 * b + 17) + 1 from by omega]
  rw [inner_ref_noRT b (20 * b + 17) 0
    (.obj [("a", .data (.num 1)), ("self", .data (.ref 0))] []) "root" true false
    ∅ none ⟨selfHeap, [], []⟩ rfl (by simp)]
  rw [show (20 : Nat) * b + 17 = (20 * b + 16) + 1 from by omega]
  rw [visitCase_obj]
  rw [show settleFields [("a", JsField.data (.num 1)), ("self", JsField.data (.ref 0))] =
    [("a", JsField.data (.num 1)), ("self", JsField.data (.ref 0))] from rfl]
  rw [show heapUpdate (seenNote ⟨selfHeap, [], []⟩ 0 "root") 0
      (.obj [("a", JsField.data (.num 1)), ("self", JsField.data (.ref 0))] []) =
    ⟨selfHeap, [(0, "root")], []⟩ from rfl]
  rw [show (20 : Nat) * b + 16 = (20 * b + 15) + 1 from by omega]
  simp only [objPairs, readField]
  rw [if_neg (by simp)]
  rw [show (20 : Nat) * b + 15 = (20 * b + 14) + 1 from by omega]
  rw [inner_num b (20 * b + 14) 1 (objChildPath "root" "a") false false (insert 0 ∅)
    (some "a") ⟨selfHeap, [(0, "root")], []⟩]
  simp only [recPair]
  rw [if_neg (by simp)]
  obtain ⟨st', hloop⟩ := selfLoop b b 0 (20 * b + 14) (objChildPath "root" "self")
    (some "self") ⟨selfHeap, [(0, "root")], []⟩ rfl rfl rfl (by omega) (by omega)
  rw [hloop]
  simp only [consPart, wrapRes]
  exact ⟨st', rfl⟩

/-- C1 counterexample: the revisit budget is tracked per container
identity across the whole run, not per occurrence.  With budget 1 and
`c = {self: c}; root = {a: c, b: c}`, the cyclic container `c` is
re-expanded under `root.a` but arrives at `root.b` with its budget
already spent: the output (first conjunct) renders `c`'s contents only
once under `b` — a total of three `"self":` members instead of the
two-per-occurrence (four) that "repeated exactly revisitBudget + 1
times" would demand for every cyclic container (second conjunct); the
marker under `b` names `root.a`, the first-seen path (visible in the
first conjunct). -/
theorem C1_counterexample :
    resOut (stringifyPlus ⟨1, false⟩ sharedCycleHeap (.ref 0)) =
      some "\x7b\"a\":\x7b\"self\":\x7b\"self\":\"[Circular Ref: root.a]\"\x7d\x7d,\"b\":\x7b\"self\":\"[Circular Ref: root.a]\"\x7d\x7d" ∧
    countSubstr "\"self\":"
      "\x7b\"a\":\x7b\"self\":\x7b\"self\":\"[Circular Ref: root.a]\"\x7d\x7d,\"b\":\x7b\"self\":\"[Circular Ref: root.a]\"\x7d\x7d" = 3 :=
  ⟨by decide, by decide⟩

/-! ## C10: observational equivalence

Two containers are observationally equal when they agree on their own
enumerable string-keyed properties — same keys in the same order, each
field reading to the same value (a getter reading like a plain data
property) — whatever their hidden (inherited, non-enumerable or
symbol-keyed) properties are.  The serializer cannot distinguish
observationally equal heaps. -/

/-- Same own key, and the field reads to the same value (so a getter is
interchangeable with a data property holding its computed value). -/
def fieldObsEq (q1 q2 : String × JsField) : Prop :=
  q1.1 = q2.1 ∧ readField q1.2 = readField q2.2

/-- Containers that agree on everything the serializer can observe. -/
def objObsEq : JsObj → JsObj → Prop
  | .arr es1, .arr es2 => es1 = es2
  | .obj fs1 _, .obj fs2 _ => List.Forall₂ fieldObsEq fs1 fs2
  | _, _ => False

/-- Pointwise observational equality of heaps. -/
def heapObsEq : List JsObj → List JsObj → Prop := List.Forall₂ objObsEq

/-- Observational equality of traversal states: equal bookkeeping and
observationally equal heaps. -/
def stObsEq (st1 st2 : TravState) : Prop :=
  heapObsEq st1.heap st2.heap ∧ st1.seen = st2.seen ∧
    st1.circularDepths = st2.circularDepths

/-- Outcomes equal up to heap observation. -/
def resObsEq : Res → Res → Prop
  | .ok s1 st1, .ok s2 st2 => s1 = s2 ∧ stObsEq st1 st2
  | .err e1 st1, .err e2 st2 => e1 = e2 ∧ stObsEq st1 st2
  | .fuelOut, .fuelOut => True
  | _, _ => False

/-- Children-list outcomes equal up to heap observation. -/
def resListObsEq : ResList → ResList → Prop
  | .ok p1 st1, .ok p2 st2 => p1 = p2 ∧ stObsEq st1 st2
  | .err e1 st1, .err e2 st2 => e1 = e2 ∧ stObsEq st1 st2
  | .fuelOut, .fuelOut => True
  | _, _ => False

theorem heapObsEq_lookup {h1 h2 : List JsObj} (hr : heapObsEq h1 h2) :
    ∀ a : Nat, (h1[a]? = none ∧ h2[a]? = none) ∨
      ∃ o1 o2, h1[a]? = some o1 ∧ h2[a]? = some o2 ∧ objObsEq o1 o2 := by
  induction hr with
  | nil => intro a; left; exact ⟨rfl, rfl⟩
  | cons hq ht ih =>
    intro a
    cases a with
    | zero => right; exact ⟨_, _, by simp, by simp, hq⟩
    | succ a =>
      rcases ih a with ⟨e1, e2⟩ | ⟨o1, o2, e1, e2, hobs⟩
      · left
        exact ⟨by simpa using e1, by simpa using e2⟩
      · right
        exact ⟨o1, o2, by simpa using e1, by simpa using e2, hobs⟩

theorem fieldObsEq_keys {fs1 fs2 : List (String × JsField)}
    (hr : List.Forall₂ fieldObsEq fs1 fs2) : fs1.map Prod.fst = fs2.map Prod.fst := by
  induction hr with
  | nil => rfl
  | cons hq ht ih => simp only [List.map_cons, ih, hq.1]

theorem isSingleTemplateObj_obs {st1 st2 : TravState} (hr : heapObsEq st1.heap st2.heap)
    (v : JsVal) : isSingleTemplateObj st1 v = isSingleTemplateObj st2 v := by
  cases v with
  | ref a =>
    rcases heapObsEq_lookup hr a with ⟨e1, e2⟩ | ⟨o1, o2, e1, e2, hobs⟩
    · simp [isSingleTemplateObj, e1, e2]
    · cases o1 with
      | arr es1 =>
        cases o2 with
        | arr es2 => simp [isSingleTemplateObj, e1, e2]
        | obj fs2 hid2 => exact absurd hobs (by simp [objObsEq])
      | obj fs1 hid1 =>
        cases o2 with
        | arr es2 => exact absurd hobs (by simp [objObsEq])
        | obj fs2 hid2 =>
          simp only [isSingleTemplateObj, e1, e2]
          rw [fieldObsEq_keys hobs]
  | undef => rfl
  | jsNull => rfl
  | bool b => rfl
  | num n => rfl
  | nonFiniteNum => rfl
  | str s => rfl
  | bigInt n => rfl
  | symbol d => rfl
  | func name => rfl
  | date iso => rfl

theorem settleFields_obs {fs1 fs2 : List (String × JsField)}
    (hr : List.Forall₂ fieldObsEq fs1 fs2) :
    List.Forall₂ fieldObsEq (settleFields fs1) (settleFields fs2) := by
  induction hr with
  | nil => exact List.Forall₂.nil
  | cons hq ht ih =>
    rename_i q1 q2 t1 t2
    refine List.Forall₂.cons ?_ ih
    by_cases hk : q1.1 = "needsCheck"
    · have hk2 : q2.1 = "needsCheck" := hq.1 ▸ hk
      simp only [fieldObsEq, if_pos hk, if_pos hk2]
      exact ⟨hq.1, trivial⟩
    · have hk2 : ¬ q2.1 = "needsCheck" := hq.1 ▸ hk
      simp only [fieldObsEq, if_neg hk, if_neg hk2]
      exact hq

theorem settleNeedsCheck_obs {o1 o2 : JsObj} (hr : objObsEq o1 o2) :
    objObsEq (settleNeedsCheck o1) (settleNeedsCheck o2) := by
  cases o1 with
  | arr es1 =>
    cases o2 with
    | arr es2 => exact hr
    | obj fs2 hid2 => exact absurd hr (by simp [objObsEq])
  | obj fs1 hid1 =>
    cases o2 with
    | arr es2 => exact absurd hr (by simp [objObsEq])
    | obj fs2 hid2 => exact settleFields_obs hr

theorem heapObsEq_set {h1 h2 : List JsObj} (hr : heapObsEq h1 h2) :
    ∀ (a : Nat) {o1 o2 : JsObj}, objObsEq o1 o2 →
      heapObsEq (h1.set a o1) (h2.set a o2) := by
  induction hr with
  | nil => intro a o1 o2 _; exact List.Forall₂.nil
  | cons hq ht ih =>
    intro a o1 o2 hobs
    cases a with
    | zero => exact List.Forall₂.cons hobs ht
    | succ a => exact List.Forall₂.cons hq (ih a hobs)

theorem stObsEq_seenNote {st1 st2 : TravState} (hr : stObsEq st1 st2) (a : Nat)
    (p : String) : stObsEq (seenNote st1 a p) (seenNote st2 a p) := by
  have hsg : seenGet st1 a = seenGet st2 a := by
    unfold seenGet
    rw [hr.2.1]
  unfold seenNote
  rw [hsg]
  split
  · exact hr
  · exact ⟨hr.1, by simp [hr.2.1], hr.2.2⟩

theorem stObsEq_circBump {st1 st2 : TravState} (hr : stObsEq st1 st2) (a c : Nat) :
    stObsEq (circBump st1 a c) (circBump st2 a c) :=
  ⟨hr.1, hr.2.1, by simp [circBump, hr.2.2]⟩

theorem stObsEq_heapUpdate {st1 st2 : TravState} (hr : stObsEq st1 st2) (a : Nat)
    {o1 o2 : JsObj} (hobs : objObsEq o1 o2) :
    stObsEq (heapUpdate st1 a o1) (heapUpdate st2 a o2) :=
  ⟨heapObsEq_set hr.1 a hobs, hr.2.1, hr.2.2⟩

theorem circGet_obs {st1 st2 : TravState} (hr : stObsEq st1 st2) (a : Nat) :
    circGet st1 a = circGet st2 a := by
  unfold circGet
  rw [hr.2.2]

theorem seenGet_obs {st1 st2 : TravState} (hr : stObsEq st1 st2) (a : Nat) :
    seenGet st1 a = seenGet st2 a := by
  unfold seenGet
  rw [hr.2.1]

/-- Dispatch of a dangling reference once both redaction checks are
settled. -/
theorem inner_ref_none (opts : Opts) (fuel a : Nat) (path : String) (pir ia : Bool)
    (anc : Finset Nat) (pk : Option String) (st : TravState)
    (hc1 : ¬(opts.removeTemplate = true ∧ pk = some "template"))
    (hc2 : ¬(opts.removeTemplate = true ∧ pir = true ∧
      isSingleTemplateObj st (.ref a) = true))
    (hlk : st.heap[a]? = none) :
    stringifyPlusInner opts (fuel + 1) (.ref a) path pir ia anc pk st =
      .err .danglingRef st := by
  simp only [stringifyPlusInner]
  rw [if_neg hc1, if_neg hc2, hlk]

/-- Dispatch of a bound reference once both redaction checks are
settled. -/
theorem inner_ref_some (opts : Opts) (fuel a : Nat) (ho : JsObj) (path : String)
    (pir ia : Bool) (anc : Finset Nat) (pk : Option String) (st : TravState)
    (hc1 : ¬(opts.removeTemplate = true ∧ pk = some "template"))
    (hc2 : ¬(opts.removeTemplate = true ∧ pir = true ∧
      isSingleTemplateObj st (.ref a) = true))
    (hlk : st.heap[a]? = some ho) :
    stringifyPlusInner opts (fuel + 1) (.ref a) path pir ia anc pk st =
      if a ∈ anc then circularCase opts fuel a ho path anc st
      else visitCase opts fuel a ho path anc st := by
  simp only [stringifyPlusInner]
  rw [if_neg hc1, if_neg hc2, hlk]

theorem resObsEq_wrapRes (l r : String) {r1 r2 : ResList} (h : resListObsEq r1 r2) :
    resObsEq (wrapRes l r r1) (wrapRes l r r2) := by
  cases r1 <;> cases r2 <;> simp_all [resListObsEq, resObsEq, wrapRes]

theorem resListObsEq_consPart (p : String) {r1 r2 : ResList} (h : resListObsEq r1 r2) :
    resListObsEq (consPart p r1) (consPart p r2) := by
  cases r1 <;> cases r2 <;> simp_all [resListObsEq, consPart]

theorem resListObsEq_recElem {r1 r2 : Res} {cont1 cont2 : TravState → ResList}
    (h : resObsEq r1 r2)
    (hc : ∀ t1 t2, stObsEq t1 t2 → resListObsEq (cont1 t1) (cont2 t2)) :
    resListObsEq (recElem r1 cont1) (recElem r2 cont2) := by
  cases r1 with
  | ok s1 t1 =>
    cases r2 with
    | ok s2 t2 =>
      obtain ⟨hs, ht⟩ := h
      subst hs
      exact resListObsEq_consPart s1 (hc t1 t2 ht)
    | err e2 t2 => exact absurd h (by simp [resObsEq])
    | fuelOut => exact absurd h (by simp [resObsEq])
  | err e1 t1 =>
    cases r2 with
    | ok s2 t2 => exact absurd h (by simp [resObsEq])
    | err e2 t2 => exact h
    | fuelOut => exact absurd h (by simp [resObsEq])
  | fuelOut =>
    cases r2 with
    | ok s2 t2 => exact absurd h (by simp [resObsEq])
    | err e2 t2 => exact absurd h (by simp [resObsEq])
    | fuelOut => trivial

theorem resListObsEq_recPair (k : String) {r1 r2 : Res} {cont1 cont2 : TravState → ResList}
    (h : resObsEq r1 r2)
    (hc : ∀ t1 t2, stObsEq t1 t2 → resListObsEq (cont1 t1) (cont2 t2)) :
    resListObsEq (recPair k r1 cont1) (recPair k r2 cont2) := by
  cases r1 with
  | ok s1 t1 =>
    cases r2 with
    | ok s2 t2 =>
      obtain ⟨hs, ht⟩ := h
      subst hs
      exact resListObsEq_consPart _ (hc t1 t2 ht)
    | err e2 t2 => exact absurd h (by simp [resObsEq])
    | fuelOut => exact absurd h (by simp [resObsEq])
  | err e1 t1 =>
    cases r2 with
    | ok s2 t2 => exact absurd h (by simp [resObsEq])
    | err e2 t2 => exact h
    | fuelOut => exact absurd h (by simp [resObsEq])
  | fuelOut =>
    cases r2 with
    | ok s2 t2 => exact absurd h (by simp [resObsEq])
    | err e2 t2 => exact absurd h (by simp [resObsEq])
    | fuelOut => trivial

/-- The serializer cannot observe hidden properties nor the difference
between a getter and a data property holding its computed value: on
observationally equal states it produces identical text, identical
errors and identically evolved bookkeeping. -/
theorem obs_all (opts : Opts) : ∀ fuel : Nat,
    (∀ v path pir ia anc pk st1 st2, stObsEq st1 st2 →
      resObsEq (stringifyPlusInner opts fuel v path pir ia anc pk st1)
        (stringifyPlusInner opts fuel v path pir ia anc pk st2)) ∧
    (∀ a o1 o2 path anc st1 st2, stObsEq st1 st2 → objObsEq o1 o2 →
      resObsEq (circularCase opts fuel a o1 path anc st1)
        (circularCase opts fuel a o2 path anc st2)) ∧
    (∀ a o1 o2 path anc st1 st2, stObsEq st1 st2 → objObsEq o1 o2 →
      resObsEq (visitCase opts fuel a o1 path anc st1)
        (visitCase opts fuel a o2 path anc st2)) ∧
    (∀ l path i anc st1 st2, stObsEq st1 st2 →
      resListObsEq (arrElems opts fuel l path i anc st1)
        (arrElems opts fuel l path i anc st2)) ∧
    (∀ l1 l2 path anc st1 st2, stObsEq st1 st2 → List.Forall₂ fieldObsEq l1 l2 →
      resListObsEq (objPairs opts fuel l1 path anc st1)
        (objPairs opts fuel l2 path anc st2)) ∧
    (∀ l1 l2 path anc st1 st2, stObsEq st1 st2 → List.Forall₂ fieldObsEq l1 l2 →
      resListObsEq (objPairsCirc opts fuel l1 path anc st1)
        (objPairsCirc opts fuel l2 path anc st2)) := by
  intro fuel
  induction fuel with
  | zero =>
    exact ⟨fun _ _ _ _ _ _ _ _ _ => trivial, fun _ _ _ _ _ _ _ _ _ => trivial,
      fun _ _ _ _ _ _ _ _ _ => trivial, fun _ _ _ _ _ _ _ => trivial,
      fun _ _ _ _ _ _ _ _ => trivial, fun _ _ _ _ _ _ _ _ => trivial⟩
  | succ fuel ih =>
    obtain ⟨ihInner, ihCirc, ihVisit, ihArr, ihPairs, ihPairsC⟩ := ih
    refine ⟨?_, ?_, ?_, ?_, ?_, ?_⟩
    · -- stringifyPlusInner
      intro v path pir ia anc pk st1 st2 hr
      by_cases hc1 : opts.removeTemplate = true ∧ pk = some "template"
      · simp only [stringifyPlusInner]
        rw [if_pos hc1, if_pos hc1]
        exact ⟨rfl, hr⟩
      by_cases hc2 : opts.removeTemplate = true ∧ pir = true ∧
          isSingleTemplateObj st1 v = true
      · have hc2' : opts.removeTemplate = true ∧ pir = true ∧
            isSingleTemplateObj st2 v = true :=
          ⟨hc2.1, hc2.2.1, ((isSingleTemplateObj_obs hr.1 v).symm).trans hc2.2.2⟩
        simp only [stringifyPlusInner]
        rw [if_neg hc1, if_neg hc1, if_pos hc2, if_pos hc2']
        exact ⟨rfl, hr⟩
      have hc2' : ¬(opts.removeTemplate = true ∧ pir = true ∧
          isSingleTemplateObj st2 v = true) :=
        fun h => hc2 ⟨h.1, h.2.1, (isSingleTemplateObj_obs hr.1 v).trans h.2.2⟩
      cases v with
      | undef =>
        simp only [stringifyPlusInner]
        rw [if_neg hc1, if_neg hc1, if_neg hc2, if_neg hc2']
        exact ⟨rfl, hr⟩
      | jsNull =>
        simp only [stringifyPlusInner]
        rw [if_neg hc1, if_neg hc1, if_neg hc2, if_neg hc2']
        exact ⟨rfl, hr⟩
      | bool b =>
        simp only [stringifyPlusInner]
        rw [if_neg hc1, if_neg hc1, if_neg hc2, if_neg hc2']
        exact ⟨rfl, hr⟩
      | num n =>
        simp only [stringifyPlusInner]
        rw [if_neg hc1, if_neg hc1, if_neg hc2, if_neg hc2']
        exact ⟨rfl, hr⟩
      | nonFiniteNum =>
        simp only [stringifyPlusInner]
        rw [if_neg hc1, if_neg hc1, if_neg hc2, if_neg hc2']
        exact ⟨rfl, hr⟩
      | str s =>
        simp only [stringifyPlusInner]
        rw [if_neg hc1, if_neg hc1, if_neg hc2, if_neg hc2']
        exact ⟨rfl, hr⟩
      | bigInt n =>
        simp only [stringifyPlusInner]
        rw [if_neg hc1, if_neg hc1, if_neg hc2, if_neg hc2']
        exact ⟨rfl, hr⟩
      | symbol d =>
        simp only [stringifyPlusInner]
        rw [if_neg hc1, if_neg hc1, if_neg hc2, if_neg hc2']
        exact ⟨rfl, hr⟩
      | func name =>
        simp only [stringifyPlusInner]
        rw [if_neg hc1, if_neg hc1, if_neg hc2, if_neg hc2']
        exact ⟨rfl, hr⟩
      | date iso =>
        simp only [stringifyPlusInner]
        rw [if_neg hc1, if_neg hc1, if_neg hc2, if_neg hc2']
        exact ⟨rfl, hr⟩
      | ref a =>
        rcases heapObsEq_lookup hr.1 a with ⟨e1, e2⟩ | ⟨o1, o2, e1, e2, hobs⟩
        · rw [inner_ref_none opts fuel a path pir ia anc pk st1 hc1 hc2 e1,
            inner_ref_none opts fuel a path pir ia anc pk st2 hc1 hc2' e2]
          exact ⟨rfl, hr⟩
        · rw [inner_ref_some opts fuel a o1 path pir ia anc pk st1 hc1 hc2 e1,
            inner_ref_some opts fuel a o2 path pir ia anc pk st2 hc1 hc2' e2]
          by_cases hmem : a ∈ anc
          · rw [if_pos hmem, if_pos hmem]
            exact ihCirc a o1 o2 path anc st1 st2 hr hobs
          · rw [if_neg hmem, if_neg hmem]
            exact ihVisit a o1 o2 path anc st1 st2 hr hobs
    · -- circularCase
      intro a o1 o2 path anc st1 st2 hr hobs
      simp only [circularCase]
      rw [show circGet st2 a = circGet st1 a from (circGet_obs hr a).symm]
      by_cases hc : circGet st1 a < opts.maxCircularDepth
      · rw [if_pos hc, if_pos hc]
        have hr1 := stObsEq_circBump hr a (circGet st1 a + 1)
        cases o1 with
        | arr es1 =>
          cases o2 with
          | arr es2 =>
            have hes : es1 = es2 := hobs
            subst hes
            exact resObsEq_wrapRes _ _ (ihArr es1 path 0 (insert a anc) _ _ hr1)
          | obj fs2 hid2 => exact absurd hobs (by simp [objObsEq])
        | obj fs1 hid1 =>
          cases o2 with
          | arr es2 => exact absurd hobs (by simp [objObsEq])
          | obj fs2 hid2 =>
            exact resObsEq_wrapRes _ _
              (ihPairsC fs1 fs2 path (insert a anc) _ _ hr1 hobs)
      · rw [if_neg hc, if_neg hc]
        rw [show seenGet st2 a = seenGet st1 a from (seenGet_obs hr a).symm]
        exact ⟨rfl, hr⟩
    · -- visitCase
      intro a o1 o2 path anc st1 st2 hr hobs
      simp only [visitCase]
      have hr2 : stObsEq
          (heapUpdate (seenNote st1 a path) a (settleNeedsCheck o1))
          (heapUpdate (seenNote st2 a path) a (settleNeedsCheck o2)) :=
        stObsEq_heapUpdate (stObsEq_seenNote hr a path) a (settleNeedsCheck_obs hobs)
      cases o1 with
      | arr es1 =>
        cases o2 with
        | arr es2 =>
          have hes : es1 = es2 := hobs
          subst hes
          exact resObsEq_wrapRes _ _ (ihArr es1 path 0 (insert a anc) _ _ hr2)
        | obj fs2 hid2 => exact absurd hobs (by simp [objObsEq])
      | obj fs1 hid1 =>
        cases o2 with
        | arr es2 => exact absurd hobs (by simp [objObsEq])
        | obj fs2 hid2 =>
          exact resObsEq_wrapRes _ _ (ihPairs (settleFields fs1) (settleFields fs2)
            path (insert a anc) _ _ hr2 (settleFields_obs hobs))
    · -- arrElems
      intro l path i anc st1 st2 hr
      cases l with
      | nil => exact ⟨rfl, hr⟩
      | cons v rest =>
        simp only [arrElems]
        exact resListObsEq_recElem (ihInner v _ false true anc none st1 st2 hr)
          (fun t1 t2 ht => ihArr rest path (i + 1) anc t1 t2 ht)
    · -- objPairs
      intro l1 l2 path anc st1 st2 hr hl
      cases hl with
      | nil => exact ⟨rfl, hr⟩
      | cons hq ht =>
        rename_i q1 q2 t1 t2
        obtain ⟨k1, f1⟩ := q1
        obtain ⟨k2, f2⟩ := q2
        have hk : k1 = k2 := hq.1
        subst hk
        simp only [objPairs]
        by_cases hred : opts.removeTemplate = true ∧ k1 = "template"
        · simp only [if_pos hred]
          exact resListObsEq_consPart _ (ihPairs t1 t2 path anc st1 st2 hr ht)
        simp only [if_neg hred]
        rw [show readField f2 = readField f1 from hq.2.symm]
        cases hrf : readField f1 with
        | thrown e => exact ⟨rfl, hr⟩
        | val v =>
          cases v with
          | undef => exact resListObsEq_consPart _ (ihPairs t1 t2 path anc st1 st2 hr ht)
          | jsNull => exact resListObsEq_consPart _ (ihPairs t1 t2 path anc st1 st2 hr ht)
          | func name => exact resListObsEq_consPart _ (ihPairs t1 t2 path anc st1 st2 hr ht)
          | symbol d => exact resListObsEq_consPart _ (ihPairs t1 t2 path anc st1 st2 hr ht)
          | bigInt n => exact resListObsEq_consPart _ (ihPairs t1 t2 path anc st1 st2 hr ht)
          | bool b =>
            exact resListObsEq_recPair _ (ihInner _ _ false false anc (some k1) _ _ hr)
              (fun u1 u2 hu => ihPairs t1 t2 path anc u1 u2 hu ht)
          | num n =>
            exact resListObsEq_recPair _ (ihInner _ _ false false anc (some k1) _ _ hr)
              (fun u1 u2 hu => ihPairs t1 t2 path anc u1 u2 hu ht)
          | nonFiniteNum =>
            exact resListObsEq_recPair _ (ihInner _ _ false false anc (some k1) _ _ hr)
              (fun u1 u2 hu => ihPairs t1 t2 path anc u1 u2 hu ht)
          | str s =>
            exact resListObsEq_recPair _ (ihInner _ _ false false anc (some k1) _ _ hr)
              (fun u1 u2 hu => ihPairs t1 t2 path anc u1 u2 hu ht)
          | date iso =>
            exact resListObsEq_recPair _ (ihInner _ _ false false anc (some k1) _ _ hr)
              (fun u1 u2 hu => ihPairs t1 t2 path anc u1 u2 hu ht)
          | ref b =>
            exact resListObsEq_recPair _ (ihInner _ _ false false anc (some k1) _ _ hr)
              (fun u1 u2 hu => ihPairs t1 t2 path anc u1 u2 hu ht)
    · -- objPairsCirc
      intro l1 l2 path anc st1 st2 hr hl
      cases hl with
      | nil => exact ⟨rfl, hr⟩
      | cons hq ht =>
        rename_i q1 q2 t1 t2
        obtain ⟨k1, f1⟩ := q1
        obtain ⟨k2, f2⟩ := q2
        have hk : k1 = k2 := hq.1
        subst hk
        simp only [objPairsCirc]
        rw [show readField f2 = readField f1 from hq.2.symm]
        cases hrf : readField f1 with
        | thrown e => exact ⟨rfl, hr⟩
        | val v =>
          by_cases hred : opts.removeTemplate = true ∧ k1 = "template"
          · simp only [if_pos hred]
            exact resListObsEq_consPart _ (ihPairsC t1 t2 path anc st1 st2 hr ht)
          simp only [if_neg hred]
          cases v with
          | undef => exact resListObsEq_consPart _ (ihPairsC t1 t2 path anc st1 st2 hr ht)
          | jsNull => exact resListObsEq_consPart _ (ihPairsC t1 t2 path anc st1 st2 hr ht)
          | func name => exact resListObsEq_consPart _ (ihPairsC t1 t2 path anc st1 st2 hr ht)
          | symbol d => exact resListObsEq_consPart _ (ihPairsC t1 t2 path anc st1 st2 hr ht)
          | bigInt n => exact resListObsEq_consPart _ (ihPairsC t1 t2 path anc st1 st2 hr ht)
          | bool b =>
            exact resListObsEq_recPair _ (ihInner _ _ false false anc (some k1) _ _ hr)
              (fun u1 u2 hu => ihPairsC t1 t2 path anc u1 u2 hu ht)
          | num n =>
            exact resListObsEq_recPair _ (ihInner _ _ false false anc (some k1) _ _ hr)
              (fun u1 u2 hu => ihPairsC t1 t2 path anc u1 u2 hu ht)
          | nonFiniteNum =>
            exact resListObsEq_recPair _ (ihInner _ _ false false anc (some k1) _ _ hr)
              (fun u1 u2 hu => ihPairsC t1 t2 path anc u1 u2 hu ht)
          | str s =>
            exact resListObsEq_recPair _ (ihInner _ _ false false anc (some k1) _ _ hr)
              (fun u1 u2 hu => ihPairsC t1 t2 path anc u1 u2 hu ht)
          | date iso =>
            exact resListObsEq_recPair _ (ihInner _ _ false false anc (some k1) _ _ hr)
              (fun u1 u2 hu => ihPairsC t1 t2 path anc u1 u2 hu ht)
          | ref b =>
            exact resListObsEq_recPair _ (ihInner _ _ false false anc (some k1) _ _ hr)
              (fun u1 u2 hu => ihPairsC t1 t2 path anc u1 u2 hu ht)

theorem objSize_obs {o1 o2 : JsObj} (h : objObsEq o1 o2) : objSize o1 = objSize o2 := by
  cases o1 with
  | arr es1 =>
    cases o2 with
    | arr es2 => rw [show es1 = es2 from h]
    | obj fs2 hid2 => exact absurd h (by simp [objObsEq])
  | obj fs1 hid1 =>
    cases o2 with
    | arr es2 => exact absurd h (by simp [objObsEq])
    | obj fs2 hid2 =>
      show fs1.length = fs2.length
      exact List.Forall₂.length_eq h

theorem heapMaxSize_obs {h1 h2 : List JsObj} (hr : heapObsEq h1 h2) :
    heapMaxSize h1 = heapMaxSize h2 := by
  induction hr with
  | nil => rfl
  | cons hq ht ih =>
    rename_i o1 o2 t1 t2
    show max (objSize o1) (heapMaxSize t1) = max (objSize o2) (heapMaxSize t2)
    rw [objSize_obs hq, ih]

/-- C10: the output lists exactly the own enumerable string-keyed
properties.  First conjunct: the serializer's whole behaviour is
invariant under observational equality of heaps — same own keys in the
same (insertion) order with fields reading to the same values, with the
hidden properties (the model's inherited, non-enumerable and
symbol-keyed ones) arbitrary on both sides.  Second conjunct: in
particular the output text is identical.  Third conjunct: a getter
field reads exactly like a data field holding its computed value, so
accessor properties are read and their computed values serialized.
Fourth conjunct: concretely, `{b: <getter returning 2>, a: 1}` with a
hidden property prints `{"b":2,"a":1}` — getter computed, hidden
omitted, insertion order (`b` before `a`) kept. -/
theorem C10_own_enumerable_properties :
    (∀ opts h1 h2 v, heapObsEq h1 h2 →
      resObsEq (stringifyPlus opts h1 v) (stringifyPlus opts h2 v)) ∧
    (∀ opts h1 h2 v s st1, heapObsEq h1 h2 → stringifyPlus opts h1 v = .ok s st1 →
      ∃ st2, stringifyPlus opts h2 v = .ok s st2) ∧
    (∀ v, readField (.getter v) = readField (.data v)) ∧
    (resOut (stringifyPlus ⟨1, false⟩
        [.obj [("b", .getter (.num 2)), ("a", .data (.num 1))]
          [("hidden", .data (.num 9))]] (.ref 0)) =
      some "\x7b\"b\":2,\"a\":1\x7d") := by
  have hmain : ∀ opts h1 h2 v, heapObsEq h1 h2 →
      resObsEq (stringifyPlus opts h1 v) (stringifyPlus opts h2 v) := by
    intro opts h1 h2 v hr
    have hlen : h1.length = h2.length := List.Forall₂.length_eq hr
    unfold stringifyPlus
    rw [show suffFuel opts h2 = suffFuel opts h1 from by
      unfold suffFuel
      rw [← hlen, ← heapMaxSize_obs hr]]
    exact (obs_all opts (suffFuel opts h1)).1 v "root" true false ∅ none
      ⟨h1, [], []⟩ ⟨h2, [], []⟩ ⟨hr, rfl, rfl⟩
  refine ⟨hmain, ?_, fun v => rfl, by decide⟩
  intro opts h1 h2 v s st1 hr hrun
  have hobs := hmain opts h1 h2 v hr
  rw [hrun] at hobs
  cases hres : stringifyPlus opts h2 v with
  | ok s2 st2 =>
    rw [hres] at hobs
    have hobs' : s = s2 ∧ stObsEq st1 st2 := hobs
    exact ⟨st2, by rw [hobs'.1]⟩
  | err e2 st2 =>
    rw [hres] at hobs
    exact absurd hobs (by simp [resObsEq])
  | fuelOut =>
    rw [hres] at hobs
    exact absurd hobs (by simp [resObsEq])

/-! ## C8: the substituted JSON value of an acyclic input

`sjVal` maps a model value to the JSON value the serializer's text
stands for, following the code: dates, big integers, symbols, callables
and `undefined` become the code's descriptive strings, non-finite
numbers become `null`, arrays and objects recurse — and an object's
members are its settled own fields (`needsCheck` forced to `false`),
in insertion order, hidden properties dropped, getters read.  The fuel
argument only backs the structural recursion; on a ranked (acyclic)
heap every large enough fuel gives the same rendering (proved below).
`sjValSpec` is the same map but following the spec's words instead:
only the documented lossy substitutions, no `needsCheck` settling. -/

mutual

/-- The JSON value the serializer's output stands for (code behaviour,
including the `needsCheck` settling). -/
def sjVal (h : List JsObj) : Nat → JsVal → Json
  | 0, _ => .null
  | _ + 1, .undef => .str "[ undefined ]"
  | _ + 1, .jsNull => .null
  | _ + 1, .bool b => .bool b
  | _ + 1, .num n => .num n
  | _ + 1, .nonFiniteNum => .null
  | _ + 1, .str s => .str s
  | _ + 1, .bigInt n => .str (intToStr n)
  | _ + 1, .symbol d => .str (symbolLabelCore d)
  | _ + 1, .func name => .str (functionLabelCore name)
  | _ + 1, .date iso => .str iso
  | D + 1, .ref a =>
    match h[a]? with
    | none => .null
    | some (.arr es) => .arr (sjList h D es)
    | some (.obj fs _) => .obj (sjKVs h D (settleFields fs))

/-- Substituted JSON values of a list of elements. -/
def sjList (h : List JsObj) : Nat → List JsVal → List Json
  | 0, _ => []
  | _ + 1, [] => []
  | D + 1, v :: rest => sjVal h D v :: sjList h D rest

/-- Substituted JSON members of a field list (getters read; a throwing
getter, excluded by the no-throw hypotheses, is given `null`). -/
def sjKVs (h : List JsObj) : Nat → List (String × JsField) → List (String × Json)
  | 0, _ => []
  | _ + 1, [] => []
  | D + 1, (k, f) :: rest =>
    match readField f with
    | .thrown _ => (k, .null) :: sjKVs h D rest
    | .val v => (k, sjVal h D v) :: sjKVs h D rest

end

mutual

/-- The substitution the spec's words document: like `sjVal` but with
no `needsCheck` settling (a spec-modelled definition, for comparison
with the code's). -/
def sjValSpec (h : List JsObj) : Nat → JsVal → Json
  | 0, _ => .null
  | _ + 1, .undef => .str "[ undefined ]"
  | _ + 1, .jsNull => .null
  | _ + 1, .bool b => .bool b
  | _ + 1, .num n => .num n
  | _ + 1, .nonFiniteNum => .null
  | _ + 1, .str s => .str s
  | _ + 1, .bigInt n => .str (intToStr n)
  | _ + 1, .symbol d => .str (symbolLabelCore d)
  | _ + 1, .func name => .str (functionLabelCore name)
  | _ + 1, .date iso => .str iso
  | D + 1, .ref a =>
    match h[a]? with
    | none => .null
    | some (.arr es) => .arr (sjListSpec h D es)
    | some (.obj fs _) => .obj (sjKVsSpec h D fs)

def sjListSpec (h : List JsObj) : Nat → List JsVal → List Json
  | 0, _ => []
  | _ + 1, [] => []
  | D + 1, v :: rest => sjValSpec h D v :: sjListSpec h D rest

def sjKVsSpec (h : List JsObj) : Nat → List (String × JsField) → List (String × Json)
  | 0, _ => []
  | _ + 1, [] => []
  | D + 1, (k, f) :: rest =>
    match readField f with
    | .thrown _ => (k, .null) :: sjKVsSpec h D rest
    | .val v => (k, sjValSpec h D v) :: sjKVsSpec h D rest

end

/-- The value's references all have rank below `n`. -/
def valRankb (r : Nat → Nat) (n : Nat) : JsVal → Bool
  | .ref b => decide (r b < n)
  | _ => true

/-- All the container's readable values have rank below `n`. -/
def objRankb (r : Nat → Nat) (n : Nat) : JsObj → Bool
  | .arr es => es.all (valRankb r n)
  | .obj fs _ => fs.all (fun q => fieldValb (valRankb r n) q.2)

/-- The heap is ranked by `r`: every edge strictly decreases the rank,
so no reference chain can return to a container — the heap is acyclic.
-/
def rankedHeapb (r : Nat → Nat) (h : List JsObj) : Bool :=
  (List.range h.length).all (fun a =>
    match h[a]? with
    | some o => objRankb r (r a) o
    | none => true)

/-- Large enough substitution fuel for one value. -/
def sjDepthOk (r : Nat → Nat) (Kb : Nat) : JsVal → Nat → Prop
  | .ref a, D => (r a + 1) * (Kb + 1) + 1 ≤ D
  | _, D => 1 ≤ D

/-- The substituted value only depends on the heap up to `needsCheck`
settling, so it is unchanged by the serializer's own mutation. -/
theorem sjVal_evolve {h h' : List JsObj} (he : heapEvolve h h') : ∀ D : Nat,
    (∀ v, sjVal h' D v = sjVal h D v) ∧
    (∀ l, sjList h' D l = sjList h D l) ∧
    (∀ l, sjKVs h' D l = sjKVs h D l) := by
  intro D
  induction D with
  | zero => exact ⟨fun v => rfl, fun l => rfl, fun l => rfl⟩
  | succ D ih =>
    obtain ⟨ihV, ihL, ihK⟩ := ih
    refine ⟨?_, ?_, ?_⟩
    · intro v
      cases v with
      | ref a =>
        simp only [sjVal]
        rcases he.2 a with hcase | hcase
        · rw [hcase]
          cases hlk : h[a]? with
          | none => rfl
          | some o =>
            cases o with
            | arr es => simp only [ihL]
            | obj fs hid => simp only [ihK]
        · rw [hcase]
          cases hlk : h[a]? with
          | none => rfl
          | some o =>
            cases o with
            | arr es => simp only [Option.map_some', settleNeedsCheck, ihL]
            | obj fs hid =>
              simp only [Option.map_some', settleNeedsCheck, ihK, settleFields_idem]
      | undef => rfl
      | jsNull => rfl
      | bool b => rfl
      | num n => rfl
      | nonFiniteNum => rfl
      | str s => rfl
      | bigInt n => rfl
      | symbol d => rfl
      | func name => rfl
      | date iso => rfl
    · intro l
      cases l with
      | nil => rfl
      | cons v rest => simp only [sjList, ihV, ihL]
    · intro l
      cases l with
      | nil => rfl
      | cons q rest =>
        obtain ⟨k, f⟩ := q
        simp only [sjKVs]
        cases readField f with
        | thrown e => simp only [ihK]
        | val v => simp only [ihV, ihK]

theorem objRankb_settle {r : Nat → Nat} {n : Nat} {o : JsObj}
    (h : objRankb r n o = true) : objRankb r n (settleNeedsCheck o) = true := by
  cases o with
  | arr es => exact h
  | obj fs hid =>
    simp only [settleNeedsCheck, objRankb, List.all_eq_true] at h ⊢
    intro q hq
    obtain ⟨q', hq', _, hv⟩ := mem_settleFields hq
    rcases hv with hv | hv
    · rw [hv]
      exact h q' hq'
    · rw [hv]
      rfl

theorem rankedHeapb_evolve {r : Nat → Nat} {h h' : List JsObj} (he : heapEvolve h h')
    (hr : rankedHeapb r h = true) : rankedHeapb r h' = true := by
  unfold rankedHeapb at hr ⊢
  rw [List.all_eq_true] at hr ⊢
  intro a ha
  rw [he.1] at ha
  have hh := hr a ha
  rcases he.2 a with hx | hx
  · rw [hx]
    exact hh
  · rw [hx]
    cases hlk : h[a]? with
    | none => rfl
    | some o =>
      rw [hlk] at hh
      simp only [Option.map_some']
      exact objRankb_settle hh

theorem rankedHeap_lookup {r : Nat → Nat} {h : List JsObj} {a : Nat} {o : JsObj}
    (hr : rankedHeapb r h = true) (hlk : h[a]? = some o) :
    objRankb r (r a) o = true := by
  unfold rankedHeapb at hr
  rw [List.all_eq_true] at hr
  have := hr a (List.mem_range.mpr (lookup_lt hlk))
  rw [hlk] at this
  exact this

theorem heapEvolve_lookup_back {h h' : List JsObj} (he : heapEvolve h h') {a : Nat}
    {o : JsObj} (hlk : h'[a]? = some o) :
    ∃ o0, h[a]? = some o0 ∧ (o = o0 ∨ o = settleNeedsCheck o0) := by
  rcases he.2 a with hx | hx
  · exact ⟨o, by rw [← hx, hlk], Or.inl rfl⟩
  · rw [hlk] at hx
    cases hl2 : h[a]? with
    | none =>
      rw [hl2] at hx
      exact Option.noConfusion hx
    | some o0 =>
      rw [hl2] at hx
      simp only [Option.map_some'] at hx
      injection hx with hx
      exact ⟨o0, rfl, Or.inr hx⟩

theorem heapEvolve_set_settle {h hh : List JsObj} (he : heapEvolve h hh) {a : Nat}
    {ho : JsObj} (hlk : hh[a]? = some ho) :
    heapEvolve h ((hh.set a (settleNeedsCheck ho))) := by
  refine ⟨by rw [List.length_set, he.1], fun x => ?_⟩
  by_cases hax : a = x
  · subst hax
    have ha : a < hh.length := lookup_lt hlk
    rw [List.getElem?_set_eq_of_lt _ ha]
    obtain ⟨o0, hlk0, hor⟩ := heapEvolve_lookup_back he hlk
    right
    rw [hlk0]
    rcases hor with hv | hv
    · rw [hv]
      rfl
    · rw [hv, settleNeedsCheck_idem]
      rfl
  · rw [List.getElem?_set_ne hax]
    exact he.2 x

theorem sjDepthOk_of_rank {r : Nat → Nat} {Kb n D : Nat} {v : JsVal}
    (hv : valRankb r n v = true) (hD : n * (Kb + 1) + 1 ≤ D) : sjDepthOk r Kb v D := by
  cases v with
  | ref a =>
    have hlt : r a < n := by simpa [valRankb] using hv
    show (r a + 1) * (Kb + 1) + 1 ≤ D
    have : (r a + 1) * (Kb + 1) ≤ n * (Kb + 1) := Nat.mul_le_mul_right _ (by omega)
    omega
  | undef => show 1 ≤ D; omega
  | jsNull => show 1 ≤ D; omega
  | bool bb => show 1 ≤ D; omega
  | num nn => show 1 ≤ D; omega
  | nonFiniteNum => show 1 ≤ D; omega
  | str s => show 1 ≤ D; omega
  | bigInt nn => show 1 ≤ D; omega
  | symbol d => show 1 ≤ D; omega
  | func name => show 1 ≤ D; omega
  | date iso => show 1 ≤ D; omega

/-- Glue: an inline-leaf member in front of a substituted remainder. -/
theorem sjPairLeaf {b Kb n fuel : Nat} {h : List JsObj} {st : TravState}
    (k lit : String) (v : JsVal) {rest : List (String × JsField)} {path : String}
    {anc : Finset Nat} (f : JsField) (hread : readField f = .val v)
    (hlit : ∀ D : Nat, 1 ≤ D → lit = renderJson (sjVal h D v))
    (hres : ∃ st', StInv Kb st' ∧ stEvolve st st' ∧
      ∀ D, n * (Kb + 1) + rest.length + 1 ≤ D →
        objPairs ⟨b, false⟩ fuel rest path anc st = .ok (renderKVs (sjKVs h D rest)) st') :
    ∃ st', StInv Kb st' ∧ stEvolve st st' ∧
      ∀ D, n * (Kb + 1) + ((k, f) :: rest).length + 1 ≤ D →
        consPart (jsonQuote k ++ ":" ++ lit)
            (objPairs ⟨b, false⟩ fuel rest path anc st) =
          .ok (renderKVs (sjKVs h D ((k, f) :: rest))) st' := by
  obtain ⟨st3, hsi3, hev3, hrun⟩ := hres
  refine ⟨st3, hsi3, hev3, ?_⟩
  intro D hD
  simp only [List.length_cons] at hD
  obtain ⟨D2, rfl⟩ : ∃ D2, D = D2 + 1 := ⟨D - 1, by omega⟩
  rw [hrun D2 (by omega)]
  simp only [sjKVs, hread, renderKVs, consPart]
  rw [hlit D2 (by omega)]

/-- Glue: a recursively substituted member in front of a substituted
remainder. -/
theorem sjPairRec {b Kb n fuel : Nat} {h : List JsObj} {st : TravState}
    (k : String) (v : JsVal) {rest : List (String × JsField)} {path : String}
    {anc : Finset Nat} (f : JsField) (hread : readField f = .val v)
    (hin : ∃ st2, StInv Kb st2 ∧ stEvolve st st2 ∧
      ∀ D, n * (Kb + 1) + 1 ≤ D →
        stringifyPlusInner ⟨b, false⟩ fuel v (objChildPath path k) false false anc
          (some k) st = .ok (renderJson (sjVal h D v)) st2)
    (hcont : ∀ st2, StInv Kb st2 → stEvolve st st2 →
      ∃ st3, StInv Kb st3 ∧ stEvolve st2 st3 ∧
        ∀ D, n * (Kb + 1) + rest.length + 1 ≤ D →
          objPairs ⟨b, false⟩ fuel rest path anc st2 =
            .ok (renderKVs (sjKVs h D rest)) st3) :
    ∃ st', StInv Kb st' ∧ stEvolve st st' ∧
      ∀ D, n * (Kb + 1) + ((k, f) :: rest).length + 1 ≤ D →
        recPair k (stringifyPlusInner ⟨b, false⟩ fuel v (objChildPath path k) false
            false anc (some k) st)
          (fun st1 => objPairs ⟨b, false⟩ fuel rest path anc st1) =
          .ok (renderKVs (sjKVs h D ((k, f) :: rest))) st' := by
  obtain ⟨st2, hsi2, hev2, hin2⟩ := hin
  obtain ⟨st3, hsi3, hev3, hrun3⟩ := hcont st2 hsi2 hev2
  refine ⟨st3, hsi3, stEvolve_trans hev2 hev3, ?_⟩
  intro D hD
  simp only [List.length_cons] at hD
  obtain ⟨D2, rfl⟩ : ∃ D2, D = D2 + 1 := ⟨D - 1, by omega⟩
  rw [hin2 D2 (by omega)]
  simp only [recPair]
  rw [hrun3 D2 (by omega)]
  simp only [sjKVs, hread, renderKVs, consPart]

/-- The substitution induction: on a ranked (acyclic, throw-free,
well-formed, escape-free) heap, every call of the serializer succeeds
and renders exactly the substituted JSON value of its argument — the
same `sjVal` for every large enough substitution fuel, which is the
stabilisation of `sjVal` as well. -/
theorem sj_all (b Kb : Nat) (h : List JsObj) (r : Nat → Nat)
    (hrank : rankedHeapb r h = true) : ∀ fuel : Nat,
    (∀ v path pir ia anc pk st, StInv Kb st → safeStr path = true →
      valWFb st.heap.length v = true → valSafeb v = true →
      heapEvolve h st.heap →
      (∀ aa, v = .ref aa → ∀ x ∈ anc, r aa < r x) →
      travMeasure ⟨b, false⟩ st anc * Kb + 2 ≤ fuel →
      ∃ st', StInv Kb st' ∧ stEvolve st st' ∧
        ∀ D, sjDepthOk r Kb v D →
          stringifyPlusInner ⟨b, false⟩ fuel v path pir ia anc pk st =
            .ok (renderJson (sjVal h D v)) st') ∧
    (∀ a ho path anc st, StInv Kb st → safeStr path = true →
      st.heap[a]? = some ho → a ∉ anc → heapEvolve h st.heap →
      (∀ x ∈ anc, r a < r x) →
      travMeasure ⟨b, false⟩ st anc * Kb + 1 ≤ fuel →
      ∃ st', StInv Kb st' ∧ stEvolve st st' ∧
        ∀ D, (r a + 1) * (Kb + 1) + 1 ≤ D →
          visitCase ⟨b, false⟩ fuel a ho path anc st =
            .ok (renderJson (sjVal h D (.ref a))) st') ∧
    (∀ l path i anc st n, StInv Kb st → safeStr path = true →
      l.all (valWFb st.heap.length) = true → l.all valSafeb = true →
      heapEvolve h st.heap → l.all (valRankb r n) = true →
      (∀ x ∈ anc, n ≤ r x) →
      travMeasure ⟨b, false⟩ st anc * Kb + l.length + 2 ≤ fuel →
      ∃ st', StInv Kb st' ∧ stEvolve st st' ∧
        ∀ D, n * (Kb + 1) + l.length + 1 ≤ D →
          arrElems ⟨b, false⟩ fuel l path i anc st =
            .ok (renderList (sjList h D l)) st') ∧
    (∀ l path anc st n, StInv Kb st → safeStr path = true →
      l.all (fun q => fieldValb (valWFb st.heap.length) q.2) = true →
      l.all (fun q => safeStr q.1 && fieldValb valSafeb q.2) = true →
      l.all (fun q => fieldNoThrowb q.2) = true →
      heapEvolve h st.heap →
      l.all (fun q => fieldValb (valRankb r n) q.2) = true →
      (∀ x ∈ anc, n ≤ r x) →
      travMeasure ⟨b, false⟩ st anc * Kb + l.length + 2 ≤ fuel →
      ∃ st', StInv Kb st' ∧ stEvolve st st' ∧
        ∀ D, n * (Kb + 1) + l.length + 1 ≤ D →
          objPairs ⟨b, false⟩ fuel l path anc st =
            .ok (renderKVs (sjKVs h D l)) st') := by
  intro fuel
  induction fuel with
  | zero => refine ⟨?_, ?_, ?_, ?_⟩ <;> intros <;> omega
  | succ fuel ih =>
    obtain ⟨ihInner, ihVisit, ihArr, ihPairs⟩ := ih
    refine ⟨?_, ?_, ?_, ?_⟩
    · -- stringifyPlusInner
      intro v path pir ia anc pk st hsi hpath hwf hvs hevh hAnc hfuel
      cases v with
      | undef =>
        refine ⟨st, hsi, stEvolve_refl st, fun D hD => ?_⟩
        have h1 : 1 ≤ D := hD
        obtain ⟨D1, rfl⟩ : ∃ D1, D = D1 + 1 := ⟨D - 1, by omega⟩
        simp only [stringifyPlusInner]
        rw [if_neg (by simp), if_neg (by simp)]
        exact congrArg (fun s => Res.ok s st) undefinedLit_render
      | jsNull =>
        refine ⟨st, hsi, stEvolve_refl st, fun D hD => ?_⟩
        have h1 : 1 ≤ D := hD
        obtain ⟨D1, rfl⟩ : ∃ D1, D = D1 + 1 := ⟨D - 1, by omega⟩
        simp only [stringifyPlusInner]
        rw [if_neg (by simp), if_neg (by simp)]
        rfl
      | bool bb =>
        refine ⟨st, hsi, stEvolve_refl st, fun D hD => ?_⟩
        have h1 : 1 ≤ D := hD
        obtain ⟨D1, rfl⟩ : ∃ D1, D = D1 + 1 := ⟨D - 1, by omega⟩
        simp only [stringifyPlusInner]
        rw [if_neg (by simp), if_neg (by simp)]
        rfl
      | num nn =>
        refine ⟨st, hsi, stEvolve_refl st, fun D hD => ?_⟩
        have h1 : 1 ≤ D := hD
        obtain ⟨D1, rfl⟩ : ∃ D1, D = D1 + 1 := ⟨D - 1, by omega⟩
        simp only [stringifyPlusInner]
        rw [if_neg (by simp), if_neg (by simp)]
        rfl
      | nonFiniteNum =>
        refine ⟨st, hsi, stEvolve_refl st, fun D hD => ?_⟩
        have h1 : 1 ≤ D := hD
        obtain ⟨D1, rfl⟩ : ∃ D1, D = D1 + 1 := ⟨D - 1, by omega⟩
        simp only [stringifyPlusInner]
        rw [if_neg (by simp), if_neg (by simp)]
        rfl
      | str s =>
        refine ⟨st, hsi, stEvolve_refl st, fun D hD => ?_⟩
        have h1 : 1 ≤ D := hD
        obtain ⟨D1, rfl⟩ : ∃ D1, D = D1 + 1 := ⟨D - 1, by omega⟩
        simp only [stringifyPlusInner]
        rw [if_neg (by simp), if_neg (by simp)]
        rfl
      | bigInt nn =>
        refine ⟨st, hsi, stEvolve_refl st, fun D hD => ?_⟩
        have h1 : 1 ≤ D := hD
        obtain ⟨D1, rfl⟩ : ∃ D1, D = D1 + 1 := ⟨D - 1, by omega⟩
        simp only [stringifyPlusInner]
        rw [if_neg (by simp), if_neg (by simp)]
        exact congrArg (fun s => Res.ok s st) (bigIntLit_render nn)
      | symbol d =>
        refine ⟨st, hsi, stEvolve_refl st, fun D hD => ?_⟩
        have h1 : 1 ≤ D := hD
        obtain ⟨D1, rfl⟩ : ∃ D1, D = D1 + 1 := ⟨D - 1, by omega⟩
        simp only [stringifyPlusInner]
        rw [if_neg (by simp), if_neg (by simp)]
        exact congrArg (fun s => Res.ok s st) (symbolLabel_render hvs)
      | func name =>
        refine ⟨st, hsi, stEvolve_refl st, fun D hD => ?_⟩
        have h1 : 1 ≤ D := hD
        obtain ⟨D1, rfl⟩ : ∃ D1, D = D1 + 1 := ⟨D - 1, by omega⟩
        simp only [stringifyPlusInner]
        rw [if_neg (by simp), if_neg (by simp)]
        exact congrArg (fun s => Res.ok s st) (functionLabel_render hvs)
      | date iso =>
        refine ⟨st, hsi, stEvolve_refl st, fun D hD => ?_⟩
        have h1 : 1 ≤ D := hD
        obtain ⟨D1, rfl⟩ : ∃ D1, D = D1 + 1 := ⟨D - 1, by omega⟩
        simp only [stringifyPlusInner]
        rw [if_neg (by simp), if_neg (by simp)]
        rfl
      | ref a =>
        have ha : a < st.heap.length := by simpa [valWFb] using hwf
        cases hlk : st.heap[a]? with
        | none =>
          rw [List.getElem?_eq_getElem ha] at hlk
          exact Option.noConfusion hlk
        | some ho =>
          have hmem : a ∉ anc := fun hm => lt_irrefl (r a) (hAnc a rfl a hm)
          obtain ⟨st', hsi', hev', hrun⟩ := ihVisit a ho path anc st hsi hpath hlk
            hmem hevh (hAnc a rfl) (by omega)
          refine ⟨st', hsi', hev', fun D hD => ?_⟩
          have hD' : (r a + 1) * (Kb + 1) + 1 ≤ D := hD
          rw [inner_ref_some ⟨b, false⟩ fuel a ho path pir ia anc pk st (by simp)
            (by simp) hlk, if_neg hmem]
          exact hrun D hD'
    · -- visitCase
      intro a ho path anc st hsi hpath hlk hmem hevh hanc hfuel
      have ha : a < st.heap.length := lookup_lt hlk
      obtain ⟨ho0, hlk0, hor⟩ := heapEvolve_lookup_back hevh hlk
      have hrank0 : objRankb r (r a) ho0 = true := rankedHeap_lookup hrank hlk0
      have hsho : settleNeedsCheck ho = settleNeedsCheck ho0 := by
        rcases hor with hv | hv
        · rw [hv]
        · rw [hv, settleNeedsCheck_idem]
      have hlk1 : (seenNote st a path).heap[a]? = some ho := by
        rw [heap_seenNote]
        exact hlk
      have hnote := stEvolve_seenNote st a path
      have hupd := stEvolve_heapUpdate (seenNote st a path) a ho hlk1
      have hpre := stEvolve_trans hnote hupd
      have hsi2 : StInv Kb (heapUpdate (seenNote st a path) a (settleNeedsCheck ho)) :=
        StInv_heapUpdate (StInv_seenNote hsi a hpath) hlk1
      have hlen2 : (heapUpdate (seenNote st a path) a (settleNeedsCheck ho)).heap.length =
          st.heap.length := by
        rw [length_heapUpdate, heap_seenNote]
      have hcg2 : ∀ x, circGet (heapUpdate (seenNote st a path) a (settleNeedsCheck ho)) x =
          circGet st x := by
        intro x
        rw [circGet_heapUpdate, circGet_seenNote]
      have hm2 := measure_visit_lt ⟨b, false⟩ anc ha hmem hlen2 hcg2
      have hK := hsi.2.2.2.2 a ho hlk
      have hWFo : objWFb st.heap.length ho = true := heap_lookup_all hsi.1 hlk
      have hSo : objSafeb ho = true := heap_lookup_all hsi.2.1 hlk
      have hNTo : objNoThrowb ho = true := heap_lookup_all hsi.2.2.1 hlk
      have hevh2 : heapEvolve h
          (heapUpdate (seenNote st a path) a (settleNeedsCheck ho)).heap := by
        show heapEvolve h ((seenNote st a path).heap.set a (settleNeedsCheck ho))
        rw [heap_seenNote]
        exact heapEvolve_set_settle hevh hlk
      have hancIns : ∀ x ∈ insert a anc, r a ≤ r x := by
        intro x hx
        rcases Finset.mem_insert.mp hx with rfl | hx
        · exact le_rfl
        · exact le_of_lt (hanc x hx)
      cases ho0 with
      | arr es0 =>
        have hho : ho = .arr es0 := by
          rcases hor with hv | hv
          · exact hv
          · rw [hv]
            rfl
        subst hho
        have hRk : es0.all (valRankb r (r a)) = true := by
          simpa [objRankb] using hrank0
        have hWFs : es0.all (valWFb st.heap.length) = true := by
          simpa [objWFb] using hWFo
        have hSs : es0.all valSafeb = true := by simpa [objSafeb] using hSo
        have hfl : travMeasure ⟨b, false⟩ (heapUpdate (seenNote st a path) a
              (settleNeedsCheck (.arr es0))) (insert a anc) * Kb
              + es0.length + 2 ≤ fuel :=
          fuel_step hm2 (by simpa [objSize] using hK) (by omega)
        obtain ⟨st2, hsi2', hev2, hrun2⟩ :=
          ihArr es0 path 0 (insert a anc)
            (heapUpdate (seenNote st a path) a (settleNeedsCheck (.arr es0))) (r a)
            hsi2 hpath (by rw [hlen2]; exact hWFs) hSs hevh2 hRk hancIns hfl
        refine ⟨st2, hsi2', stEvolve_trans hpre hev2, fun D hD => ?_⟩
        obtain ⟨D1, rfl⟩ : ∃ D1, D = D1 + 1 := ⟨D - 1, by omega⟩
        have hKK : es0.length + 2 ≤ Kb := by simpa [objSize] using hK
        have hmul : (r a + 1) * (Kb + 1) = r a * (Kb + 1) + (Kb + 1) := by ring
        have hrunD := hrun2 D1 (by omega)
        simp only [settleNeedsCheck] at hrunD
        simp only [visitCase, settleNeedsCheck]
        rw [hrunD]
        simp only [sjVal, hlk0]
        rfl
      | obj fs0 hid0 =>
        have hsettle_ho : settleNeedsCheck ho = .obj (settleFields fs0) hid0 := by
          rw [hsho]
          rfl
        have hsz : objSize ho = fs0.length := by
          rcases hor with hv | hv
          · rw [hv]
            rfl
          · rw [hv, objSize_settle]
            rfl
        have hRks : (settleFields fs0).all
            (fun q => fieldValb (valRankb r (r a)) q.2) = true := by
          have := objRankb_settle (o := .obj fs0 hid0) (by simpa [objRankb] using hrank0)
          simpa [settleNeedsCheck, objRankb] using this
        have hWFs : (settleFields fs0).all
            (fun q => fieldValb (valWFb st.heap.length) q.2) = true := by
          have := objWFb_settle (L := st.heap.length) hWFo
          rw [hsettle_ho] at this
          simpa [objWFb] using this
        have hSs : (settleFields fs0).all
            (fun q => safeStr q.1 && fieldValb valSafeb q.2) = true := by
          have := objSafeb_settle hSo
          rw [hsettle_ho] at this
          simpa [objSafeb] using this
        have hNTs : (settleFields fs0).all (fun q => fieldNoThrowb q.2) = true := by
          have := objNoThrowb_settle hNTo
          rw [hsettle_ho] at this
          simpa [objNoThrowb] using this
        have hfl : travMeasure ⟨b, false⟩ (heapUpdate (seenNote st a path) a
              (settleNeedsCheck ho)) (insert a anc) * Kb
              + (settleFields fs0).length + 2 ≤ fuel := by
          refine fuel_step hm2 ?_ (by omega)
          rw [settleFields_length]
          omega
        obtain ⟨st2, hsi2', hev2, hrun2⟩ :=
          ihPairs (settleFields fs0) path (insert a anc)
            (heapUpdate (seenNote st a path) a (settleNeedsCheck ho)) (r a)
            hsi2 hpath (by rw [hlen2]; exact hWFs) hSs hNTs hevh2 hRks hancIns hfl
        refine ⟨st2, hsi2', stEvolve_trans hpre hev2, fun D hD => ?_⟩
        obtain ⟨D1, rfl⟩ : ∃ D1, D = D1 + 1 := ⟨D - 1, by omega⟩
        have hKK : fs0.length + 2 ≤ Kb := by omega
        have hmul : (r a + 1) * (Kb + 1) = r a * (Kb + 1) + (Kb + 1) := by ring
        have hrunD := hrun2 D1 (by rw [settleFields_length]; omega)
        rw [hsettle_ho] at hrunD
        simp only [visitCase]
        rw [hsettle_ho]
        simp only [hrunD]
        simp only [sjVal, hlk0]
        rfl
    · -- arrElems
      intro l path i anc st n hsi hpath hWF hS hevh hRk hanc hfuel
      cases l with
      | nil =>
        refine ⟨st, hsi, stEvolve_refl st, fun D hD => ?_⟩
        obtain ⟨D1, rfl⟩ : ∃ D1, D = D1 + 1 := ⟨D - 1, by omega⟩
        rfl
      | cons v rest =>
        rw [List.all_cons, Bool.and_eq_true] at hWF hS hRk
        simp only [List.length_cons] at hfuel
        have hAncInner : ∀ aa, v = .ref aa → ∀ x ∈ anc, r aa < r x := by
          intro aa heq x hx
          subst heq
          have hlt : r aa < n := by simpa [valRankb] using hRk.1
          exact lt_of_lt_of_le hlt (hanc x hx)
        obtain ⟨st2, hsi2, hev2, hin⟩ := ihInner v (arrChildPath path i) false true anc
          none st hsi (arrChildPath_safe hpath i) hWF.1 hS.1 hevh hAncInner (by omega)
        have hfl2 : travMeasure ⟨b, false⟩ st2 anc * Kb + rest.length + 2 ≤ fuel := by
          have := Nat.mul_le_mul_right Kb (travMeasure_mono ⟨b, false⟩ hev2 anc)
          omega
        obtain ⟨st3, hsi3, hev3, hrest⟩ := ihArr rest path (i + 1) anc st2 n hsi2 hpath
          (by rw [hev2.1.1]; exact hWF.2) hS.2 (heapEvolve_trans hevh hev2.1) hRk.2
          hanc hfl2
        refine ⟨st3, hsi3, stEvolve_trans hev2 hev3, fun D hD => ?_⟩
        simp only [List.length_cons] at hD
        obtain ⟨D1, rfl⟩ : ∃ D1, D = D1 + 1 := ⟨D - 1, by omega⟩
        simp only [arrElems]
        rw [hin D1 (sjDepthOk_of_rank hRk.1 (by omega))]
        simp only [recElem]
        rw [hrest D1 (by omega)]
        simp only [sjList, renderList, consPart]
    · -- objPairs
      intro l path anc st n hsi hpath hWF hS hNT hevh hRk hanc hfuel
      cases l with
      | nil =>
        refine ⟨st, hsi, stEvolve_refl st, fun D hD => ?_⟩
        obtain ⟨D1, rfl⟩ : ∃ D1, D = D1 + 1 := ⟨D - 1, by omega⟩
        rfl
      | cons kf rest =>
        obtain ⟨k, f⟩ := kf
        rw [List.all_cons, Bool.and_eq_true] at hWF hS hNT hRk
        simp only [Bool.and_eq_true] at hS
        have hrest : travMeasure ⟨b, false⟩ st anc * Kb + rest.length + 2 ≤ fuel := by
          simp only [List.length_cons] at hfuel
          omega
        have hRest := ihPairs rest path anc st n hsi hpath hWF.2 hS.2 hNT.2 hevh hRk.2
          hanc hrest
        have hRestAt : ∀ st2, StInv Kb st2 → stEvolve st st2 →
            ∃ st3, StInv Kb st3 ∧ stEvolve st2 st3 ∧
              ∀ D, n * (Kb + 1) + rest.length + 1 ≤ D →
                objPairs ⟨b, false⟩ fuel rest path anc st2 =
                  .ok (renderKVs (sjKVs h D rest)) st3 := by
          intro st2 hsi2 hev2
          refine ihPairs rest path anc st2 n hsi2 hpath ?_ hS.2 hNT.2
            (heapEvolve_trans hevh hev2.1) hRk.2 hanc ?_
          · rw [hev2.1.1]
            exact hWF.2
          · have := Nat.mul_le_mul_right Kb (travMeasure_mono ⟨b, false⟩ hev2 anc)
            omega
        have hInnerAt : ∀ v : JsVal, readField f = .val v →
            ∃ st2, StInv Kb st2 ∧ stEvolve st st2 ∧
              ∀ D, n * (Kb + 1) + 1 ≤ D →
                stringifyPlusInner ⟨b, false⟩ fuel v (objChildPath path k) false false
                  anc (some k) st = .ok (renderJson (sjVal h D v)) st2 := by
          intro v hread
          have hvr : valRankb r n v = true := by
            cases f with
            | data w =>
              injection hread with hread
              subst hread
              exact hRk.1
            | getter w =>
              injection hread with hread
              subst hread
              exact hRk.1
            | getterThrows e => exact absurd hread (by simp [readField])
          have hvw : valWFb st.heap.length v = true := by
            cases f with
            | data w =>
              injection hread with hread
              subst hread
              exact hWF.1
            | getter w =>
              injection hread with hread
              subst hread
              exact hWF.1
            | getterThrows e => exact absurd hread (by simp [readField])
          have hvsafe : valSafeb v = true := by
            cases f with
            | data w =>
              injection hread with hread
              subst hread
              exact hS.1.2
            | getter w =>
              injection hread with hread
              subst hread
              exact hS.1.2
            | getterThrows e => exact absurd hread (by simp [readField])
          have hAncI : ∀ aa, v = .ref aa → ∀ x ∈ anc, r aa < r x := by
            intro aa heq x hx
            subst heq
            have hlt : r aa < n := by simpa [valRankb] using hvr
            exact lt_of_lt_of_le hlt (hanc x hx)
          obtain ⟨st2, hsi2, hev2, hin⟩ := ihInner v (objChildPath path k) false false
            anc (some k) st hsi (objChildPath_safe hpath hS.1.1) hvw hvsafe hevh hAncI
            (by omega)
          exact ⟨st2, hsi2, hev2, fun D hD => hin D (sjDepthOk_of_rank hvr hD)⟩
        simp only [objPairs]
        rw [if_neg (by simp)]
        cases f with
        | getterThrows e => simp [fieldNoThrowb] at hNT
        | data v =>
          simp only [readField]
          cases v with
          | undef =>
            exact sjPairLeaf k undefinedLit .undef (.data .undef) rfl
              (fun D hD => by
                obtain ⟨D1, rfl⟩ : ∃ D1, D = D1 + 1 := ⟨D - 1, by omega⟩
                exact undefinedLit_render) hRest
          | jsNull =>
            exact sjPairLeaf k "null" .jsNull (.data .jsNull) rfl
              (fun D hD => by
                obtain ⟨D1, rfl⟩ : ∃ D1, D = D1 + 1 := ⟨D - 1, by omega⟩
                rfl) hRest
          | func name =>
            exact sjPairLeaf k (functionLabel name) (.func name) (.data (.func name)) rfl
              (fun D hD => by
                obtain ⟨D1, rfl⟩ : ∃ D1, D = D1 + 1 := ⟨D - 1, by omega⟩
                exact functionLabel_render hS.1.2) hRest
          | symbol d =>
            exact sjPairLeaf k (symbolLabel d) (.symbol d) (.data (.symbol d)) rfl
              (fun D hD => by
                obtain ⟨D1, rfl⟩ : ∃ D1, D = D1 + 1 := ⟨D - 1, by omega⟩
                exact symbolLabel_render hS.1.2) hRest
          | bigInt nn =>
            exact sjPairLeaf k (bigIntLit nn) (.bigInt nn) (.data (.bigInt nn)) rfl
              (fun D hD => by
                obtain ⟨D1, rfl⟩ : ∃ D1, D = D1 + 1 := ⟨D - 1, by omega⟩
                exact bigIntLit_render nn) hRest
          | num nn =>
            exact sjPairRec k (.num nn) (.data (.num nn)) rfl (hInnerAt _ rfl) hRestAt
          | nonFiniteNum =>
            exact sjPairRec k .nonFiniteNum (.data .nonFiniteNum) rfl (hInnerAt _ rfl)
              hRestAt
          | str s =>
            exact sjPairRec k (.str s) (.data (.str s)) rfl (hInnerAt _ rfl) hRestAt
          | date iso =>
            exact sjPairRec k (.date iso) (.data (.date iso)) rfl (hInnerAt _ rfl)
              hRestAt
          | bool bb =>
            exact sjPairRec k (.bool bb) (.data (.bool bb)) rfl (hInnerAt _ rfl) hRestAt
          | ref aa =>
            exact sjPairRec k (.ref aa) (.data (.ref aa)) rfl (hInnerAt _ rfl) hRestAt
        | getter v =>
          simp only [readField]
          cases v with
          | undef =>
            exact sjPairLeaf k undefinedLit .undef (.getter .undef) rfl
              (fun D hD => by
                obtain ⟨D1, rfl⟩ : ∃ D1, D = D1 + 1 := ⟨D - 1, by omega⟩
                exact undefinedLit_render) hRest
          | jsNull =>
            exact sjPairLeaf k "null" .jsNull (.getter .jsNull) rfl
              (fun D hD => by
                obtain ⟨D1, rfl⟩ : ∃ D1, D = D1 + 1 := ⟨D - 1, by omega⟩
                rfl) hRest
          | func name =>
            exact sjPairLeaf k (functionLabel name) (.func name) (.getter (.func name))
              rfl
              (fun D hD => by
                obtain ⟨D1, rfl⟩ : ∃ D1, D = D1 + 1 := ⟨D - 1, by omega⟩
                exact functionLabel_render hS.1.2) hRest
          | symbol d =>
            exact sjPairLeaf k (symbolLabel d) (.symbol d) (.getter (.symbol d)) rfl
              (fun D hD => by
                obtain ⟨D1, rfl⟩ : ∃ D1, D = D1 + 1 := ⟨D - 1, by omega⟩
                exact symbolLabel_render hS.1.2) hRest
          | bigInt nn =>
            exact sjPairLeaf k (bigIntLit nn) (.bigInt nn) (.getter (.bigInt nn)) rfl
              (fun D hD => by
                obtain ⟨D1, rfl⟩ : ∃ D1, D = D1 + 1 := ⟨D - 1, by omega⟩
                exact bigIntLit_render nn) hRest
          | num nn =>
            exact sjPairRec k (.num nn) (.getter (.num nn)) rfl (hInnerAt _ rfl) hRestAt
          | nonFiniteNum =>
            exact sjPairRec k .nonFiniteNum (.getter .nonFiniteNum) rfl (hInnerAt _ rfl)
              hRestAt
          | str s =>
            exact sjPairRec k (.str s) (.getter (.str s)) rfl (hInnerAt _ rfl) hRestAt
          | date iso =>
            exact sjPairRec k (.date iso) (.getter (.date iso)) rfl (hInnerAt _ rfl)
              hRestAt
          | bool bb =>
            exact sjPairRec k (.bool bb) (.getter (.bool bb)) rfl (hInnerAt _ rfl)
              hRestAt
          | ref aa =>
            exact sjPairRec k (.ref aa) (.getter (.ref aa)) rfl (hInnerAt _ rfl) hRestAt

theorem heapMaxSize_eq_of_sizes : ∀ (h h' : List JsObj), h'.length = h.length →
    (∀ (a : Nat) (o o' : JsObj), h[a]? = some o → h'[a]? = some o' →
      objSize o' = objSize o) →
    heapMaxSize h' = heapMaxSize h := by
  intro h
  induction h with
  | nil =>
    intro h' hlen _
    cases h' with
    | nil => rfl
    | cons o t => simp at hlen
  | cons o t ih =>
    intro h' hlen hsz
    cases h' with
    | nil => simp at hlen
    | cons o' t' =>
      show max (objSize o') (heapMaxSize t') = max (objSize o) (heapMaxSize t)
      have h0 : objSize o' = objSize o := hsz 0 o o' (by simp) (by simp)
      have ht : heapMaxSize t' = heapMaxSize t := by
        apply ih
        · simpa using hlen
        · intro a oo oo' h1 h2
          exact hsz (a + 1) oo oo' (by simpa using h1) (by simpa using h2)
      rw [h0, ht]

theorem heapMaxSize_evolve {h h' : List JsObj} (he : heapEvolve h h') :
    heapMaxSize h' = heapMaxSize h := by
  apply heapMaxSize_eq_of_sizes h h' he.1
  intro a o o' h1 h2
  rcases he.2 a with hx | hx
  · rw [h2, h1] at hx
    injection hx with hx
    rw [hx]
  · rw [h2, h1] at hx
    simp only [Option.map_some'] at hx
    injection hx with hx
    rw [hx, objSize_settle]

/-- Top level: on a ranked heap the whole serialization renders exactly
the substituted value, for every large enough substitution fuel. -/
theorem stringifyPlus_sj (b : Nat) (h : List JsObj) (v : JsVal) (r : Nat → Nat)
    (hwf : heapWFb h = true) (hnt : heapNoThrowb h = true) (hsafe : heapSafeb h = true)
    (hv : valWFb h.length v = true) (hvs : valSafeb v = true)
    (hrank : rankedHeapb r h = true) :
    ∃ st', stEvolve ⟨h, [], []⟩ st' ∧
      ∀ D, sjDepthOk r (heapMaxSize h + 2) v D →
        stringifyPlus ⟨b, false⟩ h v = .ok (renderJson (sjVal h D v)) st' := by
  have hsi0 : StInv (heapMaxSize h + 2) ⟨h, [], []⟩ := by
    refine ⟨hwf, hsafe, hnt, fun x p hp => ?_, fun a ho hlk => ?_⟩
    · exact Option.noConfusion hp
    · have := objSize_le_heapMaxSize (h := h) (List.getElem?_mem hlk)
      omega
  have hm0 : travMeasure ⟨b, false⟩ ⟨h, [], []⟩ ∅ =
      h.length * b * (h.length + 1) + h.length := by
    unfold travMeasure
    rw [totalRem_init, ancCardL_empty]
    simp
  have hfuel : travMeasure ⟨b, false⟩ ⟨h, [], []⟩ ∅ * (heapMaxSize h + 2) + 2 ≤
      suffFuel ⟨b, false⟩ h := by
    rw [hm0]
    unfold suffFuel
    have h1 : h.length * b * (h.length + 1) + h.length =
        (⟨b, false⟩ : Opts).maxCircularDepth * h.length * (h.length + 1) + h.length := by
      show h.length * b * (h.length + 1) + h.length = b * h.length * (h.length + 1) + h.length
      ring
    rw [h1]
    have h2 : ((⟨b, false⟩ : Opts).maxCircularDepth * h.length * (h.length + 1) +
        h.length) * (heapMaxSize h + 2) ≤
        ((⟨b, false⟩ : Opts).maxCircularDepth * h.length * (h.length + 1) + h.length) *
          (heapMaxSize h + 8) :=
      Nat.mul_le_mul_left _ (by omega)
    omega
  obtain ⟨st', hsi', hev', hrun⟩ :=
    (sj_all b (heapMaxSize h + 2) h r hrank (suffFuel ⟨b, false⟩ h)).1 v "root" true
      false ∅ none ⟨h, [], []⟩ hsi0 (by decide) hv hvs (heapEvolve_refl h)
      (fun aa _ x hx => absurd hx (Finset.not_mem_empty x)) hfuel
  exact ⟨st', hev', hrun⟩

/-- C8 (amended): for every finite acyclic input (a heap ranked by some
`r`) that is well-formed, throw-free and escape-free, with the default
redaction setting and any revisit budget: the call succeeds with some
text `s`; a second call with the same options, run on the heap the
first call left behind (including its `needsCheck` mutations), returns
exactly the same text `s`; and `s` is precisely the rendering of the
substituted JSON value `sjVal` of the input — so the output parses back
to the input transformed by the code's substitutions: the documented
lossy ones (dates, big integers, symbols, callables, `undefined`,
non-finite numbers) plus the `needsCheck` settling the claim's list
omits. -/
theorem C8_idempotent_acyclic (b : Nat) (h : List JsObj) (v : JsVal) (r : Nat → Nat)
    (hwf : heapWFb h = true) (hnt : heapNoThrowb h = true) (hsafe : heapSafeb h = true)
    (hv : valWFb h.length v = true) (hvs : valSafeb v = true)
    (hrank : rankedHeapb r h = true) :
    ∃ s st', stringifyPlus ⟨b, false⟩ h v = .ok s st' ∧
      (∃ st2, stringifyPlus ⟨b, false⟩ st'.heap v = .ok s st2) ∧
      ∀ D, sjDepthOk r (heapMaxSize h + 2) v D → s = renderJson (sjVal h D v) := by
  obtain ⟨st', hev', hrun⟩ := stringifyPlus_sj b h v r hwf hnt hsafe hv hvs hrank
  obtain ⟨D0, hD0⟩ : ∃ D0, sjDepthOk r (heapMaxSize h + 2) v D0 := by
    cases v with
    | ref a => exact ⟨(r a + 1) * (heapMaxSize h + 2 + 1) + 1, le_refl _⟩
    | undef => exact ⟨1, le_refl 1⟩
    | jsNull => exact ⟨1, le_refl 1⟩
    | bool bb => exact ⟨1, le_refl 1⟩
    | num nn => exact ⟨1, le_refl 1⟩
    | nonFiniteNum => exact ⟨1, le_refl 1⟩
    | str s => exact ⟨1, le_refl 1⟩
    | bigInt nn => exact ⟨1, le_refl 1⟩
    | symbol d => exact ⟨1, le_refl 1⟩
    | func name => exact ⟨1, le_refl 1⟩
    | date iso => exact ⟨1, le_refl 1⟩
  have he : heapEvolve h st'.heap := hev'.1
  obtain ⟨st2, hev2, hrun2⟩ := stringifyPlus_sj b st'.heap v r
    (heapWFb_evolve he hwf) (heapNoThrowb_evolve he hnt) (heapSafeb_evolve he hsafe)
    (by rw [he.1]; exact hv) hvs (rankedHeapb_evolve he hrank)
  refine ⟨renderJson (sjVal h D0 v), st', hrun D0 hD0, ⟨st2, ?_⟩, fun D hD => ?_⟩
  · have hmax : heapMaxSize st'.heap = heapMaxSize h := heapMaxSize_evolve he
    have hD0' : sjDepthOk r (heapMaxSize st'.heap + 2) v D0 := by
      rw [hmax]
      exact hD0
    rw [hrun2 D0 hD0', (sjVal_evolve he D0).1 v]
  · have hx := hrun D hD
    rw [hrun D0 hD0] at hx
    rw [Res.ok.injEq] at hx
    exact hx.1

/-- C8 witness: a concrete acyclic heap (an object holding a number and
an array) serializes, re-serializes identically after its own mutation,
and renders its substituted value. -/
theorem C8_idempotent_acyclic_witness :
    ∃ s st', stringifyPlus ⟨1, false⟩
        [.obj [("a", .data (.num 1)), ("arr", .data (.ref 1))] [], .arr [.num 2]]
        (.ref 0) = .ok s st' ∧
      (∃ st2, stringifyPlus ⟨1, false⟩ st'.heap (.ref 0) = .ok s st2) ∧
      ∀ D, sjDepthOk (fun a => 1 - a)
          (heapMaxSize [.obj [("a", .data (.num 1)), ("arr", .data (.ref 1))] [],
            .arr [.num 2]] + 2) (.ref 0) D →
        s = renderJson (sjVal
          [.obj [("a", .data (.num 1)), ("arr", .data (.ref 1))] [], .arr [.num 2]]
          D (.ref 0)) :=
  C8_idempotent_acyclic 1
    [.obj [("a", .data (.num 1)), ("arr", .data (.ref 1))] [], .arr [.num 2]]
    (.ref 0) (fun a => 1 - a) (by decide) (by decide) (by decide) (by decide)
    (by decide) (by decide)

/-- C8 counterexample: the parse-back of `{needsCheck: true}` is
`{needsCheck: false}` — not the value the documented lossy
substitutions alone produce (`sjValSpec`, which maps booleans to
themselves), so "structurally equivalent modulo the documented lossy
substitutions (dates to text, big integers to text, symbols/functions
to descriptive strings, undefined to a marker)" fails: the `needsCheck`
settling is a further substitution the claim's list omits. -/
theorem C8_counterexample :
    resOut (stringifyPlus ⟨1, false⟩ [.obj [("needsCheck", .data (.bool true))] []]
      (.ref 0)) = some "\x7b\"needsCheck\":false\x7d" ∧
    renderJson (sjValSpec [.obj [("needsCheck", .data (.bool true))] []] 3 (.ref 0)) =
      "\x7b\"needsCheck\":true\x7d" ∧
    ("\x7b\"needsCheck\":false\x7d" : String) ≠ "\x7b\"needsCheck\":true\x7d" :=
  ⟨by decide, by decide, by decide⟩

end StringifyPlus
